import Mathlib

/-!
QEM mesh simplifier: a shallow embedding of `mesh.cpp` / `mesh.h`

The development models the mesh code of the repository (`Mesh::loadOBJ`,
`buildEdges`, `computeVertexQuadrics`, `computeEdgeCollapse`, `isValidPair`,
`collapseEdge`, `simplifyMesh`, `reindexVertices`).

Modelling conventions.

* `int` indices are `Int`.  An access `v[i]` outside `0 ≤ i < v.size()` is
  undefined behaviour in the source; here it is the fault `Fault.outOfBounds`,
  and every operation that indexes returns `Except Fault _`.
* `float` is an arbitrary carrier `F` with the operations of the class
  `Scalar`; nothing is assumed about them, so every statement proved for all
  `F` holds whatever the rounding behaviour is.  `ℚ` is the exact-arithmetic
  instance used for concrete runs; `FloatN` adds a NaN to it, for the
  statements that depend on how `<` treats NaN.
* `std::set<int>` is a list kept ascending and duplicate free by `setInsert`.
* `std::priority_queue` is an interface `PQ` (a `push` and a `pop` on the
  underlying array); `PQ.Lawful` states what the standard guarantees.
* Unbounded loops take a fuel argument; `Fault.outOfFuel` is reported when it
  runs out.
* A file is the list of its characters.  The conversion `ss >> x >> y >> z`
  of the standard library is a parameter of `loadOBJ`; word extraction and
  `std::stoi` are modelled in full.
-/

namespace QEM

/-! ## Faults -/

/-- Ways in which a run of the model can fail to produce a value. -/
inductive Fault where
  | outOfBounds
  | invalidIterator
  | emptyQueue
  | outOfFuel
  deriving DecidableEq, Repr

/-! ## Scalars, vectors, matrices (the part of GLM the source uses) -/

/-- The operations on `float` that the source relies on.  `lit q` is the
    value of the decimal literal `q`; `lt` is the comparison `<`. -/
class Scalar (F : Type) extends Add F, Sub F, Mul F, Div F, Neg F where
  lit : ℚ → F
  sqrt : F → F
  abs : F → F
  lt : F → F → Bool

/-- Newton's iteration for the integer square root of `n`, from a guess `x`
    that is not below the root. -/
def isqrtLoop : Nat → Nat → Nat → Nat
  | 0, _, x => x
  | fuel + 1, n, x =>
    let y := (x + n / x) / 2
    if y < x then isqrtLoop fuel n y else x

/-- Integer square root (floor of the real root). -/
def isqrt (n : Nat) : Nat := isqrtLoop n n n

/-- Square root on `ℚ`: exact on squares of rationals; elsewhere the roots of
    numerator and denominator are rounded down. -/
def ratSqrt (q : ℚ) : ℚ :=
  if q ≤ 0 then 0 else ((isqrt q.num.toNat : ℕ) : ℚ) / ((isqrt q.den : ℕ) : ℚ)

/-- Exact rational arithmetic as a `Scalar`. -/
instance ratScalar : Scalar ℚ where
  lit := fun q => q
  sqrt := ratSqrt
  abs := fun q => if q < 0 then -q else q
  lt := fun a b => decide (a < b)

/-- Model of `glm::vec3`. -/
structure Vec3 (F : Type) where
  x : F
  y : F
  z : F
  deriving DecidableEq, Repr

/-- Model of `glm::vec4`. -/
structure Vec4 (F : Type) where
  x : F
  y : F
  z : F
  w : F
  deriving DecidableEq, Repr

/-- Model of `glm::mat4`: four columns, `m[c][r]` is row `r` of column `c`. -/
structure Mat4 (F : Type) where
  c0 : Vec4 F
  c1 : Vec4 F
  c2 : Vec4 F
  c3 : Vec4 F
  deriving DecidableEq, Repr

section glm
variable {F : Type} [Scalar F]

/-- The literal `0.0f`. -/
def fzero : F := Scalar.lit 0
/-- The literal `1.0f`. -/
def fone : F := Scalar.lit 1

namespace Vec3

def add (a b : Vec3 F) : Vec3 F := ⟨a.x + b.x, a.y + b.y, a.z + b.z⟩
def sub (a b : Vec3 F) : Vec3 F := ⟨a.x - b.x, a.y - b.y, a.z - b.z⟩
def smul (a : Vec3 F) (s : F) : Vec3 F := ⟨a.x * s, a.y * s, a.z * s⟩

/-- Model of `glm::dot` on `vec3`. -/
def dot (a b : Vec3 F) : F := a.x * b.x + a.y * b.y + a.z * b.z

/-- Model of `glm::cross`. -/
def cross (a b : Vec3 F) : Vec3 F :=
  ⟨a.y * b.z - b.y * a.z, a.z * b.x - b.z * a.x, a.x * b.y - b.x * a.y⟩

/-- Model of `glm::length`. -/
def length (a : Vec3 F) : F := Scalar.sqrt (dot a a)

/-- Model of `glm::normalize`: `v * inversesqrt(dot(v, v))`. -/
def normalize (a : Vec3 F) : Vec3 F := smul a (fone / Scalar.sqrt (dot a a))

end Vec3

namespace Vec4

def add (a b : Vec4 F) : Vec4 F := ⟨a.x + b.x, a.y + b.y, a.z + b.z, a.w + b.w⟩
def smul (a : Vec4 F) (s : F) : Vec4 F := ⟨a.x * s, a.y * s, a.z * s, a.w * s⟩

/-- Model of `glm::dot` on `vec4`. -/
def dot (a b : Vec4 F) : F := (a.x * b.x + a.y * b.y) + (a.z * b.z + a.w * b.w)

/-- The conversion `glm::vec3(v4)`. -/
def xyz (a : Vec4 F) : Vec3 F := ⟨a.x, a.y, a.z⟩

end Vec4

namespace Mat4

/-- The matrix `glm::mat4(0.0f)`. -/
def zero : Mat4 F :=
  ⟨⟨fzero, fzero, fzero, fzero⟩, ⟨fzero, fzero, fzero, fzero⟩,
   ⟨fzero, fzero, fzero, fzero⟩, ⟨fzero, fzero, fzero, fzero⟩⟩

def add (a b : Mat4 F) : Mat4 F :=
  ⟨Vec4.add a.c0 b.c0, Vec4.add a.c1 b.c1, Vec4.add a.c2 b.c2, Vec4.add a.c3 b.c3⟩

def smul (a : Mat4 F) (s : F) : Mat4 F :=
  ⟨Vec4.smul a.c0 s, Vec4.smul a.c1 s, Vec4.smul a.c2 s, Vec4.smul a.c3 s⟩

/-- Model of `glm::outerProduct(c, r)`: column `i` is `c * r[i]`. -/
def outerProduct (c r : Vec4 F) : Mat4 F :=
  ⟨Vec4.smul c r.x, Vec4.smul c r.y, Vec4.smul c r.z, Vec4.smul c r.w⟩

/-- Model of `mat4 * vec4`. -/
def mulVec (m : Mat4 F) (v : Vec4 F) : Vec4 F :=
  Vec4.add (Vec4.add (Vec4.smul m.c0 v.x) (Vec4.smul m.c1 v.y))
           (Vec4.add (Vec4.smul m.c2 v.z) (Vec4.smul m.c3 v.w))

/-- Model of `glm::determinant` on `mat4` (cofactor expansion along the
    first column, with the 2x2 sub-factors of the last two columns). -/
def determinant (m : Mat4 F) : F :=
  let s00 := m.c2.z * m.c3.w - m.c3.z * m.c2.w
  let s01 := m.c2.y * m.c3.w - m.c3.y * m.c2.w
  let s02 := m.c2.y * m.c3.z - m.c3.y * m.c2.z
  let s03 := m.c2.x * m.c3.w - m.c3.x * m.c2.w
  let s04 := m.c2.x * m.c3.z - m.c3.x * m.c2.z
  let s05 := m.c2.x * m.c3.y - m.c3.x * m.c2.y
  let d0 := m.c1.y * s00 - m.c1.z * s01 + m.c1.w * s02
  let d1 := -(m.c1.x * s00 - m.c1.z * s03 + m.c1.w * s04)
  let d2 := m.c1.x * s01 - m.c1.y * s03 + m.c1.w * s05
  let d3 := -(m.c1.x * s02 - m.c1.y * s04 + m.c1.z * s05)
  m.c0.x * d0 + m.c0.y * d1 + m.c0.z * d2 + m.c0.w * d3

/-- Model of `glm::inverse` on `mat4`: the adjugate scaled by the reciprocal of
    the determinant. -/
def inverse (m : Mat4 F) : Mat4 F :=
  let k00 := m.c2.z * m.c3.w - m.c3.z * m.c2.w
  let k02 := m.c1.z * m.c3.w - m.c3.z * m.c1.w
  let k03 := m.c1.z * m.c2.w - m.c2.z * m.c1.w
  let k04 := m.c2.y * m.c3.w - m.c3.y * m.c2.w
  let k06 := m.c1.y * m.c3.w - m.c3.y * m.c1.w
  let k07 := m.c1.y * m.c2.w - m.c2.y * m.c1.w
  let k08 := m.c2.y * m.c3.z - m.c3.y * m.c2.z
  let k10 := m.c1.y * m.c3.z - m.c3.y * m.c1.z
  let k11 := m.c1.y * m.c2.z - m.c2.y * m.c1.z
  let k12 := m.c2.x * m.c3.w - m.c3.x * m.c2.w
  let k14 := m.c1.x * m.c3.w - m.c3.x * m.c1.w
  let k15 := m.c1.x * m.c2.w - m.c2.x * m.c1.w
  let k16 := m.c2.x * m.c3.z - m.c3.x * m.c2.z
  let k18 := m.c1.x * m.c3.z - m.c3.x * m.c1.z
  let k19 := m.c1.x * m.c2.z - m.c2.x * m.c1.z
  let k20 := m.c2.x * m.c3.y - m.c3.x * m.c2.y
  let k22 := m.c1.x * m.c3.y - m.c3.x * m.c1.y
  let k23 := m.c1.x * m.c2.y - m.c2.x * m.c1.y
  let i0x := m.c1.y * k00 - m.c1.z * k04 + m.c1.w * k08
  let i0y := m.c0.y * k00 - m.c0.z * k04 + m.c0.w * k08
  let i0z := m.c0.y * k02 - m.c0.z * k06 + m.c0.w * k10
  let i0w := m.c0.y * k03 - m.c0.z * k07 + m.c0.w * k11
  let i1x := m.c1.x * k00 - m.c1.z * k12 + m.c1.w * k16
  let i1y := m.c0.x * k00 - m.c0.z * k12 + m.c0.w * k16
  let i1z := m.c0.x * k02 - m.c0.z * k14 + m.c0.w * k18
  let i1w := m.c0.x * k03 - m.c0.z * k15 + m.c0.w * k19
  let i2x := m.c1.x * k04 - m.c1.y * k12 + m.c1.w * k20
  let i2y := m.c0.x * k04 - m.c0.y * k12 + m.c0.w * k20
  let i2z := m.c0.x * k06 - m.c0.y * k14 + m.c0.w * k22
  let i2w := m.c0.x * k07 - m.c0.y * k15 + m.c0.w * k23
  let i3x := m.c1.x * k08 - m.c1.y * k16 + m.c1.z * k20
  let i3y := m.c0.x * k08 - m.c0.y * k16 + m.c0.z * k20
  let i3z := m.c0.x * k10 - m.c0.y * k18 + m.c0.z * k22
  let i3w := m.c0.x * k11 - m.c0.y * k19 + m.c0.z * k23
  let inv : Mat4 F :=
    ⟨⟨i0x, -i0y, i0z, -i0w⟩, ⟨-i1x, i1y, -i1z, i1w⟩,
     ⟨i2x, -i2y, i2z, -i2w⟩, ⟨-i3x, i3y, -i3z, i3w⟩⟩
  let dot1 := (m.c0.x * inv.c0.x + m.c0.y * inv.c1.x) + (m.c0.z * inv.c2.x + m.c0.w * inv.c3.x)
  smul inv (fone / dot1)

end Mat4
end glm

/-! ## Data model (`mesh.h`) -/

/-- Model of `struct Vertex`. -/
structure Vertex (F : Type) where
  position : Vec3 F
  removed : Bool
  Q : Mat4 F
  deriving DecidableEq, Repr

/-- Model of `struct Face`; the fields `faceNormal`, `a`, `b`, `c`, `d` are never read
    or written by the source and are left out. -/
structure Face where
  v0 : Int
  v1 : Int
  v2 : Int
  removed : Bool
  deriving DecidableEq, Repr

/-- Model of `struct Edge`. -/
structure Edge (F : Type) where
  v0 : Int
  v1 : Int
  cost : F
  optimalPos : Vec3 F
  deriving DecidableEq, Repr

/-- Model of `struct EdgeCollapseResult`. -/
structure EdgeCollapseResult (F : Type) where
  vBar : Vec3 F
  cost : F
  valid : Bool
  deriving DecidableEq, Repr

/-- Model of `class Mesh`; `edgeHeap` is the array underlying the priority queue.
    The members `normalLines` and `collapsibleEdges` are unused by the source. -/
structure Mesh (F : Type) where
  vertices : List (Vertex F)
  faces : List Face
  edges : List (Edge F)
  edgeHeap : List (Edge F)
  vertexNeighbors : List (List Int)
  deriving DecidableEq, Repr

/-! ## Containers -/

/-- The access `v[i]` of a `std::vector`: a fault outside `0 ≤ i < size`. -/
def getAt {α : Type} (l : List α) (i : Int) : Except Fault α :=
  if i < 0 then Except.error Fault.outOfBounds
  else
    match l[i.toNat]? with
    | some a => Except.ok a
    | none => Except.error Fault.outOfBounds

/-- The store `v[i] = a`; only used after `getAt l i` succeeded. -/
def setAt {α : Type} (l : List α) (i : Int) (a : α) : List α :=
  l.set i.toNat a

/-- Model of `std::set<int>::insert`. -/
def setInsert (a : Int) : List Int → List Int
  | [] => [a]
  | b :: s => if a < b then a :: b :: s else if a = b then b :: s else b :: setInsert a s

/-- Model of `std::set<int>::erase`. -/
def setErase (a : Int) (s : List Int) : List Int :=
  s.filter (fun x => decide (x ≠ a))

/-- Interface of `std::priority_queue<Edge, std::vector<Edge>, EdgeCompare>`:
    `push` and `top`-then-`pop` on the underlying array. -/
structure PQ (F : Type) where
  push : List (Edge F) → Edge F → List (Edge F)
  pop : List (Edge F) → Option (Edge F × List (Edge F))

/-- What every implementation of the queue guarantees about its contents:
    `push` adds the record, `pop` removes exactly one record, and `pop` fails
    only on the empty queue. -/
def PQ.Lawful {F : Type} (pq : PQ F) : Prop :=
  (∀ h e, (pq.push h e).Perm (e :: h)) ∧
  (∀ h, pq.pop h = none ↔ h = []) ∧
  (∀ h e h', pq.pop h = some (e, h') → h.Perm (e :: h'))

/-- The ordering guarantee of `EdgeCompare` (`a.cost > b.cost`, a min-heap):
    no record of the queue is strictly cheaper than the one popped. -/
def PQ.MinFirst {F : Type} [Scalar F] (pq : PQ F) : Prop :=
  ∀ h e h', pq.pop h = some (e, h') → ∀ x ∈ h, Scalar.lt x.cost e.cost = false

/-- Removes the cheapest record, the earliest pushed among equally cheap ones. -/
def popMin {F : Type} [Scalar F] : List (Edge F) → Option (Edge F × List (Edge F))
  | [] => none
  | e :: h =>
    match popMin h with
    | none => some (e, [])
    | some (m, h') => if Scalar.lt m.cost e.cost then some (m, e :: h') else some (e, h)

/-- A concrete queue: records in push order, `pop` takes the cheapest, first
    pushed first among ties. -/
def listPQ (F : Type) [Scalar F] : PQ F where
  push := fun h e => h ++ [e]
  pop := popMin

section mesh
variable {F : Type} [Scalar F]

/-! ## `Mesh::buildEdges` -/

/-- One pass of the inner loop of `buildEdges` for the corner pair `(a, b)`;
    the state is `(vertexNeighbors, edgeSet, edges)`. -/
def addEdge (st : List (List Int) × List (Int × Int) × List (Edge F)) (a b : Int) :
    Except Fault (List (List Int) × List (Int × Int) × List (Edge F)) := do
  let na ← getAt st.1 a
  let nb1 := setAt st.1 a (setInsert b na)
  let sb ← getAt nb1 b
  let nb2 := setAt nb1 b (setInsert a sb)
  let mn := min a b
  let mx := max a b
  if (mn, mx) ∈ st.2.1 then pure (nb2, st.2.1, st.2.2)
  else pure (nb2, (mn, mx) :: st.2.1, st.2.2 ++ [⟨mn, mx, fzero, ⟨fzero, fzero, fzero⟩⟩])

/-- The loop over the faces in `buildEdges`. -/
def buildEdgesLoop : List Face → List (List Int) × List (Int × Int) × List (Edge F) →
    Except Fault (List (List Int) × List (Int × Int) × List (Edge F))
  | [], st => pure st
  | f :: fs, st =>
    if f.removed then buildEdgesLoop fs st
    else do
      let st1 ← addEdge st f.v0 f.v1
      let st2 ← addEdge st1 f.v1 f.v2
      let st3 ← addEdge st2 f.v2 f.v0
      buildEdgesLoop fs st3

/-- Model of `Mesh::buildEdges`. -/
def buildEdges (m : Mesh F) : Except Fault (Mesh F) := do
  let st ← buildEdgesLoop m.faces (List.replicate m.vertices.length [], [], [])
  pure { m with vertexNeighbors := st.1, edges := st.2.2 }

/-! ## `Mesh::computeVertexQuadrics` -/

/-- The update `vertices[i].Q += K`. -/
def addQ (vs : List (Vertex F)) (i : Int) (K : Mat4 F) : Except Fault (List (Vertex F)) := do
  let v ← getAt vs i
  pure (setAt vs i { v with Q := Mat4.add v.Q K })

/-- The loop over the faces in `computeVertexQuadrics`. -/
def quadricLoop : List Face → List (Vertex F) → Except Fault (List (Vertex F))
  | [], vs => pure vs
  | f :: fs, vs =>
    if f.removed then quadricLoop fs vs
    else do
      let a ← getAt vs f.v0
      let b ← getAt vs f.v1
      let c ← getAt vs f.v2
      let n := Vec3.cross (Vec3.sub b.position a.position) (Vec3.sub c.position a.position)
      if Scalar.lt (Vec3.length n) (Scalar.lit (1 / 1000000000)) then quadricLoop fs vs
      else do
        let u := Vec3.normalize n
        let plane : Vec4 F := ⟨u.x, u.y, u.z, -(Vec3.dot u a.position)⟩
        let Kp := Mat4.outerProduct plane plane
        let vs1 ← addQ vs f.v0 Kp
        let vs2 ← addQ vs1 f.v1 Kp
        let vs3 ← addQ vs2 f.v2 Kp
        quadricLoop fs vs3

/-- Model of `Mesh::computeVertexQuadrics`. -/
def computeVertexQuadrics (m : Mesh F) : Except Fault (Mesh F) := do
  let vs ← quadricLoop m.faces (m.vertices.map (fun v => { v with Q := Mat4.zero }))
  pure { m with vertices := vs }

/-! ## `Mesh::computeEdgeCollapse` -/

/-- Model of `Mesh::computeEdgeCollapse`. -/
def computeEdgeCollapse (m : Mesh F) (v0 v1 : Int) : Except Fault (EdgeCollapseResult F) := do
  let a ← getAt m.vertices v0
  let b ← getAt m.vertices v1
  let Qedge := Mat4.add a.Q b.Q
  let Qdash : Mat4 F :=
    ⟨{ Qedge.c0 with w := fzero }, { Qedge.c1 with w := fzero },
     { Qedge.c2 with w := fzero }, { Qedge.c3 with w := fone }⟩
  let det := Mat4.determinant Qdash
  let valid := Scalar.lt (Scalar.lit (1 / 10000)) (Scalar.abs det)
  let vBar : Vec3 F :=
    if valid then Vec4.xyz (Mat4.mulVec (Mat4.inverse Qdash) ⟨fzero, fzero, fzero, fone⟩)
    else Vec3.smul (Vec3.add a.position b.position) (Scalar.lit (1 / 2))
  let v4 : Vec4 F := ⟨vBar.x, vBar.y, vBar.z, fone⟩
  pure ⟨vBar, Vec4.dot v4 (Mat4.mulVec Qedge v4), valid⟩

/-! ## `Mesh::isValidPair` -/

/-- The conversion of an `int` to `size_t` (64 bit) in `vA >= vertices.size()`. -/
def toSizeT (i : Int) : Int := i % 2 ^ 64

/-- The face-flip loop of `isValidPair`. -/
def flipScreen (vs : List (Vertex F)) (vA vB : Int) (newPos : Vec3 F) :
    List Face → Except Fault Bool
  | [] => pure true
  | f :: fs =>
    if f.removed then flipScreen vs vA vB newPos fs
    else if f.v0 ≠ vA ∧ f.v1 ≠ vA ∧ f.v2 ≠ vA ∧ f.v0 ≠ vB ∧ f.v1 ≠ vB ∧ f.v2 ≠ vB then
      flipScreen vs vA vB newPos fs
    else do
      let a ← getAt vs f.v0
      let b ← getAt vs f.v1
      let c ← getAt vs f.v2
      let p0 := a.position
      let p1 := b.position
      let p2 := c.position
      let oldN := Vec3.cross (Vec3.sub p1 p0) (Vec3.sub p2 p0)
      let q0 := if f.v0 = vA ∨ f.v0 = vB then newPos else p0
      let q1 := if f.v1 = vA ∨ f.v1 = vB then newPos else p1
      let q2 := if f.v2 = vA ∨ f.v2 = vB then newPos else p2
      let newN := Vec3.cross (Vec3.sub q1 q0) (Vec3.sub q2 q0)
      if Scalar.lt (Vec3.length newN) (Scalar.lit (1 / 1000000000000)) then
        flipScreen vs vA vB newPos fs
      else if Scalar.lt (Vec3.dot oldN newN) (-(Scalar.lit (1 / 1000))) then pure false
      else flipScreen vs vA vB newPos fs

/-- Model of `Mesh::isValidPair`. -/
def isValidPair (m : Mesh F) (vA vB : Int) (newPos : Vec3 F) : Except Fault Bool :=
  if toSizeT vA ≥ m.vertices.length ∨ toSizeT vB ≥ m.vertices.length then pure false
  else do
    let a ← getAt m.vertices vA
    if a.removed then pure false
    else do
      let b ← getAt m.vertices vB
      if b.removed then pure false
      else do
        let nA ← getAt m.vertexNeighbors vA
        let common ←
          match nA with
          | [] => (pure [] : Except Fault (List Int))
          | _ :: _ => do
            let nB ← getAt m.vertexNeighbors vB
            pure (nA.filter (fun n => decide (n ∈ nB)))
        if common.length > 2 then pure false
        else flipScreen m.vertices vA vB newPos m.faces

/-! ## `Mesh::collapseEdge` -/

/-- The body of the face loop of `collapseEdge`: relabel `vB` to `vA` and mark
    the face removed when the relabelling made two corners coincide. -/
def relabelFace (vA vB : Int) (f : Face) : Face :=
  if f.removed then f
  else
    let changed := decide (f.v0 = vB) || decide (f.v1 = vB) || decide (f.v2 = vB)
    let g : Face :=
      ⟨if f.v0 = vB then vA else f.v0, if f.v1 = vB then vA else f.v1,
       if f.v2 = vB then vA else f.v2, f.removed⟩
    if changed && (decide (g.v0 = g.v1) || decide (g.v1 = g.v2) || decide (g.v2 = g.v0)) then
      { g with removed := true }
    else g

/-- The "topological migration" loop of `collapseEdge` over the elements of
    `vertexNeighbors[vB]`.  Erasing `vB` from the set that is being iterated
    (the case `n = vB`) invalidates the iterator. -/
def migrate (vA vB : Int) : List Int → List (List Int) → Except Fault (List (List Int))
  | [], nb => pure nb
  | n :: rest, nb =>
    if n = vA then migrate vA vB rest nb
    else if n = vB then Except.error Fault.invalidIterator
    else do
      let s1 ← getAt nb n
      let nb1 := setAt nb n (setErase vB s1)
      let s2 ← getAt nb1 n
      let nb2 := setAt nb1 n (setInsert vA s2)
      let s3 ← getAt nb2 vA
      let nb3 := setAt nb2 vA (setInsert n s3)
      migrate vA vB rest nb3

/-- The "re-evaluate neighbors" loop of `collapseEdge`. -/
def reseed (pq : PQ F) (m : Mesh F) (vA : Int) : List Int → List (Edge F) →
    Except Fault (List (Edge F))
  | [], h => pure h
  | n :: rest, h => do
    let res ← computeEdgeCollapse m vA n
    reseed pq m vA rest (pq.push h ⟨vA, n, res.cost, res.vBar⟩)

/-- The vertex updates at the head of `collapseEdge`: move `vA`, add the
    quadric of `vB` to that of `vA`, flag `vB` removed. -/
def collapseVertices (vs : List (Vertex F)) (e : Edge F) : Except Fault (List (Vertex F)) := do
  let a ← getAt vs e.v0
  let vs1 := setAt vs e.v0 { a with position := e.optimalPos }
  let a1 ← getAt vs1 e.v0
  let b1 ← getAt vs1 e.v1
  let vs2 := setAt vs1 e.v0 { a1 with Q := Mat4.add a1.Q b1.Q }
  let b2 ← getAt vs2 e.v1
  pure (setAt vs2 e.v1 { b2 with removed := true })

/-- The adjacency updates of `collapseEdge`: the migration loop, then
    `vertexNeighbors[vA].erase(vB)` and `vertexNeighbors[vB].clear()`. -/
def collapseAdjacency (vA vB : Int) (nb : List (List Int)) : Except Fault (List (List Int)) := do
  let nB ← getAt nb vB
  let nb1 ← migrate vA vB nB nb
  let sA ← getAt nb1 vA
  let nb2 := setAt nb1 vA (setErase vB sA)
  let _ ← getAt nb2 vB
  pure (setAt nb2 vB [])

/-- Model of `Mesh::collapseEdge`. -/
def collapseEdge (pq : PQ F) (m : Mesh F) (e : Edge F) : Except Fault (Mesh F) := do
  let vs ← collapseVertices m.vertices e
  let fs := m.faces.map (relabelFace e.v0 e.v1)
  let nb ← collapseAdjacency e.v0 e.v1 m.vertexNeighbors
  let nA ← getAt nb e.v0
  let m1 : Mesh F := { m with vertices := vs, faces := fs, vertexNeighbors := nb }
  let h ← reseed pq m1 e.v0 nA m1.edgeHeap
  pure { m1 with edgeHeap := h }

/-! ## `Mesh::reindexVertices` -/

/-- The first loop of `reindexVertices`: returns `(newVerts, oldToNew)`. -/
def reindexScan : List (Vertex F) → List (Vertex F) → List Int → List (Vertex F) × List Int
  | [], newVerts, oldToNew => (newVerts, oldToNew)
  | v :: vs, newVerts, oldToNew =>
    if v.removed then reindexScan vs newVerts (oldToNew ++ [-1])
    else reindexScan vs (newVerts ++ [v]) (oldToNew ++ [(newVerts.length : Int)])

/-- The second loop of `reindexVertices`: rewrite the corners of the
    non-removed faces through `oldToNew`. -/
def remapFaces (oldToNew : List Int) : List Face → Except Fault (List Face)
  | [] => pure []
  | f :: fs =>
    if f.removed then do
      let r ← remapFaces oldToNew fs
      pure (f :: r)
    else do
      let a ← getAt oldToNew f.v0
      let b ← getAt oldToNew f.v1
      let c ← getAt oldToNew f.v2
      let r ← remapFaces oldToNew fs
      pure (⟨a, b, c, f.removed⟩ :: r)

/-- Model of `Mesh::reindexVertices`. -/
def reindexVertices (m : Mesh F) : Except Fault (Mesh F) := do
  let sc := reindexScan m.vertices [] []
  let fs ← remapFaces sc.2 m.faces
  pure { m with vertices := sc.1, faces := fs }

/-! ## `Mesh::simplifyMesh` -/

/-- The count `for (auto& f : faces) if (!f.removed) activeFaces++`. -/
def countActive (fs : List Face) : Int :=
  ((fs.filter (fun f => !f.removed)).length : Int)

/-- The seeding loop of `simplifyMesh` over the edge list. -/
def seedHeap (pq : PQ F) (m : Mesh F) : List (Edge F) → List (Edge F) →
    Except Fault (List (Edge F))
  | [], h => pure h
  | e :: es, h => do
    let res ← computeEdgeCollapse m e.v0 e.v1
    seedHeap pq m es (pq.push h ⟨e.v0, e.v1, res.cost, res.vBar⟩)

/-- The mesh together with the locals `activeFaces` and `collapseCount` of
    `simplifyMesh`. -/
structure LoopState (F : Type) where
  mesh : Mesh F
  activeFaces : Int
  collapseCount : Int
  deriving DecidableEq, Repr

/-- The two filters applied to a popped record (staleness, then validity):
    `true` means the record is handed to `collapseEdge`. -/
def accepts (m : Mesh F) (e : Edge F) : Except Fault Bool := do
  let a ← getAt m.vertices e.v0
  if a.removed then pure false
  else do
    let b ← getAt m.vertices e.v1
    if b.removed then pure false
    else isValidPair m e.v0 e.v1 e.optimalPos

/-- One evaluation of the loop condition of `simplifyMesh` followed, when it
    holds, by one execution of the loop body.  `none` means the loop exits. -/
def loopStep (pq : PQ F) (target : Int) (s : LoopState F) :
    Except Fault (Option (LoopState F)) :=
  if s.activeFaces > target ∧ s.mesh.edgeHeap.isEmpty = false then
    match pq.pop s.mesh.edgeHeap with
    | none => Except.error Fault.emptyQueue
    | some (e, h) => do
      let m1 : Mesh F := { s.mesh with edgeHeap := h }
      let go ← accepts m1 e
      if go then do
        let m2 ← collapseEdge pq m1 e
        pure (some ⟨m2, countActive m2.faces, s.collapseCount + 1⟩)
      else pure (some { s with mesh := m1 })
  else pure none

/-- The collapse loop of `simplifyMesh`, with fuel for the number of
    iterations. -/
def collapseLoop (pq : PQ F) (target : Int) : Nat → LoopState F → Except Fault (LoopState F)
  | fuel, s => do
    let r ← loopStep pq target s
    match r with
    | none => pure s
    | some s1 =>
      match fuel with
      | 0 => Except.error Fault.outOfFuel
      | k + 1 => collapseLoop pq target k s1

/-- The state in which `simplifyMesh` enters its collapse loop: quadrics
    computed, queue emptied and seeded from the edge list, faces counted. -/
def simplifyInit (pq : PQ F) (m : Mesh F) : Except Fault (LoopState F) := do
  let m1 ← computeVertexQuadrics m
  let h ← seedHeap pq m1 m1.edges []
  let m2 : Mesh F := { m1 with edgeHeap := h }
  pure ⟨m2, countActive m2.faces, 0⟩

/-- The part of `simplifyMesh` up to the exit of the collapse loop. -/
def simplifyRun (pq : PQ F) (fuel : Nat) (m : Mesh F) (target : Int) :
    Except Fault (LoopState F) := do
  let s0 ← simplifyInit pq m
  collapseLoop pq target fuel s0

/-- Model of `Mesh::simplifyMesh`. -/
def simplifyMesh (pq : PQ F) (fuel : Nat) (m : Mesh F) (targetFaceCount : Int) :
    Except Fault (Mesh F) := do
  let s ← simplifyRun pq fuel m targetFaceCount
  reindexVertices s.mesh

end mesh

/-! ## Predicates of the data model -/

section predicates
variable {F : Type}

/-- The index `i` lies inside a container of size `n`. -/
def InRange (n : Nat) (i : Int) : Prop := 0 ≤ i ∧ i < (n : Int)

instance instDecidableInRange (n : Nat) (i : Int) : Decidable (InRange n i) :=
  inferInstanceAs (Decidable (0 ≤ i ∧ i < (n : Int)))

/-- Vertex `i` exists and is not flagged removed. -/
def aliveAt (vs : List (Vertex F)) (i : Int) : Bool :=
  match getAt vs i with
  | Except.ok v => !v.removed
  | Except.error _ => false

/-- Vertex `i` exists and is flagged removed. -/
def removedAt (vs : List (Vertex F)) (i : Int) : Bool :=
  match getAt vs i with
  | Except.ok v => v.removed
  | Except.error _ => false

/-- The relation `b ∈ N(a)`: the neighbor set of `a` exists and contains `b`. -/
def adjacent (nb : List (List Int)) (a b : Int) : Bool :=
  match getAt nb a with
  | Except.ok s => decide (b ∈ s)
  | Except.error _ => false

/-- The vertex `v` is a corner of the face `f`. -/
def Face.hasCorner (f : Face) (v : Int) : Prop := f.v0 = v ∨ f.v1 = v ∨ f.v2 = v

instance instDecidableHasCorner (f : Face) (v : Int) : Decidable (f.hasCorner v) :=
  inferInstanceAs (Decidable (f.v0 = v ∨ f.v1 = v ∨ f.v2 = v))

/-- The three corners of `f` are pairwise distinct. -/
def Face.Distinct (f : Face) : Prop := f.v0 ≠ f.v1 ∧ f.v1 ≠ f.v2 ∧ f.v2 ≠ f.v0

instance instDecidableDistinct (f : Face) : Decidable f.Distinct :=
  inferInstanceAs (Decidable (f.v0 ≠ f.v1 ∧ f.v1 ≠ f.v2 ∧ f.v2 ≠ f.v0))

/-- The three corners of `f` are non-removed vertices of `vs`. -/
def Face.Live (vs : List (Vertex F)) (f : Face) : Prop :=
  aliveAt vs f.v0 = true ∧ aliveAt vs f.v1 = true ∧ aliveAt vs f.v2 = true

instance instDecidableLive (vs : List (Vertex F)) (f : Face) : Decidable (f.Live vs) :=
  inferInstanceAs (Decidable (aliveAt vs f.v0 = true ∧ aliveAt vs f.v1 = true ∧
    aliveAt vs f.v2 = true))

/-- Every unordered pair of corners of `f` is adjacent, in both directions. -/
def Face.Linked (nb : List (List Int)) (f : Face) : Prop :=
  adjacent nb f.v0 f.v1 = true ∧ adjacent nb f.v1 f.v0 = true ∧
  adjacent nb f.v1 f.v2 = true ∧ adjacent nb f.v2 f.v1 = true ∧
  adjacent nb f.v2 f.v0 = true ∧ adjacent nb f.v0 f.v2 = true

instance instDecidableLinked (nb : List (List Int)) (f : Face) : Decidable (f.Linked nb) :=
  inferInstanceAs (Decidable (adjacent nb f.v0 f.v1 = true ∧ adjacent nb f.v1 f.v0 = true ∧
    adjacent nb f.v1 f.v2 = true ∧ adjacent nb f.v2 f.v1 = true ∧
    adjacent nb f.v2 f.v0 = true ∧ adjacent nb f.v0 f.v2 = true))

/-- Invariant 1: the corners of every non-removed face are pairwise distinct,
    non-removed vertices. -/
def FacesValid (vs : List (Vertex F)) (fs : List Face) : Prop :=
  ∀ f ∈ fs, f.removed = false → f.Distinct ∧ f.Live vs

/-- Invariant 2: for every non-removed face the adjacency set of each corner
    contains the other two corners. -/
def FacesLinked (nb : List (List Int)) (fs : List Face) : Prop :=
  ∀ f ∈ fs, f.removed = false → f.Linked nb

/-- Invariant 3, first half: adjacency is symmetric. -/
def AdjSymm (nb : List (List Int)) : Prop :=
  ∀ a b : Int, adjacent nb a b = true → adjacent nb b a = true

/-- Invariant 3, second half: `N(a)` never contains `a`. -/
def AdjIrrefl (nb : List (List Int)) : Prop :=
  ∀ a : Int, adjacent nb a a = false

/-- Invariant 4, first half: a removed vertex has an empty neighbor set. -/
def RemovedIsolated (vs : List (Vertex F)) (nb : List (List Int)) : Prop :=
  ∀ i : Int, removedAt vs i = true → ∀ b : Int, adjacent nb i b = false

/-- Shape of the adjacency structure: one neighbor set per vertex, holding
    vertex indices only. -/
def AdjShape (n : Nat) (nb : List (List Int)) : Prop :=
  nb.length = n ∧ ∀ s ∈ nb, ∀ x ∈ s, InRange n x

/-- Every record of a list of edge records joins two different existing
    vertices. -/
def RecordsOK (n : Nat) (h : List (Edge F)) : Prop :=
  ∀ e ∈ h, InRange n e.v0 ∧ InRange n e.v1 ∧ e.v0 ≠ e.v1

/-- The effect of the adjacency updates of `collapseEdge (vA, vB)` on the
    relation `b ∈ N(a)`: `nb` before, `nb'` after.  `N(vA)` absorbs `N(vB)`,
    the former neighbors of `vB` see `vA` instead of `vB`, `N(vB)` is empty,
    all other sets are unchanged. -/
def AdjAfter (vA vB : Int) (nb nb' : List (List Int)) : Prop :=
  ∀ a b, adjacent nb' a b = true ↔
    (a = vA ∧ b ≠ vB ∧ (adjacent nb vA b = true ∨ (adjacent nb vB b = true ∧ b ≠ vA))) ∨
    (a ≠ vA ∧ a ≠ vB ∧ adjacent nb vB a = true ∧
      (b = vA ∨ (adjacent nb a b = true ∧ b ≠ vB))) ∨
    (a ≠ vA ∧ a ≠ vB ∧ adjacent nb vB a = false ∧ adjacent nb a b = true)

/-- Number of vertices not flagged removed. -/
def aliveCount (vs : List (Vertex F)) : Nat :=
  vs.countP (fun v => !v.removed)

/-- Closed form of the table `oldToNew` that `reindexVertices` builds, when the
    survivors are numbered from `k`: a removed vertex maps to `-1`, a
    surviving one to the number of survivors before it. -/
def indexTable (k : Nat) : List (Vertex F) → List Int
  | [] => []
  | v :: vs => if v.removed then (-1) :: indexTable k vs else (k : Int) :: indexTable (k + 1) vs

/-- The new index of the old vertex `i`: the number of non-removed vertices
    in front of it. -/
def newIndex (vs : List (Vertex F)) (i : Int) : Int :=
  (aliveCount (vs.take i.toNat) : Int)

/-- How `remapFaces` rewrites one face through the table `tbl`. -/
def Remapped (tbl : List Int) (f f' : Face) : Prop :=
  f'.removed = f.removed ∧ (f.removed = true → f' = f) ∧
  (f.removed = false →
    getAt tbl f.v0 = Except.ok f'.v0 ∧ getAt tbl f.v1 = Except.ok f'.v1 ∧
    getAt tbl f.v2 = Except.ok f'.v2)

/-- Number of non-removed faces that have both `vA` and `vB` as corners. -/
def sharedCount (fs : List Face) (vA vB : Int) : Int :=
  ((fs.filter (fun f => !f.removed && decide (f.hasCorner vA) && decide (f.hasCorner vB))).length
    : Int)

/-- The facts about a mesh that keep the collapse loop free of faults:
    one in-range, irreflexive neighbor set per vertex, invariant 1 for the
    faces, and queue records that join two different existing vertices. -/
def MeshInv (m : Mesh F) : Prop :=
  AdjShape m.vertices.length m.vertexNeighbors ∧ AdjIrrefl m.vertexNeighbors ∧
  FacesValid m.vertices m.faces ∧ RecordsOK m.vertices.length m.edgeHeap

end predicates

/-! ## Iterating the loop, and concrete meshes for the worked runs -/

section runs
variable {F : Type} [Scalar F]

/-- The state of the collapse loop of `simplifyMesh` after `k` iterations, or
    at its exit when it exits earlier. -/
def loopIter (pq : PQ F) (target : Int) : Nat → LoopState F → Except Fault (LoopState F)
  | 0, s => pure s
  | k + 1, s => do
    let r ← loopStep pq target s
    match r with
    | none => pure s
    | some s1 => loopIter pq target k s1

end runs

deriving instance DecidableEq for Except

instance instDecidableFacesValid {F : Type} (vs : List (Vertex F)) (fs : List Face) :
    Decidable (FacesValid vs fs) :=
  inferInstanceAs (Decidable (∀ f ∈ fs, f.removed = false → f.Distinct ∧ f.Live vs))

instance instDecidableFacesLinked (nb : List (List Int)) (fs : List Face) :
    Decidable (FacesLinked nb fs) :=
  inferInstanceAs (Decidable (∀ f ∈ fs, f.removed = false → f.Linked nb))

/-- A vertex as `loadOBJ` stores it: not removed, quadric `mat4(0)`. -/
def vertexAt (x y z : ℚ) : Vertex ℚ := ⟨⟨x, y, z⟩, false, Mat4.zero⟩

/-- A face as `loadOBJ` stores it. -/
def faceOf (a b c : Int) : Face := ⟨a, b, c, false⟩

/-- A mesh as the reading loop of `loadOBJ` leaves it, before `buildEdges`. -/
def loaded (vs : List (Vertex ℚ)) (fs : List Face) : Mesh ℚ := ⟨vs, fs, [], [], []⟩

/-- The single triangle `v 0 0 0 / v 1 0 0 / v 0 1 0 / f 1 2 3`. -/
def triangle : Mesh ℚ :=
  loaded [vertexAt 0 0 0, vertexAt 1 0 0, vertexAt 0 1 0] [faceOf 0 1 2]

/-- The tetrahedron with corners `(0,0,0)`, `(0,0,1)`, `(3,0,0)`, `(0,2,0)`;
    its four face normals have the lengths 6, 3, 2 and 7, so that the plane
    vectors are rational. -/
def tetra : Mesh ℚ :=
  loaded [vertexAt 0 0 0, vertexAt 0 0 1, vertexAt 3 0 0, vertexAt 0 2 0]
    [faceOf 0 3 2, faceOf 0 2 1, faceOf 0 1 3, faceOf 2 3 1]

/-- Two triangles without a common vertex, in the plane `z = 0`. -/
def twoTriangles : Mesh ℚ :=
  loaded [vertexAt 0 0 0, vertexAt 1 0 0, vertexAt 0 1 0,
          vertexAt 5 0 0, vertexAt 6 0 0, vertexAt 5 1 0]
    [faceOf 0 1 2, faceOf 3 4 5]

/-- The quadric `k · p pᵀ` of the plane `z = 0`, `p = (0, 0, 1, 0)`. -/
def planeZ (k : ℚ) : Mat4 ℚ := ⟨⟨0, 0, 0, 0⟩, ⟨0, 0, 0, 0⟩, ⟨0, 0, k, 0⟩, ⟨0, 0, 0, 0⟩⟩

/-- The mesh `triangle` after `buildEdges`. -/
def triangleBuilt : Mesh ℚ :=
  { vertices := [vertexAt 0 0 0, vertexAt 1 0 0, vertexAt 0 1 0]
    faces := [faceOf 0 1 2]
    edges := [⟨0, 1, 0, ⟨0, 0, 0⟩⟩, ⟨1, 2, 0, ⟨0, 0, 0⟩⟩, ⟨0, 2, 0, ⟨0, 0, 0⟩⟩]
    edgeHeap := []
    vertexNeighbors := [[1, 2], [0, 2], [0, 1]] }

/-- The state in which `simplifyMesh` enters its loop on `triangleBuilt`. -/
def triangleSeeded : LoopState ℚ :=
  { mesh :=
      { vertices := [⟨⟨0, 0, 0⟩, false, planeZ 1⟩, ⟨⟨1, 0, 0⟩, false, planeZ 1⟩,
                     ⟨⟨0, 1, 0⟩, false, planeZ 1⟩]
        faces := [faceOf 0 1 2]
        edges := [⟨0, 1, 0, ⟨0, 0, 0⟩⟩, ⟨1, 2, 0, ⟨0, 0, 0⟩⟩, ⟨0, 2, 0, ⟨0, 0, 0⟩⟩]
        edgeHeap := [⟨0, 1, 0, ⟨1 / 2, 0, 0⟩⟩, ⟨1, 2, 0, ⟨1 / 2, 1 / 2, 0⟩⟩,
                     ⟨0, 2, 0, ⟨0, 1 / 2, 0⟩⟩]
        vertexNeighbors := [[1, 2], [0, 2], [0, 1]] }
    activeFaces := 1
    collapseCount := 0 }

/-- The state after the first iteration of the loop on `triangleSeeded` with
    target 0: the record `(0, 1)` was collapsed. -/
def triangleCollapsed : LoopState ℚ :=
  { mesh :=
      { vertices := [⟨⟨1 / 2, 0, 0⟩, false, planeZ 2⟩, ⟨⟨1, 0, 0⟩, true, planeZ 1⟩,
                     ⟨⟨0, 1, 0⟩, false, planeZ 1⟩]
        faces := [⟨0, 0, 2, true⟩]
        edges := [⟨0, 1, 0, ⟨0, 0, 0⟩⟩, ⟨1, 2, 0, ⟨0, 0, 0⟩⟩, ⟨0, 2, 0, ⟨0, 0, 0⟩⟩]
        edgeHeap := [⟨1, 2, 0, ⟨1 / 2, 1 / 2, 0⟩⟩, ⟨0, 2, 0, ⟨0, 1 / 2, 0⟩⟩,
                     ⟨0, 2, 0, ⟨1 / 4, 1 / 2, 0⟩⟩]
        vertexNeighbors := [[2], [], [0]] }
    activeFaces := 0
    collapseCount := 1 }

/-- The mesh `tetra` after `buildEdges`. -/
def tetraBuilt : Mesh ℚ :=
  { vertices := [vertexAt 0 0 0, vertexAt 0 0 1, vertexAt 3 0 0, vertexAt 0 2 0]
    faces := [faceOf 0 3 2, faceOf 0 2 1, faceOf 0 1 3, faceOf 2 3 1]
    edges := [⟨0, 3, 0, ⟨0, 0, 0⟩⟩, ⟨2, 3, 0, ⟨0, 0, 0⟩⟩, ⟨0, 2, 0, ⟨0, 0, 0⟩⟩,
              ⟨1, 2, 0, ⟨0, 0, 0⟩⟩, ⟨0, 1, 0, ⟨0, 0, 0⟩⟩, ⟨1, 3, 0, ⟨0, 0, 0⟩⟩]
    edgeHeap := []
    vertexNeighbors := [[1, 2, 3], [0, 2, 3], [0, 1, 3], [0, 1, 2]] }

/-- The mesh state after the first iteration of the loop of `simplifyMesh(0)` on
    `twoTriangles` (queue `listPQ`): the seed record `(0, 1)` was collapsed,
    vertex 1 and the first face are removed, vertex 0 sits at the midpoint,
    `N(0) = {2}`, `N(2) = {0}`, and the record `(0, 2)` was pushed again. -/
def boundaryMesh : Mesh ℚ :=
  { vertices := [⟨⟨1 / 2, 0, 0⟩, false, planeZ 2⟩, ⟨⟨1, 0, 0⟩, true, planeZ 1⟩,
                 ⟨⟨0, 1, 0⟩, false, planeZ 1⟩, ⟨⟨5, 0, 0⟩, false, planeZ 1⟩,
                 ⟨⟨6, 0, 0⟩, false, planeZ 1⟩, ⟨⟨5, 1, 0⟩, false, planeZ 1⟩]
    faces := [⟨0, 0, 2, true⟩, ⟨3, 4, 5, false⟩]
    edges := [⟨0, 1, 0, ⟨0, 0, 0⟩⟩, ⟨1, 2, 0, ⟨0, 0, 0⟩⟩, ⟨0, 2, 0, ⟨0, 0, 0⟩⟩,
              ⟨3, 4, 0, ⟨0, 0, 0⟩⟩, ⟨4, 5, 0, ⟨0, 0, 0⟩⟩, ⟨3, 5, 0, ⟨0, 0, 0⟩⟩]
    edgeHeap := [⟨1, 2, 0, ⟨1 / 2, 1 / 2, 0⟩⟩,
                 ⟨0, 2, 0, ⟨0, 1 / 2, 0⟩⟩, ⟨3, 4, 0, ⟨11 / 2, 0, 0⟩⟩,
                 ⟨4, 5, 0, ⟨11 / 2, 1 / 2, 0⟩⟩, ⟨3, 5, 0, ⟨5, 1 / 2, 0⟩⟩,
                 ⟨0, 2, 0, ⟨1 / 4, 1 / 2, 0⟩⟩]
    vertexNeighbors := [[2], [], [0], [4, 5], [3, 5], [3, 4]] }

/-- The record `(0, 2)` that `collapseEdge` pushed when it produced
    `boundaryMesh`. -/
def boundaryRecord : Edge ℚ := ⟨0, 2, 0, ⟨1 / 4, 1 / 2, 0⟩⟩

/-- The loop state of `simplifyMesh(1)` on `tetraBuilt` after its first
    iteration (queue `listPQ`). -/
def tetraAfterFirst : Except Fault (LoopState ℚ) :=
  simplifyInit (listPQ ℚ) tetraBuilt >>= loopIter (listPQ ℚ) 1 1

/-- The seed record of the edge `(0, 1)` of `triangle`: cost 0, midpoint. -/
def triangleRecord : Edge ℚ := ⟨0, 1, 0, ⟨1 / 2, 0, 0⟩⟩

/-- The mesh `triangleBuilt` after `collapseEdge` on `triangleRecord`. -/
def triangleAfterCollapse : Mesh ℚ :=
  { vertices := [vertexAt (1 / 2) 0 0, ⟨⟨1, 0, 0⟩, true, Mat4.zero⟩, vertexAt 0 1 0]
    faces := [⟨0, 0, 2, true⟩]
    edges := [⟨0, 1, 0, ⟨0, 0, 0⟩⟩, ⟨1, 2, 0, ⟨0, 0, 0⟩⟩, ⟨0, 2, 0, ⟨0, 0, 0⟩⟩]
    edgeHeap := [⟨0, 2, 0, ⟨1 / 4, 1 / 2, 0⟩⟩]
    vertexNeighbors := [[2], [], [0]] }

/-- The seed record of the edge `(0, 1)` of `tetra`, the cheapest one. -/
def tetraRecord : Edge ℚ := ⟨0, 1, 24 / 61, ⟨4 / 61, 6 / 61, 24 / 61⟩⟩

/-! ## Auxiliary notions for the numerical statements -/

/-- The matrix `Q_dash` of `computeEdgeCollapse`: `Q` with its fourth row
    overwritten by `(0, 0, 0, 1)`. -/
def qDash {F : Type} [Scalar F] (Q : Mat4 F) : Mat4 F :=
  ⟨{ Q.c0 with w := fzero }, { Q.c1 with w := fzero },
   { Q.c2 with w := fzero }, { Q.c3 with w := fone }⟩

/-- The homogeneous point `(p, 1)`. -/
def homog {F : Type} [Scalar F] (p : Vec3 F) : Vec4 F := ⟨p.x, p.y, p.z, fone⟩

/-- The quadric error `(p, 1)ᵀ Q (p, 1)` as the source computes it. -/
def quadricError {F : Type} [Scalar F] (Q : Mat4 F) (p : Vec3 F) : F :=
  Vec4.dot (homog p) (Mat4.mulVec Q (homog p))

/-- The value is representable as a 32 bit `int`. -/
def IsInt (i : Int) : Prop := -2 ^ 31 ≤ i ∧ i < 2 ^ 31

instance instDecidableIsInt (i : Int) : Decidable (IsInt i) :=
  inferInstanceAs (Decidable (-2 ^ 31 ≤ i ∧ i < 2 ^ 31))

/-- The set `N(vA) ∩ N(vB)`, listed in the order of `N(vA)`; empty when one of
    the two neighbor sets does not exist. -/
def commonNeighbors (nb : List (List Int)) (vA vB : Int) : List Int :=
  match getAt nb vA, getAt nb vB with
  | Except.ok sA, Except.ok sB => sA.filter (fun n => decide (n ∈ sB))
  | _, _ => []

/-- The position of vertex `i`; the origin when there is no such vertex. -/
def posAt {F : Type} [Scalar F] (vs : List (Vertex F)) (i : Int) : Vec3 F :=
  match getAt vs i with
  | Except.ok v => v.position
  | Except.error _ => ⟨fzero, fzero, fzero⟩

/-- The geometric (non-normalised) normal `(p1 - p0) × (p2 - p0)` of a face. -/
def faceNormal {F : Type} [Scalar F] (vs : List (Vertex F)) (f : Face) : Vec3 F :=
  Vec3.cross (Vec3.sub (posAt vs f.v1) (posAt vs f.v0)) (Vec3.sub (posAt vs f.v2) (posAt vs f.v0))

/-- The previewed normal of a face: the geometric normal after every corner
    equal to `vA` or `vB` has been moved to `newPos`. -/
def previewNormal {F : Type} [Scalar F] (vs : List (Vertex F)) (vA vB : Int) (newPos : Vec3 F)
    (f : Face) : Vec3 F :=
  Vec3.cross
    (Vec3.sub (if f.v1 = vA ∨ f.v1 = vB then newPos else posAt vs f.v1)
      (if f.v0 = vA ∨ f.v0 = vB then newPos else posAt vs f.v0))
    (Vec3.sub (if f.v2 = vA ∨ f.v2 = vB then newPos else posAt vs f.v2)
      (if f.v0 = vA ∨ f.v0 = vB then newPos else posAt vs f.v0))

/-- A face passes the flip test of `isValidPair`: its previewed normal is
    shorter than `1e-12`, or `oldN · newN` is not below `-0.001`. -/
def flipPass {F : Type} [Scalar F] (vs : List (Vertex F)) (vA vB : Int) (newPos : Vec3 F)
    (f : Face) : Bool :=
  Scalar.lt (Vec3.length (previewNormal vs vA vB newPos f)) (Scalar.lit (1 / 1000000000000)) ||
  !Scalar.lt (Vec3.dot (faceNormal vs f) (previewNormal vs vA vB newPos f))
    (-(Scalar.lit (1 / 1000)))

/-- The face takes part in the quadric pass: it is not removed and its
    geometric normal is not shorter than `1e-9`. -/
def contributes {F : Type} [Scalar F] (vs : List (Vertex F)) (f : Face) : Bool :=
  !f.removed && !Scalar.lt (Vec3.length (faceNormal vs f)) (Scalar.lit (1 / 1000000000))

/-- The plane vector `p = (nx, ny, nz, -n · p0)` of a face, `n` being its
    normalised geometric normal. -/
def planeOf {F : Type} [Scalar F] (vs : List (Vertex F)) (f : Face) : Vec4 F :=
  ⟨(Vec3.normalize (faceNormal vs f)).x, (Vec3.normalize (faceNormal vs f)).y,
   (Vec3.normalize (faceNormal vs f)).z,
   -(Vec3.dot (Vec3.normalize (faceNormal vs f)) (posAt vs f.v0))⟩

/-- The fundamental quadric `p pᵀ` of a face. -/
def planeQuadric {F : Type} [Scalar F] (vs : List (Vertex F)) (f : Face) : Mat4 F :=
  Mat4.outerProduct (planeOf vs f) (planeOf vs f)

/-- Adds the fundamental quadric of `f` to `Q` when `f` takes part in the
    pass and has `i` as a corner. -/
def accum {F : Type} [Scalar F] (vs : List (Vertex F)) (i : Int) (Q : Mat4 F) (f : Face) :
    Mat4 F :=
  if contributes vs f = true ∧ f.hasCorner i then Mat4.add Q (planeQuadric vs f) else Q

/-- The sum, taken in face order from `mat4(0)`, of the fundamental quadrics
    of exactly the faces that take part in the pass and have `i` as a corner. -/
def quadricSum {F : Type} [Scalar F] (vs : List (Vertex F)) (fs : List Face) (i : Int) :
    Mat4 F :=
  ((fs.filter (fun f => contributes vs f && decide (f.hasCorner i))).map
    (planeQuadric vs)).foldl Mat4.add Mat4.zero

/-- The matrix equals its transpose. -/
def Mat4.IsSymm {F : Type} (Q : Mat4 F) : Prop :=
  Q.c0.y = Q.c1.x ∧ Q.c0.z = Q.c2.x ∧ Q.c0.w = Q.c3.x ∧
  Q.c1.z = Q.c2.y ∧ Q.c1.w = Q.c3.y ∧ Q.c2.w = Q.c3.z

/-- The matrix is built from `mat4(0)` and outer products `p pᵀ` by matrix
    addition: what `computeVertexQuadrics` produces and `collapseEdge`
    accumulates. -/
inductive IsPlaneSum {F : Type} [Scalar F] : Mat4 F → Prop where
  | zero : IsPlaneSum Mat4.zero
  | plane (p : Vec4 F) : IsPlaneSum (Mat4.outerProduct p p)
  | add {A B : Mat4 F} : IsPlaneSum A → IsPlaneSum B → IsPlaneSum (Mat4.add A B)

/-- Loop invariant of `buildEdges` on its state `(vertexNeighbors, edgeSet,
    edges)`: the edge list holds the pairs of `edgeSet`, each once, in the
    order of insertion, with cost and position left at zero. -/
def SeedListOK {F : Type} [Scalar F]
    (st : List (List Int) × List (Int × Int) × List (Edge F)) : Prop :=
  st.2.2.map (fun e => (e.v0, e.v1)) = st.2.1.reverse ∧ st.2.1.Nodup ∧
  ∀ r ∈ st.2.2, r.cost = fzero ∧ r.optimalPos = ⟨fzero, fzero, fzero⟩

/-- Vertex 0 of `tetra` with the quadric that `computeVertexQuadrics` gives it. -/
def tetraV0 : Vertex ℚ :=
  ⟨⟨0, 0, 0⟩, false, ⟨⟨1, 0, 0, 0⟩, ⟨0, 1, 0, 0⟩, ⟨0, 0, 1, 0⟩, ⟨0, 0, 0, 0⟩⟩⟩

/-- Vertex 1 of `tetra` with its quadric. -/
def tetraV1 : Vertex ℚ :=
  ⟨⟨0, 0, 1⟩, false,
    ⟨⟨53 / 49, 6 / 49, 12 / 49, -12 / 49⟩, ⟨6 / 49, 58 / 49, 18 / 49, -18 / 49⟩,
     ⟨12 / 49, 18 / 49, 36 / 49, -36 / 49⟩, ⟨-12 / 49, -18 / 49, -36 / 49, 36 / 49⟩⟩⟩

/-- Vertex 2 of `tetra` with its quadric. -/
def tetraV2 : Vertex ℚ :=
  ⟨⟨3, 0, 0⟩, false,
    ⟨⟨4 / 49, 6 / 49, 12 / 49, -12 / 49⟩, ⟨6 / 49, 58 / 49, 18 / 49, -18 / 49⟩,
     ⟨12 / 49, 18 / 49, 85 / 49, -36 / 49⟩, ⟨-12 / 49, -18 / 49, -36 / 49, 36 / 49⟩⟩⟩

/-- Vertex 3 of `tetra` with its quadric. -/
def tetraV3 : Vertex ℚ :=
  ⟨⟨0, 2, 0⟩, false,
    ⟨⟨53 / 49, 6 / 49, 12 / 49, -12 / 49⟩, ⟨6 / 49, 9 / 49, 18 / 49, -18 / 49⟩,
     ⟨12 / 49, 18 / 49, 85 / 49, -36 / 49⟩, ⟨-12 / 49, -18 / 49, -36 / 49, 36 / 49⟩⟩⟩

/-- The mesh `tetraBuilt` after `computeVertexQuadrics`. -/
def tetraQuadrics : Mesh ℚ :=
  { tetraBuilt with vertices := [tetraV0, tetraV1, tetraV2, tetraV3] }

/-- The unit square `v 0 0 0 / v 1 0 0 / v 1 1 0 / v 0 1 0 / f 1 2 3 / f 1 3 4`:
    two triangles that share the diagonal `(0, 2)`. -/
def quad : Mesh ℚ :=
  loaded [vertexAt 0 0 0, vertexAt 1 0 0, vertexAt 1 1 0, vertexAt 0 1 0]
    [faceOf 0 1 2, faceOf 0 2 3]

/-- The mesh `quad` after `buildEdges`. -/
def quadBuilt : Mesh ℚ :=
  { vertices := [vertexAt 0 0 0, vertexAt 1 0 0, vertexAt 1 1 0, vertexAt 0 1 0]
    faces := [faceOf 0 1 2, faceOf 0 2 3]
    edges := [⟨0, 1, 0, ⟨0, 0, 0⟩⟩, ⟨1, 2, 0, ⟨0, 0, 0⟩⟩, ⟨0, 2, 0, ⟨0, 0, 0⟩⟩,
              ⟨2, 3, 0, ⟨0, 0, 0⟩⟩, ⟨0, 3, 0, ⟨0, 0, 0⟩⟩]
    edgeHeap := []
    vertexNeighbors := [[1, 2, 3], [0, 2], [0, 1, 3], [0, 2]] }

/-- The mesh `quadBuilt` after `computeVertexQuadrics`. -/
def quadQ : Mesh ℚ :=
  { quadBuilt with
    vertices := [⟨⟨0, 0, 0⟩, false, planeZ 2⟩, ⟨⟨1, 0, 0⟩, false, planeZ 1⟩,
                 ⟨⟨1, 1, 0⟩, false, planeZ 2⟩, ⟨⟨0, 1, 0⟩, false, planeZ 1⟩] }

/-- The five records that the seeding loop of `simplifyMesh` pushes for
    `quad`: every cost is 0, every position a midpoint. -/
def quadSeeds : List (Edge ℚ) :=
  [⟨0, 1, 0, ⟨1 / 2, 0, 0⟩⟩, ⟨1, 2, 0, ⟨1, 1 / 2, 0⟩⟩, ⟨0, 2, 0, ⟨1 / 2, 1 / 2, 0⟩⟩,
   ⟨2, 3, 0, ⟨1 / 2, 1, 0⟩⟩, ⟨0, 3, 0, ⟨0, 1 / 2, 0⟩⟩]

/-- The tetrahedron `tetra` with its vertices renumbered (old 0, 1, 2, 3 are
    new 2, 3, 0, 1), so that the cheapest edge is `(2, 3)`. -/
def tetraP : Mesh ℚ :=
  loaded [vertexAt 3 0 0, vertexAt 0 2 0, vertexAt 0 0 0, vertexAt 0 0 1]
    [faceOf 2 1 0, faceOf 2 0 3, faceOf 2 3 1, faceOf 0 1 3]

/-! ## `Mesh::loadOBJ` -/

/-- Ways in which `loadOBJ` can fail: the two exceptions of `std::stoi`, which
    the source does not catch, and a fault of `buildEdges`. -/
inductive LoadFault where
  | invalidArgument
  | outOfRange
  | mesh (f : Fault)
  deriving DecidableEq, Repr

/-- Model of `std::isspace` in the "C" locale. -/
def isSpace (c : Char) : Bool :=
  c = ' ' || c = '\t' || c = '\n' || c = '\x0b' || c = '\x0c' || c = '\r'

/-- The lines that `while (std::getline(file, line))` yields: the text is cut
    at every `'\n'`; characters after the last `'\n'` form a last line when
    there are any.  `cur` holds the characters of the current line, reversed. -/
def getLinesFrom : List Char → List Char → List (List Char)
  | [], cur => if cur.isEmpty then [] else [cur.reverse]
  | c :: cs, cur => if c = '\n' then cur.reverse :: getLinesFrom cs [] else getLinesFrom cs (c :: cur)

/-- The lines of a text, as the reading loop of `loadOBJ` sees them. -/
def getLines (text : List Char) : List (List Char) := getLinesFrom text []

/-- Skips the leading whitespace of a stream. -/
def skipSpace : List Char → List Char
  | [] => []
  | c :: cs => if isSpace c then skipSpace cs else c :: cs

/-- The longest prefix without whitespace, and what follows it. -/
def takeWord : List Char → List Char × List Char
  | [] => ([], [])
  | c :: cs => if isSpace c then ([], c :: cs) else ((c :: (takeWord cs).1), (takeWord cs).2)

/-- Model of `ss >> s` for a `std::string s` holding `prev`: leading whitespace
    is skipped and the next word is stored; at the end of the stream the
    extraction fails and `s` keeps its value. -/
def extractWord (prev : List Char) (cs : List Char) : List Char × List Char :=
  match skipSpace cs with
  | [] => (prev, [])
  | c :: r => takeWord (c :: r)

/-- The decimal digits at the head of a list. -/
def takeDigits : List Char → List Nat
  | [] => []
  | c :: cs => if '0' ≤ c ∧ c ≤ '9' then (c.toNat - 48) :: takeDigits cs else []

/-- Model of `std::stoi(str)` (base 10): whitespace and one optional sign are
    skipped, the digits that follow are converted and the rest is ignored;
    `invalid_argument` is thrown when there is no digit, `out_of_range` when
    the value is not an `int`. -/
def stoi (str : List Char) : Except LoadFault Int :=
  let body := skipSpace str
  let neg := decide (body.head? = some '-')
  let ds := takeDigits (if body.head? = some '-' ∨ body.head? = some '+' then body.tail else body)
  if ds.isEmpty then Except.error LoadFault.invalidArgument
  else
    let n : Int := (ds.foldl (fun acc d => 10 * acc + d) 0 : Nat)
    let v : Int := if neg then -n else n
    if v < -2 ^ 31 ∨ 2 ^ 31 ≤ v then Except.error LoadFault.outOfRange else Except.ok v

/-- The expression `s.substr(0, s.find('/'))`. -/
def beforeSlash (s : List Char) : List Char := s.takeWhile (fun c => decide (c ≠ '/'))

/-- The body of the branch `type == "f"`: three times `ss >> s` and
    `std::stoi` of the part of `s` before the first `/`, minus one. -/
def readFace (rest : List Char) : Except LoadFault Face := do
  let w0 := extractWord [] rest
  let i0 ← stoi (beforeSlash w0.1)
  let w1 := extractWord w0.1 w0.2
  let i1 ← stoi (beforeSlash w1.1)
  let w2 := extractWord w1.1 w1.2
  let i2 ← stoi (beforeSlash w2.1)
  pure ⟨i0 - 1, i1 - 1, i2 - 1, false⟩

/-- The first word of a line, the variable `type` of `loadOBJ`. -/
def lineType (line : List Char) : List Char := (extractWord [] line).1

/-- What follows the first word of a line. -/
def lineRest (line : List Char) : List Char := (extractWord [] line).2

/-- The body of the reading loop of `loadOBJ` for one line.  `rd` stands for
    `ss >> x >> y >> z`: it maps the rest of the line to the values that the
    three extractions leave in `x`, `y`, `z`; the vertex is appended whether
    or not they succeed. -/
def loadLine {F : Type} [Scalar F] (rd : List Char → Vec3 F) (m : Mesh F) (line : List Char) :
    Except LoadFault (Mesh F) :=
  if lineType line = ['v'] then
    pure { m with vertices := m.vertices ++ [⟨rd (lineRest line), false, Mat4.zero⟩] }
  else if lineType line = ['f'] then do
    let f ← readFace (lineRest line)
    pure { m with faces := m.faces ++ [f] }
  else pure m

/-- The reading loop of `loadOBJ`. -/
def loadLines {F : Type} [Scalar F] (rd : List Char → Vec3 F) :
    List (List Char) → Mesh F → Except LoadFault (Mesh F)
  | [], m => pure m
  | l :: ls, m => do
    let m1 ← loadLine rd m l
    loadLines rd ls m1

/-- Model of `Mesh::loadOBJ` on the text of a file that could be opened. -/
def loadOBJ {F : Type} [Scalar F] (rd : List Char → Vec3 F) (m : Mesh F) (text : List Char) :
    Except LoadFault (Mesh F) := do
  let m1 ← loadLines rd (getLines text) m
  match buildEdges m1 with
  | Except.ok m2 => pure m2
  | Except.error e => Except.error (LoadFault.mesh e)

/-- The number formed by the leading digits of the next word (0 when there
    are none), and the rest of the stream. -/
def readNat (rest : List Char) : ℚ × List Char :=
  let w := extractWord [] rest
  (((takeDigits w.1).foldl (fun acc d => 10 * acc + d) 0 : Nat), w.2)

/-- A sample reader for the concrete texts below.  It agrees with
    `ss >> x >> y >> z` on lines that hold three unsigned integers; on other
    lines the library leaves values on which no statement below depends. -/
def natReader (rest : List Char) : Vec3 ℚ :=
  ⟨(readNat rest).1, (readNat (readNat rest).2).1,
   (readNat (readNat (readNat rest).2).2).1⟩

/-- A mesh without vertices and faces. -/
def emptyMesh : Mesh ℚ := ⟨[], [], [], [], []⟩

/-! ## A carrier with NaN -/

/-- A scalar that is a rational number or NaN. It has the comparison
    behaviour of `float` that the exact carrier lacks: every `<` with a NaN
    operand is false. It has no rounding and no infinities. -/
inductive FloatN where
  | num (q : ℚ)
  | nan
  deriving DecidableEq, Repr

namespace FloatN

/-- Lifting of a binary operation: NaN when an operand is NaN. -/
def map2 (f : ℚ → ℚ → ℚ) : FloatN → FloatN → FloatN
  | num a, num b => num (f a b)
  | _, _ => nan

/-- Division: NaN when an operand is NaN; a quotient by zero, which is an
    infinity or NaN for `float`, is NaN here. -/
def quot : FloatN → FloatN → FloatN
  | num a, num b => if b = 0 then nan else num (a / b)
  | _, _ => nan

/-- Negation. -/
def negate : FloatN → FloatN
  | num a => num (-a)
  | nan => nan

/-- Square root: NaN on NaN and on negative numbers. -/
def root : FloatN → FloatN
  | num a => if a < 0 then nan else num (ratSqrt a)
  | nan => nan

/-- Absolute value: NaN on NaN. -/
def absolute : FloatN → FloatN
  | num a => num (if a < 0 then -a else a)
  | nan => nan

/-- The comparison `a < b`: false when an operand is NaN. -/
def less : FloatN → FloatN → Bool
  | num a, num b => decide (a < b)
  | _, _ => false

/-- The comparison `a ≤ b`: false when an operand is NaN. -/
def le : FloatN → FloatN → Prop
  | num a, num b => a ≤ b
  | _, _ => False

/-- The value is NaN. -/
def isNaN : FloatN → Prop
  | num _ => False
  | nan => True

instance instDecidableLe (a b : FloatN) : Decidable (le a b) := by
  cases a <;> cases b <;> unfold le <;> infer_instance

instance instDecidableIsNaN (a : FloatN) : Decidable (isNaN a) := by
  cases a <;> unfold isNaN <;> infer_instance

end FloatN

/-- Arithmetic with NaN as a `Scalar`. -/
instance nanScalar : Scalar FloatN where
  add := FloatN.map2 (fun a b => a + b)
  sub := FloatN.map2 (fun a b => a - b)
  mul := FloatN.map2 (fun a b => a * b)
  div := FloatN.quot
  neg := FloatN.negate
  lit := FloatN.num
  sqrt := FloatN.root
  abs := FloatN.absolute
  lt := FloatN.less

/-- The law of `float` comparison that replaces trichotomy: `a < b` is false
    exactly when `b ≤ a` or an operand is NaN. Here `le` and `isNaN` are the
    relation `≤` and the NaN test of the carrier. -/
def NaNOrder {F : Type} [Scalar F] (le : F → F → Prop) (isNaN : F → Prop) : Prop :=
  ∀ a b : F, Scalar.lt a b = false ↔ (le b a ∨ isNaN a ∨ isNaN b)

/-- The zero matrix over `FloatN` with a NaN in its first entry. -/
def nanQuadric : Mat4 FloatN :=
  { (Mat4.zero : Mat4 FloatN) with c0 := ⟨FloatN.nan, fzero, fzero, fzero⟩ }

/-- Two vertices at `(0, 0, 0)` and `(1, 0, 0)`; the quadric of the first has a
    NaN entry, the quadric of the second is zero. -/
def nanMesh : Mesh FloatN :=
  { vertices := [⟨⟨fzero, fzero, fzero⟩, false, nanQuadric⟩,
                 ⟨⟨fone, fzero, fzero⟩, false, Mat4.zero⟩]
    faces := []
    edges := []
    edgeHeap := []
    vertexNeighbors := [[1], [0]] }

/-- The single triangle with corners `(0,0,0)`, `(1,0,0)`, `(0,1,0)` over
    `FloatN`, with the adjacency `buildEdges` gives it. -/
def nanTriangle : Mesh FloatN :=
  { vertices := [⟨⟨fzero, fzero, fzero⟩, false, Mat4.zero⟩,
                 ⟨⟨fone, fzero, fzero⟩, false, Mat4.zero⟩,
                 ⟨⟨fzero, fone, fzero⟩, false, Mat4.zero⟩]
    faces := [faceOf 0 1 2]
    edges := []
    edgeHeap := []
    vertexNeighbors := [[1, 2], [0, 2], [0, 1]] }

/-- A position with a NaN coordinate. -/
def nanPos : Vec3 FloatN := ⟨FloatN.nan, fzero, fzero⟩

/-- The state a run returned; the empty state when it did not return. -/
def stateOf (x : Except Fault (LoopState ℚ)) : LoopState ℚ :=
  match x with
  | Except.ok s => s
  | Except.error _ => ⟨⟨[], [], [], [], []⟩, 0, 0⟩

/-- The state in which `simplifyMesh` enters its loop on `tetraBuilt` (queue
    `listPQ`). -/
def tetraSeeded : LoopState ℚ := stateOf (simplifyInit (listPQ ℚ) tetraBuilt)

/-- The state of `simplifyMesh(1)` on `tetraBuilt` after the first iteration:
    the record `(0, 1)` was collapsed. -/
def tetraFirst : LoopState ℚ := stateOf tetraAfterFirst

/-- The state of `simplifyMesh(1)` on `tetraBuilt` after the second iteration:
    the seed record `(0, 3)` was collapsed. -/
def tetraSecond : LoopState ℚ := stateOf (tetraAfterFirst >>= loopIter (listPQ ℚ) 1 1)

/-! ## The `Except` monad -/

theorem bind_ok {ε α β : Type} (a : α) (f : α → Except ε β) :
    (Except.ok a >>= f) = f a := rfl

theorem bind_error {ε α β : Type} (e : ε) (f : α → Except ε β) :
    ((Except.error e : Except ε α) >>= f) = Except.error e := rfl

theorem pure_eq_ok {ε α : Type} (a : α) : (pure a : Except ε α) = Except.ok a := rfl

theorem bind_eq_ok {ε α β : Type} {x : Except ε α} {f : α → Except ε β} {b : β} :
    (x >>= f) = Except.ok b ↔ ∃ a, x = Except.ok a ∧ f a = Except.ok b := by
  cases x with
  | error e => simp [bind_error]
  | ok a => simp [bind_ok]

/-! ## Vector access -/

theorem getAt_eq_ok {α : Type} {l : List α} {i : Int} {a : α} :
    getAt l i = Except.ok a ↔ 0 ≤ i ∧ l[i.toNat]? = some a := by
  unfold getAt
  by_cases hi : i < 0
  · have hn : ¬ 0 ≤ i := by omega
    simp [hi, hn]
  · have hp : 0 ≤ i := by omega
    simp only [hi, if_false]
    cases h : l[i.toNat]? with
    | none => simp
    | some b => simp [hp]

theorem getAt_inRange {α : Type} {l : List α} {i : Int} {a : α}
    (h : getAt l i = Except.ok a) : InRange l.length i := by
  obtain ⟨h0, h1⟩ := getAt_eq_ok.mp h
  have := (List.getElem?_eq_some.mp h1).1
  exact ⟨h0, by omega⟩

theorem getAt_of_inRange {α : Type} {l : List α} {i : Int} (h : InRange l.length i) :
    ∃ a, getAt l i = Except.ok a := by
  obtain ⟨h0, h1⟩ := h
  have hlt : i.toNat < l.length := by omega
  exact ⟨l[i.toNat], getAt_eq_ok.mpr ⟨h0, List.getElem?_eq_getElem hlt⟩⟩

theorem getAt_mem {α : Type} {l : List α} {i : Int} {a : α}
    (h : getAt l i = Except.ok a) : a ∈ l := by
  obtain ⟨_, h1⟩ := getAt_eq_ok.mp h
  exact List.getElem?_mem h1

theorem length_setAt {α : Type} (l : List α) (i : Int) (a : α) :
    (setAt l i a).length = l.length := by
  simp [setAt]

theorem getAt_setAt_self {α : Type} {l : List α} {i : Int} (a : α)
    (h : InRange l.length i) : getAt (setAt l i a) i = Except.ok a := by
  obtain ⟨h0, h1⟩ := h
  have hlt : i.toNat < l.length := by omega
  apply getAt_eq_ok.mpr
  refine ⟨h0, ?_⟩
  simp [setAt, hlt]

theorem getAt_setAt_of_ne {α : Type} {l : List α} {i j : Int} (a : α)
    (hi : 0 ≤ i) (h : j ≠ i) : getAt (setAt l i a) j = getAt l j := by
  unfold getAt
  by_cases hj : j < 0
  · simp [hj]
  · have hne : i.toNat ≠ j.toNat := by omega
    simp only [hj, if_false, setAt, List.getElem?_set_ne hne]

theorem mem_setAt {α : Type} {l : List α} {i : Int} {a x : α}
    (h : x ∈ setAt l i a) : x = a ∨ x ∈ l := by
  unfold setAt at h
  rcases List.mem_or_eq_of_mem_set h with h | h
  · exact Or.inr h
  · exact Or.inl h

/-! ## Sets of vertex indices -/

theorem mem_setInsert {a x : Int} {s : List Int} : x ∈ setInsert a s ↔ x = a ∨ x ∈ s := by
  induction s with
  | nil => simp [setInsert]
  | cons b s ih =>
    unfold setInsert
    by_cases h1 : a < b
    · simp [h1]
    · by_cases h2 : a = b
      · subst h2; simp
      · simp only [h1, h2, if_false, List.mem_cons, ih]
        tauto

theorem mem_setErase {a x : Int} {s : List Int} : x ∈ setErase a s ↔ x ∈ s ∧ x ≠ a := by
  simp [setErase]

/-! ## Reading the predicates -/

section
variable {F : Type}

theorem aliveAt_iff {vs : List (Vertex F)} {i : Int} :
    aliveAt vs i = true ↔ ∃ v, getAt vs i = Except.ok v ∧ v.removed = false := by
  unfold aliveAt
  cases h : getAt vs i with
  | error e => simp
  | ok v => simp

theorem removedAt_iff {vs : List (Vertex F)} {i : Int} :
    removedAt vs i = true ↔ ∃ v, getAt vs i = Except.ok v ∧ v.removed = true := by
  unfold removedAt
  cases h : getAt vs i with
  | error e => simp
  | ok v => simp

theorem aliveAt_inRange {vs : List (Vertex F)} {i : Int} (h : aliveAt vs i = true) :
    InRange vs.length i := by
  obtain ⟨v, hv, _⟩ := aliveAt_iff.mp h
  exact getAt_inRange hv

theorem adjacent_iff {nb : List (List Int)} {a b : Int} :
    adjacent nb a b = true ↔ ∃ s, getAt nb a = Except.ok s ∧ b ∈ s := by
  unfold adjacent
  cases h : getAt nb a with
  | error e => simp
  | ok s => simp

theorem adjacent_eq_false_iff {nb : List (List Int)} {a b : Int} :
    adjacent nb a b = false ↔ ∀ s, getAt nb a = Except.ok s → b ∉ s := by
  unfold adjacent
  cases h : getAt nb a with
  | error e => simp
  | ok s => simp

theorem adjacent_inRange {nb : List (List Int)} {a b : Int} (h : adjacent nb a b = true) :
    InRange nb.length a := by
  obtain ⟨s, hs, _⟩ := adjacent_iff.mp h
  exact getAt_inRange hs

theorem adjacent_setAt_self {nb : List (List Int)} {a : Int} (s : List Int) (b : Int)
    (h : InRange nb.length a) : adjacent (setAt nb a s) a b = decide (b ∈ s) := by
  unfold adjacent
  rw [getAt_setAt_self s h]

theorem adjacent_setAt_of_ne {nb : List (List Int)} {a c : Int} (s : List Int) (b : Int)
    (ha : 0 ≤ a) (h : c ≠ a) : adjacent (setAt nb a s) c b = adjacent nb c b := by
  unfold adjacent
  rw [getAt_setAt_of_ne s ha h]

end

/-! ## `relabelFace` -/

/-- The relabelling of a corner performed by `collapseEdge`. -/
theorem relabelFace_removed {vA vB : Int} {f : Face} (h : f.removed = true) :
    relabelFace vA vB f = f := by
  simp [relabelFace, h]

theorem relabelFace_eq {vA vB : Int} (f : Face) (h : f.removed = false) :
    relabelFace vA vB f =
      ⟨if f.v0 = vB then vA else f.v0, if f.v1 = vB then vA else f.v1,
       if f.v2 = vB then vA else f.v2,
       (decide (f.v0 = vB) || decide (f.v1 = vB) || decide (f.v2 = vB)) &&
        (decide ((if f.v0 = vB then vA else f.v0) = (if f.v1 = vB then vA else f.v1)) ||
         decide ((if f.v1 = vB then vA else f.v1) = (if f.v2 = vB then vA else f.v2)) ||
         decide ((if f.v2 = vB then vA else f.v2) = (if f.v0 = vB then vA else f.v0)))⟩ := by
  unfold relabelFace
  rw [if_neg (by simp [h])]
  dsimp only
  cases hc : ((decide (f.v0 = vB) || decide (f.v1 = vB) || decide (f.v2 = vB)) &&
        (decide ((if f.v0 = vB then vA else f.v0) = (if f.v1 = vB then vA else f.v1)) ||
         decide ((if f.v1 = vB then vA else f.v1) = (if f.v2 = vB then vA else f.v2)) ||
         decide ((if f.v2 = vB then vA else f.v2) = (if f.v0 = vB then vA else f.v0))))
  · simp [h]
  · simp

theorem relabelFace_corners {vA vB : Int} (f : Face) (h : f.removed = false) :
    (relabelFace vA vB f).v0 = (if f.v0 = vB then vA else f.v0) ∧
    (relabelFace vA vB f).v1 = (if f.v1 = vB then vA else f.v1) ∧
    (relabelFace vA vB f).v2 = (if f.v2 = vB then vA else f.v2) := by
  rw [relabelFace_eq f h]
  exact ⟨rfl, rfl, rfl⟩

theorem relabelFace_removed_iff {vA vB : Int} (f : Face) (h : f.removed = false)
    (hd : f.Distinct) (hne : vA ≠ vB) :
    (relabelFace vA vB f).removed = true ↔ f.hasCorner vA ∧ f.hasCorner vB := by
  obtain ⟨h01, h12, h20⟩ := hd
  rw [relabelFace_eq f h]
  unfold Face.hasCorner
  by_cases c0 : f.v0 = vB <;> by_cases c1 : f.v1 = vB <;> by_cases c2 : f.v2 = vB <;>
    simp [c0, c1, c2] <;> omega

/-- A face that survives `relabelFace` has live, distinct corners again, none
    of them `vB`. -/
theorem relabelFace_survivor {vA vB : Int} (f : Face) (h : f.removed = false)
    (hd : f.Distinct) (hne : vA ≠ vB) (hs : (relabelFace vA vB f).removed = false) :
    (relabelFace vA vB f).Distinct ∧ ¬ (relabelFace vA vB f).hasCorner vB ∧
    ¬ (f.hasCorner vA ∧ f.hasCorner vB) := by
  have hiff := relabelFace_removed_iff f h hd hne
  have hnb : ¬ (f.hasCorner vA ∧ f.hasCorner vB) := by
    intro hb; rw [hiff.mpr hb] at hs; exact absurd hs (by decide)
  obtain ⟨e0, e1, e2⟩ := @relabelFace_corners vA vB f h
  obtain ⟨h01, h12, h20⟩ := hd
  unfold Face.Distinct Face.hasCorner at *
  rw [e0, e1, e2]
  by_cases c0 : f.v0 = vB <;> by_cases c1 : f.v1 = vB <;> by_cases c2 : f.v2 = vB <;>
    simp [c0, c1, c2] at hnb ⊢ <;> omega

section
variable {F : Type} [Scalar F]

/-! ## `collapseVertices` -/

theorem collapseVertices_ok {vs : List (Vertex F)} {e : Edge F}
    (h0 : InRange vs.length e.v0) (h1 : InRange vs.length e.v1) :
    ∃ vs', collapseVertices vs e = Except.ok vs' := by
  obtain ⟨a, ha⟩ := getAt_of_inRange h0
  unfold collapseVertices
  simp only [ha, bind_ok]
  rw [getAt_setAt_self _ h0]
  simp only [bind_ok]
  obtain ⟨b1, hb1⟩ := getAt_of_inRange
    (l := setAt vs e.v0 { a with position := e.optimalPos }) (i := e.v1)
    (by rw [length_setAt]; exact h1)
  simp only [hb1, bind_ok]
  obtain ⟨b2, hb2⟩ := getAt_of_inRange
    (l := setAt (setAt vs e.v0 { a with position := e.optimalPos }) e.v0
      { position := e.optimalPos, removed := a.removed, Q := Mat4.add a.Q b1.Q }) (i := e.v1)
    (by rw [length_setAt, length_setAt]; exact h1)
  simp only [hb2, bind_ok]
  exact ⟨_, rfl⟩

theorem collapseVertices_spec {vs vs' : List (Vertex F)} {e : Edge F}
    (h : collapseVertices vs e = Except.ok vs') :
    vs'.length = vs.length ∧ InRange vs.length e.v0 ∧ InRange vs.length e.v1 ∧
    (∀ i v', getAt vs' i = Except.ok v' →
      ∃ v, getAt vs i = Except.ok v ∧ v'.removed = (v.removed || decide (i = e.v1))) := by
  simp only [collapseVertices, bind_eq_ok, pure_eq_ok, Except.ok.injEq] at h
  obtain ⟨a, ha, a1, ha1, b1, hb1, b2, hb2, rfl⟩ := h
  have r0 : InRange vs.length e.v0 := getAt_inRange ha
  have r1 : InRange vs.length e.v1 := by
    have := getAt_inRange hb1
    rwa [length_setAt] at this
  rw [getAt_setAt_self _ r0] at ha1
  cases ha1
  refine ⟨by simp [length_setAt], r0, r1, ?_⟩
  intro i v' hv'
  have r1' : InRange (setAt (setAt vs e.v0 { a with position := e.optimalPos }) e.v0
      { position := e.optimalPos, removed := a.removed, Q := Mat4.add a.Q b1.Q }).length e.v1 := by
    rw [length_setAt, length_setAt]; exact r1
  have r0' : InRange (setAt vs e.v0 { a with position := e.optimalPos }).length e.v0 := by
    rw [length_setAt]; exact r0
  by_cases hi1 : i = e.v1
  · subst hi1
    rw [getAt_setAt_self _ r1'] at hv'
    cases hv'
    obtain ⟨v, hv⟩ := getAt_of_inRange r1
    exact ⟨v, hv, by simp⟩
  · rw [getAt_setAt_of_ne _ r1.1 hi1] at hv'
    by_cases hi0 : i = e.v0
    · subst hi0
      rw [getAt_setAt_self _ r0'] at hv'
      cases hv'
      exact ⟨a, ha, by simp [hi1]⟩
    · rw [getAt_setAt_of_ne _ r0.1 hi0, getAt_setAt_of_ne _ r0.1 hi0] at hv'
      exact ⟨v', hv', by simp [hi1]⟩

theorem collapseVertices_alive {vs vs' : List (Vertex F)} {e : Edge F}
    (h : collapseVertices vs e = Except.ok vs') (i : Int) :
    aliveAt vs' i = (aliveAt vs i && decide (i ≠ e.v1)) := by
  obtain ⟨hlen, _, _, hsp⟩ := collapseVertices_spec h
  unfold aliveAt
  cases hv' : getAt vs' i with
  | error er =>
    cases hv : getAt vs i with
    | error er' => simp
    | ok v =>
      have := getAt_inRange hv
      rw [← hlen] at this
      obtain ⟨w, hw⟩ := getAt_of_inRange this
      rw [hw] at hv'; cases hv'
  | ok v' =>
    obtain ⟨v, hv, hr⟩ := hsp i v' hv'
    rw [hv]
    simp only [hr]
    by_cases hi : i = e.v1 <;> simp [hi]

theorem collapseVertices_removed {vs vs' : List (Vertex F)} {e : Edge F}
    (h : collapseVertices vs e = Except.ok vs') (i : Int) :
    removedAt vs' i = (removedAt vs i || decide (i = e.v1)) := by
  obtain ⟨hlen, _, hr1, hsp⟩ := collapseVertices_spec h
  unfold removedAt
  cases hv' : getAt vs' i with
  | error er =>
    cases hv : getAt vs i with
    | error er' =>
      have hne : i ≠ e.v1 := by
        intro hc; subst hc
        obtain ⟨w, hw⟩ := getAt_of_inRange hr1
        rw [hw] at hv; cases hv
      simp [hne]
    | ok v =>
      have := getAt_inRange hv
      rw [← hlen] at this
      obtain ⟨w, hw⟩ := getAt_of_inRange this
      rw [hw] at hv'; cases hv'
  | ok v' =>
    obtain ⟨v, hv, hr⟩ := hsp i v' hv'
    rw [hv]
    simp only [hr]

end

/-! ## The migration loop of `collapseEdge` -/

/-- The adjacency structure after one pass of the migration loop body. -/
theorem migrate_cons {vA vB x : Int} {rest : List Int} {nb : List (List Int)}
    (hx : InRange nb.length x) (hA : InRange nb.length vA) (hxA : x ≠ vA) (hxB : x ≠ vB) :
    ∃ nb3, migrate vA vB (x :: rest) nb = migrate vA vB rest nb3 ∧ nb3.length = nb.length ∧
      ∀ a b, adjacent nb3 a b = true ↔
        (a = vA ∧ (b = x ∨ adjacent nb vA b = true)) ∨
        (a = x ∧ (b = vA ∨ (adjacent nb x b = true ∧ b ≠ vB))) ∨
        (a ≠ vA ∧ a ≠ x ∧ adjacent nb a b = true) := by
  obtain ⟨s1, hs1⟩ := getAt_of_inRange hx
  obtain ⟨s3, hs3⟩ := getAt_of_inRange hA
  have hx1 : InRange (setAt nb x (setErase vB s1)).length x := by
    rw [length_setAt]; exact hx
  have hA2 : InRange (setAt (setAt nb x (setErase vB s1)) x
      (setInsert vA (setErase vB s1))).length vA := by
    rw [length_setAt, length_setAt]; exact hA
  have hAx : vA ≠ x := fun h => hxA h.symm
  refine ⟨setAt (setAt (setAt nb x (setErase vB s1)) x (setInsert vA (setErase vB s1))) vA
    (setInsert x s3), ?_, by simp [length_setAt], ?_⟩
  · rw [migrate]
    simp only [hxA, hxB, if_false, hs1, bind_ok]
    rw [getAt_setAt_self _ hx]
    simp only [bind_ok]
    rw [getAt_setAt_of_ne _ hx.1 hAx, getAt_setAt_of_ne _ hx.1 hAx, hs3]
    simp only [bind_ok]
  · intro a b
    by_cases haA : a = vA
    · subst haA
      rw [adjacent_setAt_self _ _ hA2]
      have : adjacent nb a b = true ↔ b ∈ s3 := by
        rw [adjacent_iff]; constructor
        · rintro ⟨s, hs, hb⟩; rw [hs3] at hs; cases hs; exact hb
        · intro hb; exact ⟨s3, hs3, hb⟩
      simp only [decide_eq_true_eq, mem_setInsert, this]
      tauto
    · rw [adjacent_setAt_of_ne _ _ hA.1 haA]
      by_cases hax : a = x
      · subst hax
        rw [adjacent_setAt_self _ _ hx1]
        have : adjacent nb a b = true ↔ b ∈ s1 := by
          rw [adjacent_iff]; constructor
          · rintro ⟨s, hs, hb⟩; rw [hs1] at hs; cases hs; exact hb
          · intro hb; exact ⟨s1, hs1, hb⟩
        simp only [decide_eq_true_eq, mem_setInsert, mem_setErase, this]
        tauto
      · rw [adjacent_setAt_of_ne _ _ hx.1 hax, adjacent_setAt_of_ne _ _ hx.1 hax]
        constructor
        · intro h; exact Or.inr (Or.inr ⟨haA, hax, h⟩)
        · rintro (⟨h, _⟩ | ⟨h, _⟩ | ⟨_, _, h⟩)
          · exact absurd h haA
          · exact absurd h hax
          · exact h

/-- The migration loop runs without fault on in-range neighbor lists that do
    not contain `vB`, and its effect on the adjacency relation. -/
theorem migrate_spec {vA vB : Int} (hAB : vA ≠ vB) :
    ∀ (L : List Int) (nb : List (List Int)), InRange nb.length vA →
      (∀ x ∈ L, InRange nb.length x) → vB ∉ L →
      ∃ nb', migrate vA vB L nb = Except.ok nb' ∧ nb'.length = nb.length ∧
        ∀ a b, adjacent nb' a b = true ↔
          (a = vA ∧ (adjacent nb vA b = true ∨ (b ∈ L ∧ b ≠ vA))) ∨
          (a ≠ vA ∧ a ∈ L ∧ (b = vA ∨ (adjacent nb a b = true ∧ b ≠ vB))) ∨
          (a ≠ vA ∧ a ∉ L ∧ adjacent nb a b = true) := by
  intro L
  induction L with
  | nil =>
    intro nb _ _ _
    refine ⟨nb, rfl, rfl, ?_⟩
    intro a b
    by_cases haA : a = vA <;> simp [haA]
  | cons x rest ih =>
    intro nb hA hL hB
    have hBx : x ≠ vB := fun h => hB (by simp [h])
    have hBrest : vB ∉ rest := fun h => hB (List.mem_cons_of_mem _ h)
    have hLrest : ∀ y ∈ rest, InRange nb.length y := fun y hy => hL y (List.mem_cons_of_mem _ hy)
    by_cases hxA : x = vA
    · obtain ⟨nb', h1, h2, h3⟩ := ih nb hA hLrest hBrest
      refine ⟨nb', ?_, h2, ?_⟩
      · rw [migrate]; simp only [hxA, if_true] at *; exact h1
      · intro a b
        rw [h3 a b]
        subst hxA
        simp only [List.mem_cons]
        by_cases haA : a = x
        · subst haA; simp; tauto
        · simp [haA]
    · obtain ⟨nb3, e1, e2, e3⟩ := @migrate_cons _ _ _ rest _
        (hL x (List.mem_cons_self _ _)) hA hxA hBx
      obtain ⟨nb', h1, h2, h3⟩ := ih nb3 (by rw [e2]; exact hA)
        (by intro y hy; rw [e2]; exact hLrest y hy) hBrest
      refine ⟨nb', by rw [e1]; exact h1, by rw [h2, e2], ?_⟩
      intro a b
      rw [h3 a b, e3 a b, e3 vA b]
      simp only [List.mem_cons]
      have hAx : vA ≠ x := fun h => hxA h.symm
      by_cases haA : a = vA
      · subst haA
        have hbx : b = x → b ≠ a := fun h1 h2 => hAx (h2.symm.trans h1)
        simp [hAx]
        tauto
      · by_cases hax : a = x
        · subst hax
          simp [haA]
          tauto
        · simp [haA, hax]

/-- `collapseAdjacency` runs without fault on a well-shaped adjacency
    structure, and its effect on the adjacency relation. -/
theorem collapseAdjacency_spec {n : Nat} {vA vB : Int} {nb : List (List Int)}
    (hshape : AdjShape n nb) (hAB : vA ≠ vB) (hA : InRange n vA) (hB : InRange n vB)
    (hirr : adjacent nb vB vB = false) :
    ∃ nb', collapseAdjacency vA vB nb = Except.ok nb' ∧ nb'.length = nb.length ∧
      ∀ a b, adjacent nb' a b = true ↔
        (a = vA ∧ b ≠ vB ∧ (adjacent nb vA b = true ∨ (adjacent nb vB b = true ∧ b ≠ vA))) ∨
        (a ≠ vA ∧ a ≠ vB ∧ adjacent nb vB a = true ∧
          (b = vA ∨ (adjacent nb a b = true ∧ b ≠ vB))) ∨
        (a ≠ vA ∧ a ≠ vB ∧ adjacent nb vB a = false ∧ adjacent nb a b = true) := by
  obtain ⟨hlen, hmem⟩ := hshape
  subst hlen
  obtain ⟨nB, hnB⟩ := getAt_of_inRange hB
  have hBmem : ∀ x, adjacent nb vB x = true ↔ x ∈ nB := by
    intro x; rw [adjacent_iff]; constructor
    · rintro ⟨s, hs, hb⟩; rw [hnB] at hs; cases hs; exact hb
    · intro hb; exact ⟨nB, hnB, hb⟩
  have hBnot : vB ∉ nB := by
    intro h; rw [← hBmem] at h; rw [h] at hirr; cases hirr
  obtain ⟨nb1, h1, h2, h3⟩ := migrate_spec hAB nB nb hA
    (fun x hx => hmem nB (getAt_mem hnB) x hx) hBnot
  have hA1 : InRange nb1.length vA := by rw [h2]; exact hA
  obtain ⟨sA, hsA⟩ := getAt_of_inRange hA1
  have hB2 : InRange (setAt nb1 vA (setErase vB sA)).length vB := by
    rw [length_setAt, h2]; exact hB
  obtain ⟨xx, hxx⟩ := getAt_of_inRange hB2
  refine ⟨setAt (setAt nb1 vA (setErase vB sA)) vB [], ?_, by simp [length_setAt, h2], ?_⟩
  · unfold collapseAdjacency
    simp only [hnB, bind_ok, h1, hsA, hxx, pure_eq_ok]
  · intro a b
    by_cases haB : a = vB
    · subst haB
      rw [adjacent_setAt_self _ _ hB2]
      simp [hAB.symm]
    · rw [adjacent_setAt_of_ne _ _ hB.1 haB]
      by_cases haA : a = vA
      · subst haA
        rw [adjacent_setAt_self _ _ hA1]
        have hsAmem : b ∈ sA ↔ adjacent nb1 a b = true := by
          rw [adjacent_iff]; constructor
          · intro hb; exact ⟨sA, hsA, hb⟩
          · rintro ⟨s, hs, hb⟩; rw [hsA] at hs; cases hs; exact hb
        simp only [decide_eq_true_eq, mem_setErase, hsAmem, h3 a b, hBmem]
        simp [haB]
        tauto
      · rw [adjacent_setAt_of_ne _ _ hA.1 haA, h3 a b]
        simp only [haA, haB, false_and, false_or, not_false_eq_true, true_and, ne_eq, hBmem]
        by_cases hin : a ∈ nB
        · have ht : adjacent nb vB a = true := (hBmem a).mpr hin
          simp [hin, ht]
        · have hf : adjacent nb vB a = false := by
            rw [Bool.eq_false_iff]; intro hc; exact hin ((hBmem a).mp hc)
          simp [hin, hf]

theorem getAt_of_mem {α : Type} {l : List α} {a : α} (h : a ∈ l) :
    ∃ i, getAt l i = Except.ok a := by
  obtain ⟨k, hk, rfl⟩ := List.getElem_of_mem h
  refine ⟨(k : Int), getAt_eq_ok.mpr ⟨by omega, ?_⟩⟩
  simp [List.getElem?_eq_getElem hk]

/-- The elements of the neighbor sets are exactly the second components of the
    adjacency relation. -/
theorem forall_mem_iff_adjacent {nb : List (List Int)} {P : Int → Prop} :
    (∀ s ∈ nb, ∀ x ∈ s, P x) ↔ ∀ a b, adjacent nb a b = true → P b := by
  constructor
  · intro h a b hab
    obtain ⟨s, hs, hb⟩ := adjacent_iff.mp hab
    exact h s (getAt_mem hs) b hb
  · intro h s hs x hx
    obtain ⟨i, hi⟩ := getAt_of_mem hs
    exact h i x (adjacent_iff.mpr ⟨s, hi, hx⟩)

theorem adjShape_of_symm {n : Nat} {nb : List (List Int)} (hlen : nb.length = n)
    (hsym : AdjSymm nb) : AdjShape n nb := by
  refine ⟨hlen, forall_mem_iff_adjacent.mpr ?_⟩
  intro a b hab
  have := adjacent_inRange (hsym a b hab)
  rwa [hlen] at this

section
variable {F : Type} [Scalar F]

/-! ## `computeEdgeCollapse` and the re-seeding loop -/

theorem computeEdgeCollapse_ok {m : Mesh F} {v0 v1 : Int}
    (h0 : InRange m.vertices.length v0) (h1 : InRange m.vertices.length v1) :
    ∃ r, computeEdgeCollapse m v0 v1 = Except.ok r := by
  obtain ⟨a, ha⟩ := getAt_of_inRange h0
  obtain ⟨b, hb⟩ := getAt_of_inRange h1
  unfold computeEdgeCollapse
  simp only [ha, hb, bind_ok, pure_eq_ok]
  exact ⟨_, rfl⟩

theorem computeEdgeCollapse_inRange {m : Mesh F} {v0 v1 : Int} {r : EdgeCollapseResult F}
    (h : computeEdgeCollapse m v0 v1 = Except.ok r) :
    InRange m.vertices.length v0 ∧ InRange m.vertices.length v1 := by
  simp only [computeEdgeCollapse, bind_eq_ok] at h
  obtain ⟨a, ha, b, hb, _⟩ := h
  exact ⟨getAt_inRange ha, getAt_inRange hb⟩

/-- The re-seeding loop succeeds when the neighbors are existing vertices; it
    adds one record `(vA, n)` per neighbor `n`. -/
theorem reseed_spec {pq : PQ F} (hpq : pq.Lawful) {m : Mesh F} {vA : Int}
    (hA : InRange m.vertices.length vA) :
    ∀ (L : List Int) (h : List (Edge F)), (∀ x ∈ L, InRange m.vertices.length x) →
      ∃ h', reseed pq m vA L h = Except.ok h' ∧ h'.length = h.length + L.length ∧
        ∀ e ∈ h', e ∈ h ∨ (e.v0 = vA ∧ e.v1 ∈ L) := by
  intro L
  induction L with
  | nil =>
    intro h _
    exact ⟨h, rfl, by simp, fun e he => Or.inl he⟩
  | cons x rest ih =>
    intro h hL
    obtain ⟨r, hr⟩ := computeEdgeCollapse_ok hA (hL x (List.mem_cons_self _ _))
    obtain ⟨h', e1, e2, e3⟩ := ih (pq.push h ⟨vA, x, r.cost, r.vBar⟩)
      (fun y hy => hL y (List.mem_cons_of_mem _ hy))
    have hperm := hpq.1 h ⟨vA, x, r.cost, r.vBar⟩
    refine ⟨h', ?_, ?_, ?_⟩
    · rw [reseed]; simp only [hr, bind_ok]; exact e1
    · rw [e2, hperm.length_eq]; simp; omega
    · intro e he
      rcases e3 e he with h1 | ⟨h1, h2⟩
      · rcases List.mem_cons.mp (hperm.mem_iff.mp h1) with h3 | h3
        · subst h3; exact Or.inr ⟨rfl, List.mem_cons_self _ _⟩
        · exact Or.inl h3
      · exact Or.inr ⟨h1, List.mem_cons_of_mem _ h2⟩

/-! ## `collapseEdge` as the composition of its stages -/

theorem collapseEdge_eq_ok {pq : PQ F} {m m' : Mesh F} {e : Edge F}
    (h : collapseEdge pq m e = Except.ok m') :
    collapseVertices m.vertices e = Except.ok m'.vertices ∧
    m'.faces = m.faces.map (relabelFace e.v0 e.v1) ∧
    collapseAdjacency e.v0 e.v1 m.vertexNeighbors = Except.ok m'.vertexNeighbors ∧
    m'.edges = m.edges ∧
    ∃ nA, getAt m'.vertexNeighbors e.v0 = Except.ok nA ∧
      reseed pq { m with vertices := m'.vertices, faces := m'.faces,
                         vertexNeighbors := m'.vertexNeighbors } e.v0 nA m.edgeHeap
        = Except.ok m'.edgeHeap := by
  simp only [collapseEdge, bind_eq_ok, pure_eq_ok, Except.ok.injEq] at h
  obtain ⟨vs, hvs, nb, hnb, nA, hnA, hp, hhp, rfl⟩ := h
  exact ⟨hvs, rfl, hnb, rfl, nA, hnA, hhp⟩

/-- `collapseEdge` runs without fault on a live edge of a mesh whose adjacency
    structure is well shaped and does not list `vB` as its own neighbor. -/
theorem collapseEdge_ok {pq : PQ F} (hpq : pq.Lawful) {m : Mesh F} {e : Edge F}
    (hshape : AdjShape m.vertices.length m.vertexNeighbors)
    (hne : e.v0 ≠ e.v1) (h0 : InRange m.vertices.length e.v0)
    (h1 : InRange m.vertices.length e.v1)
    (hirr : adjacent m.vertexNeighbors e.v1 e.v1 = false) :
    ∃ m', collapseEdge pq m e = Except.ok m' := by
  obtain ⟨vs, hvs⟩ := collapseVertices_ok (e := e) h0 h1
  obtain ⟨nb, hnb, hlen, hadj⟩ := collapseAdjacency_spec hshape hne h0 h1 hirr
  have hA' : InRange nb.length e.v0 := by rw [hlen, hshape.1]; exact h0
  obtain ⟨nA, hnA⟩ := getAt_of_inRange hA'
  have hvlen := (collapseVertices_spec hvs).1
  have hnAr : ∀ x ∈ nA, InRange vs.length x := by
    intro x hx
    have hax : adjacent nb e.v0 x = true := adjacent_iff.mpr ⟨nA, hnA, hx⟩
    rw [hvlen]
    rcases (hadj e.v0 x).mp hax with ⟨_, _, h | ⟨h, _⟩⟩ | ⟨h, _⟩ | ⟨h, _⟩
    · exact forall_mem_iff_adjacent.mp hshape.2 _ _ h
    · exact forall_mem_iff_adjacent.mp hshape.2 _ _ h
    · exact absurd rfl h
    · exact absurd rfl h
  obtain ⟨h', hh', _⟩ := @reseed_spec F _ pq hpq
    { m with vertices := vs, faces := m.faces.map (relabelFace e.v0 e.v1),
             vertexNeighbors := nb }
    e.v0 (by simpa [hvlen] using h0) nA m.edgeHeap hnAr
  refine ⟨{ vertices := vs, faces := m.faces.map (relabelFace e.v0 e.v1), edges := m.edges,
             edgeHeap := h', vertexNeighbors := nb }, ?_⟩
  unfold collapseEdge
  simp only [hvs, hnb, hnA, bind_ok, hh', pure_eq_ok]

end

theorem alive_not_removed {F : Type} {vs : List (Vertex F)} {i : Int} (h1 : aliveAt vs i = true)
    (h2 : removedAt vs i = true) : False := by
  obtain ⟨v, hv, hr⟩ := aliveAt_iff.mp h1
  obtain ⟨w, hw, hr'⟩ := removedAt_iff.mp h2
  rw [hv] at hw; cases hw
  rw [hr] at hr'; cases hr'

theorem adjAfter_symm {vA vB : Int} {nb nb' : List (List Int)} (h : AdjAfter vA vB nb nb')
    (hAB : vA ≠ vB) (hsym : AdjSymm nb) (hirr : AdjIrrefl nb) : AdjSymm nb' := by
  intro a b hab
  rw [h] at hab ⊢
  have s1 := hsym a b
  have s2 := hsym vA b
  have s3 := hsym vB b
  have s4 := hsym b vB
  have s5 := hsym vB a
  have s6 := hsym a vB
  have i1 := hirr vA
  have i2 := hirr vB
  by_cases c1 : a = vA <;> by_cases c2 : a = vB <;> by_cases c3 : b = vA <;>
    by_cases c4 : b = vB <;>
    cases c5 : adjacent nb vB a <;> cases c6 : adjacent nb vB b <;>
    simp_all

theorem adjAfter_irrefl {vA vB : Int} {nb nb' : List (List Int)} (h : AdjAfter vA vB nb nb')
    (hirr : AdjIrrefl nb) : AdjIrrefl nb' := by
  intro a
  rw [Bool.eq_false_iff]
  intro hab
  rw [h] at hab
  have i1 := hirr vA
  have i2 := hirr a
  by_cases c1 : a = vA <;> simp_all

theorem adjAfter_vB_empty {vA vB : Int} {nb nb' : List (List Int)} (h : AdjAfter vA vB nb nb')
    (hAB : vA ≠ vB) (b : Int) : adjacent nb' vB b = false := by
  rw [Bool.eq_false_iff]
  intro hab
  rw [h] at hab
  simp_all

theorem adjAfter_vB_absent {vA vB : Int} {nb nb' : List (List Int)} (h : AdjAfter vA vB nb nb')
    (hAB : vA ≠ vB) (hsym : AdjSymm nb) (a : Int) : adjacent nb' a vB = false := by
  rw [Bool.eq_false_iff]
  intro hab
  rw [h] at hab
  have s1 := hsym a vB
  have s2 := hsym vA vB
  cases c5 : adjacent nb vB a <;> simp_all

/-- A linked pair of corners stays linked after the relabelling, unless it is
    the collapsed pair itself. -/
theorem adjAfter_link {vA vB : Int} {nb nb' : List (List Int)} (h : AdjAfter vA vB nb nb')
    {c d : Int} (hcd : adjacent nb c d = true) (hdc : adjacent nb d c = true)
    (h1 : ¬ (c = vA ∧ d = vB)) (h2 : ¬ (c = vB ∧ d = vA)) (h3 : ¬ (c = vB ∧ d = vB)) :
    adjacent nb' (if c = vB then vA else c) (if d = vB then vA else d) = true := by
  rw [h]
  by_cases c1 : c = vA <;> by_cases c2 : c = vB <;> by_cases c3 : d = vA <;>
    by_cases c4 : d = vB <;>
    cases c5 : adjacent nb vB c <;>
    simp_all

section
variable {F : Type} [Scalar F]

/-! ## What `collapseEdge` preserves -/

theorem collapseEdge_facesValid {pq : PQ F} {m m' : Mesh F} {e : Edge F}
    (hv : FacesValid m.vertices m.faces) (hne : e.v0 ≠ e.v1)
    (hA : aliveAt m.vertices e.v0 = true)
    (h : collapseEdge pq m e = Except.ok m') :
    FacesValid m'.vertices m'.faces ∧
    ∀ f ∈ m'.faces, f.removed = false → ¬ f.hasCorner e.v1 := by
  obtain ⟨hvs, hfs, -, -, -⟩ := collapseEdge_eq_ok h
  have halive := collapseVertices_alive hvs
  have key : ∀ f' ∈ m'.faces, f'.removed = false →
      (f'.Distinct ∧ f'.Live m'.vertices) ∧ ¬ f'.hasCorner e.v1 := by
    intro f' hf' hr'
    rw [hfs] at hf'
    obtain ⟨f, hf, rfl⟩ := List.mem_map.mp hf'
    have hr : f.removed = false := by
      cases hfr : f.removed with
      | false => rfl
      | true => rw [relabelFace_removed hfr] at hr'; rw [hfr] at hr'; exact hr'
    obtain ⟨hd, hl0, hl1, hl2⟩ := hv f hf hr
    obtain ⟨sd, sb, -⟩ := relabelFace_survivor f hr hd hne hr'
    obtain ⟨e0, e1, e2⟩ := @relabelFace_corners e.v0 e.v1 f hr
    refine ⟨⟨sd, ?_⟩, sb⟩
    unfold Face.Live
    rw [e0, e1, e2, halive, halive, halive]
    refine ⟨?_, ?_, ?_⟩
    · by_cases c : f.v0 = e.v1 <;> simp [c, hA, hne, hl0]
    · by_cases c : f.v1 = e.v1 <;> simp [c, hA, hne, hl1]
    · by_cases c : f.v2 = e.v1 <;> simp [c, hA, hne, hl2]
  exact ⟨fun f hf hr => (key f hf hr).1, fun f hf hr => (key f hf hr).2⟩

theorem collapseEdge_facesLinked {pq : PQ F} {m m' : Mesh F} {e : Edge F}
    (hv : FacesValid m.vertices m.faces) (hl : FacesLinked m.vertexNeighbors m.faces)
    (hne : e.v0 ≠ e.v1) (hadj : AdjAfter e.v0 e.v1 m.vertexNeighbors m'.vertexNeighbors)
    (h : collapseEdge pq m e = Except.ok m') :
    FacesLinked m'.vertexNeighbors m'.faces := by
  obtain ⟨-, hfs, -, -, -⟩ := collapseEdge_eq_ok h
  intro f' hf' hr'
  rw [hfs] at hf'
  obtain ⟨f, hf, rfl⟩ := List.mem_map.mp hf'
  have hr : f.removed = false := by
    cases hfr : f.removed with
    | false => rfl
    | true => rw [relabelFace_removed hfr] at hr'; rw [hfr] at hr'; exact hr'
  obtain ⟨⟨d01, d12, d20⟩, -⟩ := hv f hf hr
  obtain ⟨l01, l10, l12, l21, l20, l02⟩ := hl f hf hr
  obtain ⟨-, -, hboth⟩ := relabelFace_survivor f hr ⟨d01, d12, d20⟩ hne hr'
  obtain ⟨e0, e1, e2⟩ := @relabelFace_corners e.v0 e.v1 f hr
  unfold Face.hasCorner at hboth
  unfold Face.Linked
  rw [e0, e1, e2]
  refine ⟨adjAfter_link hadj l01 l10 ?_ ?_ ?_, adjAfter_link hadj l10 l01 ?_ ?_ ?_,
    adjAfter_link hadj l12 l21 ?_ ?_ ?_, adjAfter_link hadj l21 l12 ?_ ?_ ?_,
    adjAfter_link hadj l20 l02 ?_ ?_ ?_, adjAfter_link hadj l02 l20 ?_ ?_ ?_⟩ <;>
  · rintro ⟨p, q⟩
    first
      | exact hboth ⟨Or.inl p, Or.inr (Or.inl q)⟩
      | exact hboth ⟨Or.inl p, Or.inr (Or.inr q)⟩
      | exact hboth ⟨Or.inr (Or.inl p), Or.inl q⟩
      | exact hboth ⟨Or.inr (Or.inl p), Or.inr (Or.inr q)⟩
      | exact hboth ⟨Or.inr (Or.inr p), Or.inl q⟩
      | exact hboth ⟨Or.inr (Or.inr p), Or.inr (Or.inl q)⟩
      | exact hboth ⟨Or.inl q, Or.inr (Or.inl p)⟩
      | exact hboth ⟨Or.inl q, Or.inr (Or.inr p)⟩
      | exact hboth ⟨Or.inr (Or.inl q), Or.inl p⟩
      | exact hboth ⟨Or.inr (Or.inl q), Or.inr (Or.inr p)⟩
      | exact hboth ⟨Or.inr (Or.inr q), Or.inl p⟩
      | exact hboth ⟨Or.inr (Or.inr q), Or.inr (Or.inl p)⟩
      | exact d01 (p.trans q.symm)
      | exact d12 (p.trans q.symm)
      | exact d20 (p.trans q.symm)
      | exact d01 (q.trans p.symm)
      | exact d12 (q.trans p.symm)
      | exact d20 (q.trans p.symm)

theorem collapseEdge_removedIsolated {pq : PQ F} {m m' : Mesh F} {e : Edge F}
    (hiso : RemovedIsolated m.vertices m.vertexNeighbors)
    (hsym : AdjSymm m.vertexNeighbors)
    (hne : e.v0 ≠ e.v1) (hA : aliveAt m.vertices e.v0 = true)
    (hadj : AdjAfter e.v0 e.v1 m.vertexNeighbors m'.vertexNeighbors)
    (h : collapseEdge pq m e = Except.ok m') :
    RemovedIsolated m'.vertices m'.vertexNeighbors := by
  obtain ⟨hvs, -, -, -, -⟩ := collapseEdge_eq_ok h
  intro i hi b
  rw [collapseVertices_removed hvs] at hi
  by_cases hiB : i = e.v1
  · subst hiB; exact adjAfter_vB_empty hadj hne b
  · simp only [hiB, decide_False, Bool.or_false] at hi
    rw [Bool.eq_false_iff]
    intro hab
    rw [hadj] at hab
    have z1 := hiso i hi b
    have z2 := hiso i hi e.v1
    have s1 := hsym e.v1 i
    have hiA : i ≠ e.v0 := by
      intro hc; subst hc
      exact alive_not_removed hA hi
    cases c5 : adjacent m.vertexNeighbors e.v1 i <;> simp_all

end

/-! ## Counting under a store -/

theorem countP_set {α : Type} (p : α → Bool) :
    ∀ (l : List α) (i : Nat) (x y : α), l[i]? = some x →
      (l.set i y).countP p + (if p x then 1 else 0) = l.countP p + (if p y then 1 else 0) := by
  intro l
  induction l with
  | nil => intro i x y h; simp at h
  | cons a l ih =>
    intro i x y h
    cases i with
    | zero =>
      simp at h; subst h
      simp only [List.set_cons_zero, List.countP_cons]
      omega
    | succ i =>
      simp at h
      have := ih i x y h
      simp only [List.set_cons_succ, List.countP_cons]
      omega

theorem exists_ok_ite {ε α : Type} {c : Prop} [Decidable c] {x y : Except ε α}
    (hx : ∃ b, x = Except.ok b) (hy : ∃ b, y = Except.ok b) :
    ∃ b, (if c then x else y) = Except.ok b := by
  split
  · exact hx
  · exact hy

section
variable {F : Type} [Scalar F]

omit [Scalar F] in
theorem aliveCount_setAt {vs : List (Vertex F)} {i : Int} {x y : Vertex F}
    (h : getAt vs i = Except.ok x) :
    aliveCount (setAt vs i y) + (if !x.removed then 1 else 0)
      = aliveCount vs + (if !y.removed then 1 else 0) := by
  obtain ⟨_, h1⟩ := getAt_eq_ok.mp h
  exact countP_set (fun v => !v.removed) vs i.toNat x y h1

/-- Collapsing a live `vB` lowers the number of live vertices by one. -/
theorem collapseVertices_aliveCount {vs vs' : List (Vertex F)} {e : Edge F}
    (h : collapseVertices vs e = Except.ok vs') (hB : aliveAt vs e.v1 = true) :
    aliveCount vs' + 1 = aliveCount vs := by
  have hal := collapseVertices_alive h
  simp only [collapseVertices, bind_eq_ok, pure_eq_ok, Except.ok.injEq] at h
  obtain ⟨a, ha, a1, ha1, b1, hb1, b2, hb2, rfl⟩ := h
  have c1 := aliveCount_setAt (y := { a with position := e.optimalPos }) ha
  have c2 := aliveCount_setAt (y := { a1 with Q := Mat4.add a1.Q b1.Q }) ha1
  have c3 := aliveCount_setAt (y := { b2 with removed := true }) hb2
  have r0 : InRange vs.length e.v0 := getAt_inRange ha
  rw [getAt_setAt_self _ r0] at ha1
  cases ha1
  dsimp only at c2 c3 hb2 ⊢
  -- the flag of `b2` is that of `vB` in `vs`
  have hb2r : b2.removed = false := by
    by_cases hne : e.v1 = e.v0
    · rw [hne] at hb2
      rw [getAt_setAt_self _ (by rw [length_setAt]; exact r0)] at hb2
      cases hb2
      obtain ⟨v, hv, hr⟩ := aliveAt_iff.mp hB
      rw [hne, ha] at hv; cases hv; exact hr
    · rw [getAt_setAt_of_ne _ r0.1 hne, getAt_setAt_of_ne _ r0.1 hne] at hb2
      obtain ⟨v, hv, hr⟩ := aliveAt_iff.mp hB
      rw [hv] at hb2; cases hb2; exact hr
  simp only [hb2r] at c3
  simp at c1 c2 c3
  omega

/-! ## The filters of the loop run without fault -/

theorem flipScreen_ok {vs : List (Vertex F)} {vA vB : Int} {p : Vec3 F} :
    ∀ fs : List Face, (∀ f ∈ fs, f.removed = false → f.Live vs) →
      ∃ b, flipScreen vs vA vB p fs = Except.ok b := by
  intro fs
  induction fs with
  | nil => intro _; exact ⟨true, rfl⟩
  | cons f fs ih =>
    intro hall
    have ih' := ih (fun g hg => hall g (List.mem_cons_of_mem _ hg))
    rw [flipScreen]
    by_cases hr : f.removed = true
    · rw [if_pos hr]; exact ih'
    · rw [if_neg hr]
      refine exists_ok_ite ih' ?_
      have hrf : f.removed = false := by simpa using hr
      obtain ⟨l0, l1, l2⟩ := hall f (List.mem_cons_self _ _) hrf
      obtain ⟨a, ha, _⟩ := aliveAt_iff.mp l0
      obtain ⟨b, hb, _⟩ := aliveAt_iff.mp l1
      obtain ⟨c, hc, _⟩ := aliveAt_iff.mp l2
      simp only [ha, hb, hc, bind_ok]
      exact exists_ok_ite ih' (exists_ok_ite ⟨false, rfl⟩ ih')

theorem isValidPair_ok {m : Mesh F} {vA vB : Int} {p : Vec3 F}
    (hlen : m.vertexNeighbors.length = m.vertices.length)
    (hv : FacesValid m.vertices m.faces)
    (hA : InRange m.vertices.length vA) (hB : InRange m.vertices.length vB) :
    ∃ b, isValidPair m vA vB p = Except.ok b := by
  unfold isValidPair
  split
  · exact ⟨false, rfl⟩
  · obtain ⟨a, ha⟩ := getAt_of_inRange hA
    obtain ⟨b, hb⟩ := getAt_of_inRange hB
    simp only [ha, bind_ok]
    split
    · exact ⟨false, rfl⟩
    · simp only [hb, bind_ok]
      split
      · exact ⟨false, rfl⟩
      · obtain ⟨nA, hnA⟩ := getAt_of_inRange (l := m.vertexNeighbors) (by rw [hlen]; exact hA)
        obtain ⟨nB, hnB⟩ := getAt_of_inRange (l := m.vertexNeighbors) (by rw [hlen]; exact hB)
        simp only [hnA, bind_ok]
        have hflip := @flipScreen_ok F _ m.vertices vA vB p m.faces
          (fun f hf hr => (hv f hf hr).2)
        cases nA with
        | nil =>
          simp only [pure_eq_ok, bind_ok]
          split
          · exact ⟨false, rfl⟩
          · exact hflip
        | cons x xs =>
          simp only [hnB, pure_eq_ok, bind_ok]
          split
          · exact ⟨false, rfl⟩
          · exact hflip

theorem accepts_ok {m : Mesh F} {e : Edge F}
    (hlen : m.vertexNeighbors.length = m.vertices.length)
    (hv : FacesValid m.vertices m.faces)
    (hA : InRange m.vertices.length e.v0) (hB : InRange m.vertices.length e.v1) :
    ∃ b, accepts m e = Except.ok b := by
  unfold accepts
  obtain ⟨a, ha⟩ := getAt_of_inRange hA
  obtain ⟨b, hb⟩ := getAt_of_inRange hB
  simp only [ha, bind_ok]
  split
  · exact ⟨false, rfl⟩
  · simp only [hb, bind_ok]
    split
    · exact ⟨false, rfl⟩
    · exact isValidPair_ok hlen hv hA hB

/-- A record is handed to `collapseEdge` only if both endpoints are live and
    `isValidPair` accepted it with the position stored in the record. -/
theorem accepts_true {m : Mesh F} {e : Edge F} (h : accepts m e = Except.ok true) :
    aliveAt m.vertices e.v0 = true ∧ aliveAt m.vertices e.v1 = true ∧
    isValidPair m e.v0 e.v1 e.optimalPos = Except.ok true := by
  unfold accepts at h
  simp only [bind_eq_ok] at h
  obtain ⟨a, ha, h⟩ := h
  by_cases hra : a.removed = true
  · simp [hra, pure_eq_ok] at h
  · rw [if_neg hra, bind_eq_ok] at h
    obtain ⟨b, hb, h⟩ := h
    by_cases hrb : b.removed = true
    · simp [hrb, pure_eq_ok] at h
    · rw [if_neg hrb] at h
      refine ⟨aliveAt_iff.mpr ⟨a, ha, by simpa using hra⟩,
        aliveAt_iff.mpr ⟨b, hb, by simpa using hrb⟩, h⟩

end

section
variable {F : Type} [Scalar F]

/-! ## The invariant of the collapse loop -/

/-- The adjacency relation after `collapseEdge` is the one described by
    `AdjAfter`. -/
theorem collapseEdge_adjAfter {pq : PQ F} {m m' : Mesh F} {e : Edge F}
    (hshape : AdjShape m.vertices.length m.vertexNeighbors)
    (hirr : adjacent m.vertexNeighbors e.v1 e.v1 = false)
    (hne : e.v0 ≠ e.v1)
    (h : collapseEdge pq m e = Except.ok m') :
    AdjAfter e.v0 e.v1 m.vertexNeighbors m'.vertexNeighbors ∧
    m'.vertexNeighbors.length = m.vertexNeighbors.length ∧
    m'.vertices.length = m.vertices.length := by
  obtain ⟨hvs, -, hnb, -, -⟩ := collapseEdge_eq_ok h
  obtain ⟨hlen, r0, r1, -⟩ := collapseVertices_spec hvs
  obtain ⟨nb', e1, e2, e3⟩ := collapseAdjacency_spec hshape hne r0 r1 hirr
  rw [hnb] at e1
  cases e1
  exact ⟨e3, e2, hlen⟩

theorem adjAfter_shape {n : Nat} {vA vB : Int} {nb nb' : List (List Int)}
    (h : AdjAfter vA vB nb nb') (hshape : AdjShape n nb) (hlen : nb'.length = nb.length)
    (hA : InRange n vA) : AdjShape n nb' := by
  refine ⟨by rw [hlen]; exact hshape.1, forall_mem_iff_adjacent.mpr ?_⟩
  intro a b hab
  have hold := forall_mem_iff_adjacent.mp hshape.2
  rcases (h a b).mp hab with ⟨_, _, h1 | ⟨h1, _⟩⟩ | ⟨_, _, _, h1 | ⟨h1, _⟩⟩ | ⟨_, _, _, h1⟩
  · exact hold _ _ h1
  · exact hold _ _ h1
  · rw [h1]; exact hA
  · exact hold _ _ h1
  · exact hold _ _ h1

theorem collapseEdge_meshInv {pq : PQ F} (hpq : pq.Lawful) {m m' : Mesh F} {e : Edge F}
    (hinv : MeshInv m) (hne : e.v0 ≠ e.v1)
    (hA : aliveAt m.vertices e.v0 = true) (hB : aliveAt m.vertices e.v1 = true)
    (h : collapseEdge pq m e = Except.ok m') :
    MeshInv m' ∧ aliveCount m'.vertices + 1 = aliveCount m.vertices := by
  obtain ⟨hshape, hirr, hv, hrec⟩ := hinv
  obtain ⟨hvs, hfs, hnb, hed, nA, hnA, hres⟩ := collapseEdge_eq_ok h
  obtain ⟨hadj, hnlen, hvlen⟩ := collapseEdge_adjAfter hshape (hirr e.v1) hne h
  have r0 : InRange m.vertices.length e.v0 := aliveAt_inRange hA
  have hshape' : AdjShape m'.vertices.length m'.vertexNeighbors := by
    rw [hvlen]; exact adjAfter_shape hadj hshape hnlen r0
  have hirr' : AdjIrrefl m'.vertexNeighbors := adjAfter_irrefl hadj hirr
  have hnAr : ∀ x ∈ nA, InRange m'.vertices.length x := fun x hx =>
    hshape'.2 nA (getAt_mem hnA) x hx
  obtain ⟨h', q1, -, q3⟩ := @reseed_spec F _ pq hpq
    { m with vertices := m'.vertices, faces := m'.faces,
             vertexNeighbors := m'.vertexNeighbors }
    e.v0 (by rw [hvlen]; exact r0) nA m.edgeHeap hnAr
  rw [hres] at q1
  cases q1
  refine ⟨⟨hshape', hirr', (collapseEdge_facesValid hv hne hA h).1, ?_⟩,
    collapseVertices_aliveCount hvs hB⟩
  intro r hr
  rcases q3 r hr with h1 | ⟨h1, h2⟩
  · rw [hvlen]; exact hrec r h1
  · have hadjr : adjacent m'.vertexNeighbors e.v0 r.v1 = true :=
      adjacent_iff.mpr ⟨nA, hnA, h2⟩
    refine ⟨by rw [h1, hvlen]; exact r0, hnAr _ h2, ?_⟩
    intro hc
    rw [h1] at hc
    rw [← hc, hirr' e.v0] at hadjr
    cases hadjr

/-! ## One iteration of the loop -/

omit [Scalar F] in
theorem recordsOK_of_pop {pq : PQ F} (hpq : pq.Lawful) {n : Nat} {hp h : List (Edge F)}
    {e : Edge F} (hrec : RecordsOK n hp) (hpop : pq.pop hp = some (e, h)) :
    RecordsOK n h ∧ InRange n e.v0 ∧ InRange n e.v1 ∧ e.v0 ≠ e.v1 ∧
    h.length + 1 = hp.length := by
  have hperm := hpq.2.2 hp e h hpop
  refine ⟨fun r hr => hrec r (hperm.mem_iff.mpr (List.mem_cons_of_mem _ hr)), ?_⟩
  have he := hrec e (hperm.mem_iff.mpr (List.mem_cons_self _ _))
  refine ⟨he.1, he.2.1, he.2.2, ?_⟩
  rw [hperm.length_eq]; simp

/-- The three outcomes of one evaluation of the loop: exit, discard of the
    popped record, or collapse of the popped record. -/
theorem loopStep_cases {pq : PQ F} (hpq : pq.Lawful) (t : Int) (s : LoopState F)
    (hinv : MeshInv s.mesh) :
    (loopStep pq t s = Except.ok none ∧ (s.activeFaces ≤ t ∨ s.mesh.edgeHeap = [])) ∨
    (∃ e h, pq.pop s.mesh.edgeHeap = some (e, h) ∧ t < s.activeFaces ∧
      ((accepts { s.mesh with edgeHeap := h } e = Except.ok false ∧
        loopStep pq t s = Except.ok (some { s with mesh := { s.mesh with edgeHeap := h } })) ∨
       (accepts { s.mesh with edgeHeap := h } e = Except.ok true ∧
        ∃ m2, collapseEdge pq { s.mesh with edgeHeap := h } e = Except.ok m2 ∧
          loopStep pq t s =
            Except.ok (some ⟨m2, countActive m2.faces, s.collapseCount + 1⟩)))) := by
  obtain ⟨hshape, hirr, hv, hrec⟩ := hinv
  by_cases hc : s.activeFaces > t ∧ s.mesh.edgeHeap.isEmpty = false
  · right
    cases hpop : pq.pop s.mesh.edgeHeap with
    | none =>
      have := (hpq.2.1 _).mp hpop
      rw [this] at hc
      simp at hc
    | some p =>
      obtain ⟨e, h⟩ := p
      obtain ⟨hrec', r0, r1, hne, -⟩ := recordsOK_of_pop hpq hrec hpop
      refine ⟨e, h, rfl, hc.1, ?_⟩
      obtain ⟨b, hb⟩ := accepts_ok (m := { s.mesh with edgeHeap := h }) (e := e) hshape.1 hv r0 r1
      cases b with
      | false =>
        left
        refine ⟨hb, ?_⟩
        unfold loopStep
        rw [if_pos hc]
        simp only [hpop, hb, bind_ok]
        rfl
      | true =>
        right
        refine ⟨hb, ?_⟩
        obtain ⟨a0, a1, -⟩ := accepts_true hb
        obtain ⟨m2, hm2⟩ := collapseEdge_ok hpq (m := { s.mesh with edgeHeap := h }) (e := e)
          hshape hne r0 r1 (hirr e.v1)
        refine ⟨m2, hm2, ?_⟩
        unfold loopStep
        rw [if_pos hc]
        simp only [hpop, hb, bind_ok, hm2]
        rfl
  · left
    refine ⟨?_, ?_⟩
    · unfold loopStep
      rw [if_neg hc]; rfl
    · by_cases h1 : s.activeFaces ≤ t
      · exact Or.inl h1
      · right
        have : ¬ (s.mesh.edgeHeap.isEmpty = false) := fun h2 => hc ⟨by omega, h2⟩
        simpa using this

/-- The collapse loop of `simplifyMesh` terminates without fault from every
    state that satisfies the loop invariant; the invariant holds on exit, and
    either the target is met or the queue is empty. -/
theorem collapseLoop_terminates {pq : PQ F} (hpq : pq.Lawful) (t : Int) :
    ∀ (n k : Nat) (s : LoopState F), aliveCount s.mesh.vertices = n →
      s.mesh.edgeHeap.length = k → MeshInv s.mesh →
      ∃ fuel s', collapseLoop pq t fuel s = Except.ok s' ∧ MeshInv s'.mesh ∧
        loopStep pq t s' = Except.ok none ∧
        (s'.activeFaces ≤ t ∨ s'.mesh.edgeHeap = []) := by
  intro n
  induction n using Nat.strong_induction_on with
  | _ n ihn =>
    intro k
    induction k with
    | zero =>
      intro s _ hk hinv
      rcases loopStep_cases hpq t s hinv with ⟨h1, h2⟩ | ⟨e, h, hpop, -, -⟩
      · refine ⟨0, s, ?_, hinv, h1, h2⟩
        rw [collapseLoop]; simp only [h1, bind_ok]; rfl
      · have hnil : s.mesh.edgeHeap = [] := List.length_eq_zero.mp hk
        rw [hnil, (hpq.2.1 []).mpr rfl] at hpop
        cases hpop
    | succ k ihk =>
      intro s hn hk hinv
      rcases loopStep_cases hpq t s hinv with
        ⟨h1, h2⟩ | ⟨e, h, hpop, -, ⟨hacc, hstep⟩ | ⟨hacc, m2, hm2, hstep⟩⟩
      · refine ⟨0, s, ?_, hinv, h1, h2⟩
        rw [collapseLoop]; simp only [h1, bind_ok]; rfl
      · obtain ⟨hrec', -, -, -, hlen⟩ := recordsOK_of_pop hpq hinv.2.2.2 hpop
        have hinv' : MeshInv ({ s with mesh := { s.mesh with edgeHeap := h } } : LoopState F).mesh :=
          ⟨hinv.1, hinv.2.1, hinv.2.2.1, hrec'⟩
        obtain ⟨fuel, s', q1, q2, q3, q4⟩ :=
          ihk { s with mesh := { s.mesh with edgeHeap := h } } hn (by simp; omega) hinv'
        refine ⟨fuel + 1, s', ?_, q2, q3, q4⟩
        rw [collapseLoop]; simp only [hstep, bind_ok]; exact q1
      · obtain ⟨hrec', -, -, hne, -⟩ := recordsOK_of_pop hpq hinv.2.2.2 hpop
        obtain ⟨a0, a1, -⟩ := accepts_true hacc
        have hinv1 : MeshInv ({ s.mesh with edgeHeap := h } : Mesh F) :=
          ⟨hinv.1, hinv.2.1, hinv.2.2.1, hrec'⟩
        obtain ⟨hinv2, hcount⟩ := collapseEdge_meshInv hpq hinv1 hne a0 a1 hm2
        obtain ⟨fuel, s', q1, q2, q3, q4⟩ :=
          ihn (aliveCount m2.vertices) (by simp at hcount; omega) m2.edgeHeap.length
            ⟨m2, countActive m2.faces, s.collapseCount + 1⟩ rfl rfl hinv2
        refine ⟨fuel + 1, s', ?_, q2, q3, q4⟩
        rw [collapseLoop]; simp only [hstep, bind_ok]; exact q1

end

section
variable {F : Type} [Scalar F]

/-! ## `buildEdges` -/

/-- One pass of the inner loop of `buildEdges`: it succeeds on in-range
    corners, links `a` and `b` in both directions and adds at most the record
    `(min a b, max a b)`. -/
theorem addEdge_spec {st : List (List Int) × List (Int × Int) × List (Edge F)} {a b : Int}
    (ha : InRange st.1.length a) (hb : InRange st.1.length b) :
    ∃ st', addEdge st a b = Except.ok st' ∧ st'.1.length = st.1.length ∧
      (∀ x y, adjacent st'.1 x y = true ↔
        adjacent st.1 x y = true ∨ (x = a ∧ y = b) ∨ (x = b ∧ y = a)) ∧
      (∀ r ∈ st'.2.2, r ∈ st.2.2 ∨ (r.v0 = min a b ∧ r.v1 = max a b)) := by
  obtain ⟨na, hna⟩ := getAt_of_inRange ha
  have hb1 : InRange (setAt st.1 a (setInsert b na)).length b := by
    rw [length_setAt]; exact hb
  obtain ⟨sb, hsb⟩ := getAt_of_inRange hb1
  have key : ∀ x y, adjacent (setAt (setAt st.1 a (setInsert b na)) b (setInsert a sb)) x y = true ↔
      adjacent st.1 x y = true ∨ (x = a ∧ y = b) ∨ (x = b ∧ y = a) := by
    intro x y
    have hna' : ∀ z, adjacent st.1 a z = true ↔ z ∈ na := by
      intro z; rw [adjacent_iff]; constructor
      · rintro ⟨s, hs, hz⟩; rw [hna] at hs; cases hs; exact hz
      · intro hz; exact ⟨na, hna, hz⟩
    have hsb' : ∀ z, adjacent (setAt st.1 a (setInsert b na)) b z = true ↔ z ∈ sb := by
      intro z; rw [adjacent_iff]; constructor
      · rintro ⟨s, hs, hz⟩; rw [hsb] at hs; cases hs; exact hz
      · intro hz; exact ⟨sb, hsb, hz⟩
    by_cases hxb : x = b
    · subst hxb
      rw [adjacent_setAt_self _ _ hb1]
      simp only [decide_eq_true_eq, mem_setInsert, ← hsb']
      by_cases hxa : x = a
      · subst hxa
        rw [adjacent_setAt_self _ _ ha]
        simp only [decide_eq_true_eq, mem_setInsert, ← hna']
        tauto
      · rw [adjacent_setAt_of_ne _ _ ha.1 hxa]
        tauto
    · rw [adjacent_setAt_of_ne _ _ hb.1 hxb]
      by_cases hxa : x = a
      · subst hxa
        rw [adjacent_setAt_self _ _ ha]
        simp only [decide_eq_true_eq, mem_setInsert, ← hna']
        tauto
      · rw [adjacent_setAt_of_ne _ _ ha.1 hxa]
        tauto
  by_cases hmem : (min a b, max a b) ∈ st.2.1
  · refine ⟨(setAt (setAt st.1 a (setInsert b na)) b (setInsert a sb), st.2.1, st.2.2),
      ?_, by simp [length_setAt], key, fun r hr => Or.inl hr⟩
    unfold addEdge
    simp only [hna, hsb, bind_ok, hmem, if_true, pure_eq_ok]
  · refine ⟨(setAt (setAt st.1 a (setInsert b na)) b (setInsert a sb),
      (min a b, max a b) :: st.2.1,
      st.2.2 ++ [⟨min a b, max a b, fzero, ⟨fzero, fzero, fzero⟩⟩]),
      ?_, by simp [length_setAt], key, ?_⟩
    · unfold addEdge
      simp only [hna, hsb, bind_ok, hmem, if_false, pure_eq_ok]
    · intro r hr
      rcases List.mem_append.mp hr with h1 | h1
      · exact Or.inl h1
      · simp at h1; subst h1; exact Or.inr ⟨rfl, rfl⟩

/-- State invariant of the face loop of `buildEdges`. -/
theorem buildEdgesLoop_spec {n : Nat} :
    ∀ (fs : List Face) (st : List (List Int) × List (Int × Int) × List (Edge F)),
      st.1.length = n →
      (∀ x y, adjacent st.1 x y = true → InRange n y ∧ x ≠ y) →
      RecordsOK n st.2.2 →
      (∀ f ∈ fs, f.removed = false →
        f.Distinct ∧ InRange n f.v0 ∧ InRange n f.v1 ∧ InRange n f.v2) →
      ∃ st', buildEdgesLoop fs st = Except.ok st' ∧ st'.1.length = n ∧
        (∀ x y, adjacent st'.1 x y = true → InRange n y ∧ x ≠ y) ∧
        RecordsOK n st'.2.2 ∧
        (∀ x y, adjacent st.1 x y = true → adjacent st'.1 x y = true) ∧
        (∀ f ∈ fs, f.removed = false → f.Linked st'.1) := by
  intro fs
  induction fs with
  | nil =>
    intro st h1 h2 h3 _
    exact ⟨st, rfl, h1, h2, h3, fun _ _ h => h, by simp⟩
  | cons f fs ih =>
    intro st h1 h2 h3 hf
    have hfs : ∀ g ∈ fs, g.removed = false →
        g.Distinct ∧ InRange n g.v0 ∧ InRange n g.v1 ∧ InRange n g.v2 :=
      fun g hg => hf g (List.mem_cons_of_mem _ hg)
    by_cases hr : f.removed = true
    · obtain ⟨st', q1, q2, q3, q4, q5, q6⟩ := ih st h1 h2 h3 hfs
      refine ⟨st', ?_, q2, q3, q4, q5, ?_⟩
      · rw [buildEdgesLoop, if_pos hr]; exact q1
      · intro g hg hgr
        rcases List.mem_cons.mp hg with rfl | hg'
        · rw [hr] at hgr; cases hgr
        · exact q6 g hg' hgr
    · have hrf : f.removed = false := by simpa using hr
      obtain ⟨⟨d01, d12, d20⟩, r0, r1, r2⟩ := hf f (List.mem_cons_self _ _) hrf
      obtain ⟨s1, a1, b1, c1, e1⟩ := @addEdge_spec F _ st f.v0 f.v1
        (by rw [h1]; exact r0) (by rw [h1]; exact r1)
      obtain ⟨s2, a2, b2, c2, e2⟩ := @addEdge_spec F _ s1 f.v1 f.v2
        (by rw [b1, h1]; exact r1) (by rw [b1, h1]; exact r2)
      obtain ⟨s3, a3, b3, c3, e3⟩ := @addEdge_spec F _ s2 f.v2 f.v0
        (by rw [b2, b1, h1]; exact r2) (by rw [b2, b1, h1]; exact r0)
      have hadj3 : ∀ x y, adjacent s3.1 x y = true → InRange n y ∧ x ≠ y := by
        intro x y h
        rcases (c3 x y).mp h with h | ⟨rfl, rfl⟩ | ⟨rfl, rfl⟩
        · rcases (c2 x y).mp h with h | ⟨rfl, rfl⟩ | ⟨rfl, rfl⟩
          · rcases (c1 x y).mp h with h | ⟨rfl, rfl⟩ | ⟨rfl, rfl⟩
            · exact h2 x y h
            · exact ⟨r1, d01⟩
            · exact ⟨r0, d01.symm⟩
          · exact ⟨r2, d12⟩
          · exact ⟨r1, d12.symm⟩
        · exact ⟨r0, d20⟩
        · exact ⟨r2, d20.symm⟩
      have hrecOK : ∀ a b : Int, InRange n a → InRange n b → a ≠ b →
          InRange n (min a b) ∧ InRange n (max a b) ∧ min a b ≠ max a b := by
        intro a b ha hb hab
        unfold InRange at *
        omega
      have hrec3 : RecordsOK n s3.2.2 := by
        intro r hr3
        rcases e3 r hr3 with h | ⟨p, q⟩
        · rcases e2 r h with h | ⟨p, q⟩
          · rcases e1 r h with h | ⟨p, q⟩
            · exact h3 r h
            · rw [p, q]; exact hrecOK _ _ r0 r1 d01
          · rw [p, q]; exact hrecOK _ _ r1 r2 d12
        · rw [p, q]; exact hrecOK _ _ r2 r0 d20
      obtain ⟨st', q1, q2, q3, q4, q5, q6⟩ := ih s3 (by rw [b3, b2, b1, h1]) hadj3 hrec3 hfs
      have mono : ∀ x y, adjacent st.1 x y = true → adjacent s3.1 x y = true := by
        intro x y h
        exact (c3 x y).mpr (Or.inl ((c2 x y).mpr (Or.inl ((c1 x y).mpr (Or.inl h)))))
      refine ⟨st', ?_, q2, q3, q4, fun x y h => q5 x y (mono x y h), ?_⟩
      · rw [buildEdgesLoop, if_neg hr]
        simp only [a1, a2, a3, bind_ok]
        exact q1
      · intro g hg hgr
        rcases List.mem_cons.mp hg with rfl | hg'
        · have l01 : adjacent s3.1 g.v0 g.v1 = true :=
            (c3 _ _).mpr (Or.inl ((c2 _ _).mpr (Or.inl ((c1 _ _).mpr (Or.inr (Or.inl ⟨rfl, rfl⟩))))))
          have l10 : adjacent s3.1 g.v1 g.v0 = true :=
            (c3 _ _).mpr (Or.inl ((c2 _ _).mpr (Or.inl ((c1 _ _).mpr (Or.inr (Or.inr ⟨rfl, rfl⟩))))))
          have l12 : adjacent s3.1 g.v1 g.v2 = true :=
            (c3 _ _).mpr (Or.inl ((c2 _ _).mpr (Or.inr (Or.inl ⟨rfl, rfl⟩))))
          have l21 : adjacent s3.1 g.v2 g.v1 = true :=
            (c3 _ _).mpr (Or.inl ((c2 _ _).mpr (Or.inr (Or.inr ⟨rfl, rfl⟩))))
          have l20 : adjacent s3.1 g.v2 g.v0 = true :=
            (c3 _ _).mpr (Or.inr (Or.inl ⟨rfl, rfl⟩))
          have l02 : adjacent s3.1 g.v0 g.v2 = true :=
            (c3 _ _).mpr (Or.inr (Or.inr ⟨rfl, rfl⟩))
          exact ⟨q5 _ _ l01, q5 _ _ l10, q5 _ _ l12, q5 _ _ l21, q5 _ _ l20, q5 _ _ l02⟩
        · exact q6 g hg' hgr

omit [Scalar F] in
theorem facesValid_inRange {vs : List (Vertex F)} {fs : List Face} (hv : FacesValid vs fs) :
    ∀ f ∈ fs, f.removed = false →
      f.Distinct ∧ InRange vs.length f.v0 ∧ InRange vs.length f.v1 ∧ InRange vs.length f.v2 :=
  fun f hf hr =>
    ⟨(hv f hf hr).1, aliveAt_inRange (hv f hf hr).2.1, aliveAt_inRange (hv f hf hr).2.2.1,
      aliveAt_inRange (hv f hf hr).2.2.2⟩

theorem adjacent_replicate_nil (n : Nat) (x y : Int) :
    adjacent (List.replicate n ([] : List Int)) x y = false := by
  rw [adjacent_eq_false_iff]
  intro s hs hy
  have := List.eq_of_mem_replicate (getAt_mem hs)
  rw [this] at hy
  cases hy

/-- `buildEdges` succeeds on a mesh that satisfies invariant 1, leaves vertices,
    faces and queue alone, and produces a well-shaped, irreflexive adjacency
    structure that links the corners of every non-removed face, and an edge
    list of records joining two different existing vertices. -/
theorem buildEdges_spec {m0 : Mesh F} (hv : FacesValid m0.vertices m0.faces) :
    ∃ m, buildEdges m0 = Except.ok m ∧ m.vertices = m0.vertices ∧ m.faces = m0.faces ∧
      m.edgeHeap = m0.edgeHeap ∧
      AdjShape m.vertices.length m.vertexNeighbors ∧ AdjIrrefl m.vertexNeighbors ∧
      FacesLinked m.vertexNeighbors m.faces ∧ RecordsOK m.vertices.length m.edges := by
  obtain ⟨st', q1, q2, q3, q4, -, q6⟩ := buildEdgesLoop_spec (F := F) (n := m0.vertices.length)
    m0.faces (List.replicate m0.vertices.length [], [], []) (by simp)
    (by intro x y h; rw [adjacent_replicate_nil] at h; cases h)
    (by intro r hr; cases hr) (facesValid_inRange hv)
  refine ⟨{ m0 with vertexNeighbors := st'.1, edges := st'.2.2 }, ?_, rfl, rfl, rfl,
    ⟨q2, forall_mem_iff_adjacent.mpr (fun a b h => (q3 a b h).1)⟩, ?_, q6, q4⟩
  · unfold buildEdges
    simp only [q1, bind_ok, pure_eq_ok]
  · intro a
    rw [Bool.eq_false_iff]
    intro h
    exact (q3 a a h).2 rfl

end

/-! ## Stores that keep a projection -/

theorem map_set_same {α β : Type} (f : α → β) :
    ∀ (l : List α) (n : Nat) (x y : α), l[n]? = some x → f y = f x →
      (l.set n y).map f = l.map f := by
  intro l
  induction l with
  | nil => intro n x y h _; simp
  | cons a l ih =>
    intro n x y h hf
    cases n with
    | zero => simp at h; subst h; simp [hf]
    | succ n => simp at h; simp [ih n x y h hf]

theorem map_setAt_same {α β : Type} (f : α → β) {l : List α} {i : Int} {x : α} (y : α)
    (h : getAt l i = Except.ok x) (hf : f y = f x) : (setAt l i y).map f = l.map f :=
  map_set_same f l i.toNat x y (getAt_eq_ok.mp h).2 hf

section
variable {F : Type}

theorem getAt_map {α β : Type} (f : α → β) (l : List α) (i : Int) :
    getAt (l.map f) i = (getAt l i).map f := by
  unfold getAt
  by_cases hi : i < 0
  · simp [hi, Except.map]
  · simp only [hi, if_false, List.getElem?_map]
    cases l[i.toNat]? <;> simp [Except.map]

/-- Liveness depends on the removed flags only. -/
theorem aliveAt_congr {vs vs' : List (Vertex F)}
    (h : vs'.map (fun v => v.removed) = vs.map (fun v => v.removed)) (i : Int) :
    aliveAt vs' i = aliveAt vs i := by
  have h1 := getAt_map (fun v : Vertex F => v.removed) vs' i
  have h2 := getAt_map (fun v : Vertex F => v.removed) vs i
  rw [h] at h1
  rw [h1] at h2
  unfold aliveAt
  cases ha : getAt vs' i <;> cases hb : getAt vs i <;> simp [ha, hb, Except.map] at h2 ⊢
  exact h2

theorem facesValid_congr {vs vs' : List (Vertex F)} {fs : List Face}
    (h : vs'.map (fun v => v.removed) = vs.map (fun v => v.removed))
    (hv : FacesValid vs fs) : FacesValid vs' fs := by
  intro f hf hr
  obtain ⟨hd, l0, l1, l2⟩ := hv f hf hr
  exact ⟨hd, by rw [aliveAt_congr h]; exact l0, by rw [aliveAt_congr h]; exact l1,
    by rw [aliveAt_congr h]; exact l2⟩

end

section
variable {F : Type} [Scalar F]

/-! ## `computeVertexQuadrics` -/

theorem addQ_spec {vs : List (Vertex F)} {i : Int} (K : Mat4 F) (h : InRange vs.length i) :
    ∃ vs', addQ vs i K = Except.ok vs' ∧ vs'.length = vs.length ∧
      vs'.map (fun v => v.position) = vs.map (fun v => v.position) ∧
      vs'.map (fun v => v.removed) = vs.map (fun v => v.removed) := by
  obtain ⟨v, hv⟩ := getAt_of_inRange h
  refine ⟨setAt vs i { v with Q := Mat4.add v.Q K }, ?_, length_setAt _ _ _,
    map_setAt_same _ _ hv rfl, map_setAt_same _ _ hv rfl⟩
  unfold addQ
  simp only [hv, bind_ok, pure_eq_ok]

/-- The quadric pass succeeds when the corners of the non-removed faces exist;
    it changes no position and no removed flag. -/
theorem quadricLoop_spec :
    ∀ (fs : List Face) (vs : List (Vertex F)),
      (∀ f ∈ fs, f.removed = false →
        InRange vs.length f.v0 ∧ InRange vs.length f.v1 ∧ InRange vs.length f.v2) →
      ∃ vs', quadricLoop fs vs = Except.ok vs' ∧ vs'.length = vs.length ∧
        vs'.map (fun v => v.position) = vs.map (fun v => v.position) ∧
        vs'.map (fun v => v.removed) = vs.map (fun v => v.removed) := by
  intro fs
  induction fs with
  | nil => intro vs _; exact ⟨vs, rfl, rfl, rfl, rfl⟩
  | cons f fs ih =>
    intro vs hf
    have hfs : ∀ g ∈ fs, g.removed = false →
        InRange vs.length g.v0 ∧ InRange vs.length g.v1 ∧ InRange vs.length g.v2 :=
      fun g hg => hf g (List.mem_cons_of_mem _ hg)
    rw [quadricLoop]
    by_cases hr : f.removed = true
    · rw [if_pos hr]; exact ih vs hfs
    · rw [if_neg hr]
      have hrf : f.removed = false := by simpa using hr
      obtain ⟨r0, r1, r2⟩ := hf f (List.mem_cons_self _ _) hrf
      obtain ⟨a, ha⟩ := getAt_of_inRange r0
      obtain ⟨b, hb⟩ := getAt_of_inRange r1
      obtain ⟨c, hc⟩ := getAt_of_inRange r2
      simp only [ha, hb, hc, bind_ok]
      split
      · exact ih vs hfs
      · generalize Mat4.outerProduct (F := F) _ _ = K
        obtain ⟨w1, e1, n1, p1, q1⟩ := @addQ_spec F _ vs f.v0 K r0
        obtain ⟨w2, e2, n2, p2, q2⟩ := @addQ_spec F _ w1 f.v1 K (by rw [n1]; exact r1)
        obtain ⟨w3, e3, n3, p3, q3⟩ := @addQ_spec F _ w2 f.v2 K
          (by rw [n2, n1]; exact r2)
        obtain ⟨w, e4, n4, p4, q4⟩ := ih w3 (by
          intro g hg hgr; rw [n3, n2, n1]; exact hfs g hg hgr)
        refine ⟨w, ?_, by rw [n4, n3, n2, n1], by rw [p4, p3, p2, p1], by rw [q4, q3, q2, q1]⟩
        simp only [e1, e2, e3, bind_ok]
        exact e4

end

section
variable {F : Type} [Scalar F]

theorem computeVertexQuadrics_spec {m : Mesh F} (hv : FacesValid m.vertices m.faces) :
    ∃ m', computeVertexQuadrics m = Except.ok m' ∧
      m'.vertices.length = m.vertices.length ∧
      m'.vertices.map (fun v => v.position) = m.vertices.map (fun v => v.position) ∧
      m'.vertices.map (fun v => v.removed) = m.vertices.map (fun v => v.removed) ∧
      m'.faces = m.faces ∧ m'.edges = m.edges ∧ m'.edgeHeap = m.edgeHeap ∧
      m'.vertexNeighbors = m.vertexNeighbors := by
  obtain ⟨vs', e1, n1, p1, q1⟩ := quadricLoop_spec m.faces
    (m.vertices.map (fun v => { v with Q := Mat4.zero }))
    (by
      intro f hf hr
      obtain ⟨-, r0, r1, r2⟩ := facesValid_inRange hv f hf hr
      simp only [List.length_map]
      exact ⟨r0, r1, r2⟩)
  refine ⟨{ m with vertices := vs' }, ?_, by simp [n1], ?_, ?_, rfl, rfl, rfl, rfl⟩
  · unfold computeVertexQuadrics
    simp only [e1, bind_ok, pure_eq_ok]
  · rw [p1]; simp [List.map_map, Function.comp_def]
  · rw [q1]; simp [List.map_map, Function.comp_def]

/-- The seeding loop succeeds when the edge list joins existing vertices;
    every record it adds carries the endpoints of an edge of the list. -/
theorem seedHeap_spec {pq : PQ F} (hpq : pq.Lawful) {m : Mesh F} :
    ∀ (es : List (Edge F)) (h : List (Edge F)),
      (∀ e ∈ es, InRange m.vertices.length e.v0 ∧ InRange m.vertices.length e.v1) →
      ∃ h', seedHeap pq m es h = Except.ok h' ∧
        ∀ r ∈ h', r ∈ h ∨ ∃ e ∈ es, r.v0 = e.v0 ∧ r.v1 = e.v1 := by
  intro es
  induction es with
  | nil => intro h _; exact ⟨h, rfl, fun r hr => Or.inl hr⟩
  | cons e es ih =>
    intro h hes
    obtain ⟨r0, r1⟩ := hes e (List.mem_cons_self _ _)
    obtain ⟨res, hres⟩ := computeEdgeCollapse_ok (m := m) r0 r1
    obtain ⟨h', e1, e2⟩ := ih (pq.push h ⟨e.v0, e.v1, res.cost, res.vBar⟩)
      (fun x hx => hes x (List.mem_cons_of_mem _ hx))
    have hperm := hpq.1 h ⟨e.v0, e.v1, res.cost, res.vBar⟩
    refine ⟨h', ?_, ?_⟩
    · rw [seedHeap]; simp only [hres, bind_ok]; exact e1
    · intro r hr
      rcases e2 r hr with h1 | ⟨x, hx, hx0, hx1⟩
      · rcases List.mem_cons.mp (hperm.mem_iff.mp h1) with h3 | h3
        · subst h3; exact Or.inr ⟨e, List.mem_cons_self _ _, rfl, rfl⟩
        · exact Or.inl h3
      · exact Or.inr ⟨x, List.mem_cons_of_mem _ hx, hx0, hx1⟩

/-- `simplifyMesh` reaches its collapse loop without fault, in a state that
    satisfies the loop invariant, with faces, adjacency, positions and removed
    flags as on entry. -/
theorem simplifyInit_spec {pq : PQ F} (hpq : pq.Lawful) {m : Mesh F}
    (hv : FacesValid m.vertices m.faces)
    (hshape : AdjShape m.vertices.length m.vertexNeighbors)
    (hirr : AdjIrrefl m.vertexNeighbors) (hrec : RecordsOK m.vertices.length m.edges) :
    ∃ s0, simplifyInit pq m = Except.ok s0 ∧ MeshInv s0.mesh ∧
      s0.activeFaces = countActive m.faces ∧ s0.collapseCount = 0 ∧
      s0.mesh.faces = m.faces ∧ s0.mesh.vertexNeighbors = m.vertexNeighbors ∧
      s0.mesh.edges = m.edges ∧
      s0.mesh.vertices.map (fun v => v.position) = m.vertices.map (fun v => v.position) ∧
      s0.mesh.vertices.map (fun v => v.removed) = m.vertices.map (fun v => v.removed) := by
  obtain ⟨m1, e1, n1, p1, q1, f1, d1, -, b1⟩ := computeVertexQuadrics_spec hv
  obtain ⟨h, e2, e3⟩ := seedHeap_spec hpq (m := m1) m1.edges []
    (by intro e he; rw [d1] at he; rw [n1]; exact ⟨(hrec e he).1, (hrec e he).2.1⟩)
  refine ⟨⟨{ m1 with edgeHeap := h }, countActive m1.faces, 0⟩, ?_, ?_, by simp [f1], rfl,
    f1, b1, d1, p1, q1⟩
  · unfold simplifyInit
    simp only [e1, e2, bind_ok, pure_eq_ok]
  · refine ⟨?_, ?_, ?_, ?_⟩
    · show AdjShape m1.vertices.length m1.vertexNeighbors
      rw [n1, b1]; exact hshape
    · show AdjIrrefl m1.vertexNeighbors
      rw [b1]; exact hirr
    · show FacesValid m1.vertices m1.faces
      rw [f1]; exact facesValid_congr q1 hv
    · show RecordsOK m1.vertices.length h
      intro r hr
      rcases e3 r hr with h1 | ⟨x, hx, hx0, hx1⟩
      · cases h1
      · rw [d1] at hx
        rw [hx0, hx1, n1]
        exact hrec x hx

/-! ## Induction over the collapse loop -/

/-- A property kept by every iteration holds when the loop exits, and the loop
    exits only when its condition fails. -/
theorem collapseLoop_induct {pq : PQ F} {t : Int} {P : LoopState F → Prop}
    (hstep : ∀ s s', P s → loopStep pq t s = Except.ok (some s') → P s') :
    ∀ (fuel : Nat) (s s' : LoopState F), P s → collapseLoop pq t fuel s = Except.ok s' →
      P s' ∧ loopStep pq t s' = Except.ok none := by
  intro fuel
  induction fuel with
  | zero =>
    intro s s' hP h
    rw [collapseLoop] at h
    cases hs : loopStep pq t s with
    | error er => simp [hs, bind_error] at h
    | ok r =>
      cases r with
      | none => simp [hs, bind_ok, pure_eq_ok] at h; subst h; exact ⟨hP, hs⟩
      | some s1 => simp [hs, bind_ok] at h
  | succ k ih =>
    intro s s' hP h
    rw [collapseLoop] at h
    cases hs : loopStep pq t s with
    | error er => simp [hs, bind_error] at h
    | ok r =>
      cases r with
      | none => simp [hs, bind_ok, pure_eq_ok] at h; subst h; exact ⟨hP, hs⟩
      | some s1 =>
        simp only [hs, bind_ok] at h
        exact ih s1 s' (hstep s s1 hP hs) h

/-- More fuel does not change the outcome of a run that succeeded. -/
theorem collapseLoop_fuel_mono {pq : PQ F} {t : Int} :
    ∀ (fuel : Nat) (s s' : LoopState F), collapseLoop pq t fuel s = Except.ok s' →
      ∀ fuel', fuel ≤ fuel' → collapseLoop pq t fuel' s = Except.ok s' := by
  intro fuel
  induction fuel with
  | zero =>
    intro s s' h fuel' _
    rw [collapseLoop] at h ⊢
    cases hs : loopStep pq t s with
    | error er => simp [hs, bind_error] at h
    | ok r =>
      cases r with
      | none => simpa [hs, bind_ok] using h
      | some s1 => simp [hs, bind_ok] at h
  | succ k ih =>
    intro s s' h fuel' hle
    rw [collapseLoop] at h ⊢
    cases hs : loopStep pq t s with
    | error er => simp [hs, bind_error] at h
    | ok r =>
      cases r with
      | none => simpa [hs, bind_ok] using h
      | some s1 =>
        simp only [hs, bind_ok] at h ⊢
        cases fuel' with
        | zero => omega
        | succ k' => exact ih s1 s' h k' (by omega)

/-- Two successful runs of the loop from the same state agree. -/
theorem collapseLoop_deterministic {pq : PQ F} {t : Int} {f1 f2 : Nat}
    {s s1 s2 : LoopState F} (h1 : collapseLoop pq t f1 s = Except.ok s1)
    (h2 : collapseLoop pq t f2 s = Except.ok s2) : s1 = s2 := by
  have a := collapseLoop_fuel_mono f1 s s1 h1 (max f1 f2) (le_max_left _ _)
  have b := collapseLoop_fuel_mono f2 s s2 h2 (max f1 f2) (le_max_right _ _)
  rw [a] at b
  cases b
  rfl

/-- Every iteration keeps the loop invariant and the meaning of `activeFaces`. -/
theorem loopStep_meshInv {pq : PQ F} (hpq : pq.Lawful) {t : Int} {s s' : LoopState F}
    (hinv : MeshInv s.mesh ∧ s.activeFaces = countActive s.mesh.faces)
    (h : loopStep pq t s = Except.ok (some s')) :
    MeshInv s'.mesh ∧ s'.activeFaces = countActive s'.mesh.faces := by
  rcases loopStep_cases hpq t s hinv.1 with
    ⟨h1, -⟩ | ⟨e, hp, hpop, -, ⟨hacc, hstep⟩ | ⟨hacc, m2, hm2, hstep⟩⟩
  · rw [h1] at h; cases h
  · rw [hstep] at h
    cases h
    obtain ⟨hrec', -⟩ := recordsOK_of_pop hpq hinv.1.2.2.2 hpop
    exact ⟨⟨hinv.1.1, hinv.1.2.1, hinv.1.2.2.1, hrec'⟩, hinv.2⟩
  · rw [hstep] at h
    cases h
    obtain ⟨hrec', -, -, hne, -⟩ := recordsOK_of_pop hpq hinv.1.2.2.2 hpop
    obtain ⟨a0, a1, -⟩ := accepts_true hacc
    have hinv1 : MeshInv ({ s.mesh with edgeHeap := hp } : Mesh F) :=
      ⟨hinv.1.1, hinv.1.2.1, hinv.1.2.2.1, hrec'⟩
    exact ⟨(collapseEdge_meshInv hpq hinv1 hne a0 a1 hm2).1, rfl⟩

end

section
variable {F : Type}

/-! ## `reindexVertices` -/

theorem reindexScan_eq [Scalar F] :
    ∀ (vs newVerts : List (Vertex F)) (oldToNew : List Int),
      reindexScan vs newVerts oldToNew =
        (newVerts ++ vs.filter (fun v => !v.removed),
         oldToNew ++ indexTable newVerts.length vs) := by
  intro vs
  induction vs with
  | nil => intro nv o; simp [reindexScan, indexTable]
  | cons v vs ih =>
    intro nv o
    rw [reindexScan]
    by_cases hr : v.removed = true
    · rw [if_pos hr, ih]
      simp [indexTable, hr]
    · rw [if_neg hr, ih]
      have hrf : v.removed = false := by simpa using hr
      simp [indexTable, hrf]

theorem length_indexTable (k : Nat) (vs : List (Vertex F)) :
    (indexTable k vs).length = vs.length := by
  induction vs generalizing k with
  | nil => rfl
  | cons v vs ih =>
    unfold indexTable
    split <;> simp [ih]

/-- The table sends a surviving vertex to its position among the survivors,
    and the compacted array holds that vertex there. -/
theorem indexTable_alive :
    ∀ (vs : List (Vertex F)) (k n : Nat) (v : Vertex F), vs[n]? = some v → v.removed = false →
      (indexTable k vs)[n]? = some ((k + aliveCount (vs.take n) : Nat) : Int) ∧
      (vs.filter (fun v => !v.removed))[aliveCount (vs.take n)]? = some v := by
  intro vs
  induction vs with
  | nil => intro k n v h _; simp at h
  | cons w vs ih =>
    intro k n v h hr
    cases n with
    | zero =>
      simp at h; subst h
      simp [indexTable, hr, aliveCount]
    | succ n =>
      simp at h
      by_cases hw : w.removed = true
      · obtain ⟨a, b⟩ := ih k n v h hr
        simp only [indexTable, hw, if_true, List.getElem?_cons_succ, a, List.take_succ_cons]
        have hc : aliveCount (w :: List.take n vs) = aliveCount (List.take n vs) := by
          simp [aliveCount, List.countP_cons, hw]
        rw [hc]
        refine ⟨rfl, ?_⟩
        simp only [List.filter_cons, hw, Bool.not_true, Bool.false_eq_true, if_false]
        exact b
      · have hwf : w.removed = false := by simpa using hw
        obtain ⟨a, b⟩ := ih (k + 1) n v h hr
        simp only [indexTable, hwf, Bool.false_eq_true, if_false, List.getElem?_cons_succ, a,
          List.take_succ_cons]
        have hc : aliveCount (w :: List.take n vs) = aliveCount (List.take n vs) + 1 := by
          simp [aliveCount, List.countP_cons, hwf]
        rw [hc]
        refine ⟨by congr 2; omega, ?_⟩
        simp only [List.filter_cons, hwf, Bool.not_false, if_true, List.getElem?_cons_succ]
        exact b

theorem indexTable_removed :
    ∀ (vs : List (Vertex F)) (k n : Nat) (v : Vertex F), vs[n]? = some v → v.removed = true →
      (indexTable k vs)[n]? = some (-1) := by
  intro vs
  induction vs with
  | nil => intro k n v h _; simp at h
  | cons w vs ih =>
    intro k n v h hr
    cases n with
    | zero =>
      simp at h; subst h
      simp [indexTable, hr]
    | succ n =>
      simp at h
      unfold indexTable
      split
      · simpa using ih k n v h hr
      · simpa using ih (k + 1) n v h hr

/-- The number of survivors in front of a vertex grows strictly from one
    surviving vertex to a later one. -/
theorem aliveCount_take_lt :
    ∀ (vs : List (Vertex F)) (i j : Nat) (v : Vertex F), vs[i]? = some v → v.removed = false →
      i < j → aliveCount (vs.take i) < aliveCount (vs.take j) := by
  intro vs
  induction vs with
  | nil => intro i j v h _ _; simp at h
  | cons w vs ih =>
    intro i j v h hr hij
    cases j with
    | zero => omega
    | succ j =>
      cases i with
      | zero =>
        simp at h; subst h
        simp [aliveCount, List.countP_cons, hr]
      | succ i =>
        simp at h
        have := ih i j v h hr (by omega)
        simp only [aliveCount, List.take_succ_cons, List.countP_cons] at this ⊢
        omega

theorem aliveCount_take_mono (vs : List (Vertex F)) {i j : Nat} (hij : i ≤ j) :
    aliveCount (vs.take i) ≤ aliveCount (vs.take j) := by
  induction vs generalizing i j with
  | nil => simp
  | cons w vs ih =>
    cases i with
    | zero => simp [aliveCount]
    | succ i =>
      cases j with
      | zero => omega
      | succ j =>
        have := ih (i := i) (j := j) (by omega)
        simp only [aliveCount, List.take_succ_cons, List.countP_cons] at this ⊢
        omega

/-- The table entry and the compacted array at a live old index. -/
theorem newIndex_spec {vs : List (Vertex F)} {i : Int} (h : aliveAt vs i = true) :
    getAt (indexTable 0 vs) i = Except.ok (newIndex vs i) ∧
    getAt (vs.filter (fun v => !v.removed)) (newIndex vs i) = getAt vs i := by
  obtain ⟨v, hv, hr⟩ := aliveAt_iff.mp h
  obtain ⟨h0, h1⟩ := getAt_eq_ok.mp hv
  obtain ⟨a, b⟩ := indexTable_alive vs 0 i.toNat v h1 hr
  unfold newIndex
  refine ⟨getAt_eq_ok.mpr ⟨h0, by simpa using a⟩, ?_⟩
  rw [hv]
  exact getAt_eq_ok.mpr ⟨by omega, by simpa using b⟩

/-- The old-to-new map is strictly increasing, hence injective, on the
    surviving vertices. -/
theorem newIndex_lt {vs : List (Vertex F)} {i j : Int} (hi : aliveAt vs i = true)
    (hj : 0 ≤ j) (hij : i < j) : newIndex vs i < newIndex vs j := by
  obtain ⟨v, hv, hr⟩ := aliveAt_iff.mp hi
  obtain ⟨h0, h1⟩ := getAt_eq_ok.mp hv
  unfold newIndex
  have := aliveCount_take_lt vs i.toNat j.toNat v h1 hr (by omega)
  omega

theorem newIndex_ne {vs : List (Vertex F)} {i j : Int} (hi : aliveAt vs i = true)
    (hj : aliveAt vs j = true) (hij : i ≠ j) : newIndex vs i ≠ newIndex vs j := by
  have ri := aliveAt_inRange hi
  have rj := aliveAt_inRange hj
  rcases lt_or_gt_of_ne hij with h | h
  · exact ne_of_lt (newIndex_lt hi rj.1 h)
  · exact ne_of_gt (newIndex_lt hj ri.1 h)

theorem remapFaces_spec {tbl : List Int} :
    ∀ fs : List Face,
      (∀ f ∈ fs, f.removed = false →
        InRange tbl.length f.v0 ∧ InRange tbl.length f.v1 ∧ InRange tbl.length f.v2) →
      ∃ fs', remapFaces tbl fs = Except.ok fs' ∧ List.Forall₂ (Remapped tbl) fs fs' := by
  intro fs
  induction fs with
  | nil => intro _; exact ⟨[], rfl, List.Forall₂.nil⟩
  | cons f fs ih =>
    intro hf
    obtain ⟨fs', e1, e2⟩ := ih (fun g hg => hf g (List.mem_cons_of_mem _ hg))
    rw [remapFaces]
    by_cases hr : f.removed = true
    · rw [if_pos hr]
      refine ⟨f :: fs', by simp only [e1, bind_ok, pure_eq_ok], List.Forall₂.cons ?_ e2⟩
      exact ⟨rfl, fun _ => rfl, fun h => by rw [hr] at h; cases h⟩
    · rw [if_neg hr]
      have hrf : f.removed = false := by simpa using hr
      obtain ⟨r0, r1, r2⟩ := hf f (List.mem_cons_self _ _) hrf
      obtain ⟨a, ha⟩ := getAt_of_inRange r0
      obtain ⟨b, hb⟩ := getAt_of_inRange r1
      obtain ⟨c, hc⟩ := getAt_of_inRange r2
      refine ⟨⟨a, b, c, f.removed⟩ :: fs', by simp only [ha, hb, hc, e1, bind_ok, pure_eq_ok],
        List.Forall₂.cons ?_ e2⟩
      refine ⟨rfl, ?_, fun _ => ⟨ha, hb, hc⟩⟩
      intro h
      rw [hrf] at h
      cases h

theorem remapFaces_inv {tbl : List Int} :
    ∀ (fs fs' : List Face), remapFaces tbl fs = Except.ok fs' →
      List.Forall₂ (Remapped tbl) fs fs' := by
  intro fs
  induction fs with
  | nil =>
    intro fs' h
    rw [remapFaces] at h
    cases h
    exact List.Forall₂.nil
  | cons f fs ih =>
    intro fs' h
    rw [remapFaces] at h
    by_cases hr : f.removed = true
    · rw [if_pos hr] at h
      simp only [bind_eq_ok, pure_eq_ok, Except.ok.injEq] at h
      obtain ⟨r, hr1, rfl⟩ := h
      exact List.Forall₂.cons ⟨rfl, fun _ => rfl, fun h => by rw [hr] at h; cases h⟩ (ih r hr1)
    · rw [if_neg hr] at h
      have hrf : f.removed = false := by simpa using hr
      simp only [bind_eq_ok, pure_eq_ok, Except.ok.injEq] at h
      obtain ⟨a, ha, b, hb, c, hc, r, hr1, rfl⟩ := h
      refine List.Forall₂.cons ⟨rfl, ?_, fun _ => ⟨ha, hb, hc⟩⟩ (ih r hr1)
      intro h
      rw [hrf] at h
      cases h

end

theorem forall₂_imp_mem {α β : Type} {R S : α → β → Prop} :
    ∀ {l : List α} {l' : List β}, List.Forall₂ R l l' →
      (∀ a b, a ∈ l → b ∈ l' → R a b → S a b) → List.Forall₂ S l l' := by
  intro l l' h
  induction h with
  | nil => intro _; exact List.Forall₂.nil
  | cons hab _ ih =>
    intro himp
    exact List.Forall₂.cons (himp _ _ (List.mem_cons_self _ _) (List.mem_cons_self _ _) hab)
      (ih (fun a b ha hb => himp a b (List.mem_cons_of_mem _ ha) (List.mem_cons_of_mem _ hb)))

theorem forall₂_mem_right {α β : Type} {R : α → β → Prop} :
    ∀ {l : List α} {l' : List β}, List.Forall₂ R l l' → ∀ b ∈ l', ∃ a ∈ l, R a b := by
  intro l l' h
  induction h with
  | nil => intro b hb; cases hb
  | cons hab _ ih =>
    intro b hb
    rcases List.mem_cons.mp hb with rfl | hb'
    · exact ⟨_, List.mem_cons_self _ _, hab⟩
    · obtain ⟨a, ha, hr⟩ := ih b hb'
      exact ⟨a, List.mem_cons_of_mem _ ha, hr⟩

theorem forall₂_eq_of {α : Type} :
    ∀ {l l' : List α}, List.Forall₂ (fun a b => b = a) l l' → l' = l := by
  intro l l' h
  induction h with
  | nil => rfl
  | cons hab _ ih => rw [hab, ih]

theorem forall₂_map_eq {α β : Type} (f : α → β) :
    ∀ {l l' : List α}, List.Forall₂ (fun a b => f b = f a) l l' → l'.map f = l.map f := by
  intro l l' h
  induction h with
  | nil => rfl
  | cons hab _ ih => simp [hab, ih]

section
variable {F : Type} [Scalar F]

/-- How `reindexVertices` rewrites one face: flags kept, removed faces
    untouched, corners of the others sent through `newIndex`, where the
    compacted array holds the vertex the old index referred to. -/
theorem reindexVertices_spec {m : Mesh F}
    (hlive : ∀ f ∈ m.faces, f.removed = false → f.Live m.vertices) :
    ∃ m', reindexVertices m = Except.ok m' ∧
      m'.vertices = m.vertices.filter (fun v => !v.removed) ∧
      m'.edges = m.edges ∧ m'.edgeHeap = m.edgeHeap ∧
      m'.vertexNeighbors = m.vertexNeighbors ∧
      List.Forall₂ (fun f f' => f'.removed = f.removed ∧ (f.removed = true → f' = f) ∧
        (f.removed = false →
          f'.v0 = newIndex m.vertices f.v0 ∧ f'.v1 = newIndex m.vertices f.v1 ∧
          f'.v2 = newIndex m.vertices f.v2 ∧
          getAt m'.vertices f'.v0 = getAt m.vertices f.v0 ∧
          getAt m'.vertices f'.v1 = getAt m.vertices f.v1 ∧
          getAt m'.vertices f'.v2 = getAt m.vertices f.v2)) m.faces m'.faces := by
  have hsc := reindexScan_eq m.vertices [] []
  obtain ⟨fs', e1, e2⟩ := @remapFaces_spec (indexTable 0 m.vertices) m.faces (by
    intro f hf hr
    obtain ⟨l0, l1, l2⟩ := hlive f hf hr
    rw [length_indexTable]
    exact ⟨aliveAt_inRange l0, aliveAt_inRange l1, aliveAt_inRange l2⟩)
  refine ⟨{ m with vertices := m.vertices.filter (fun v => !v.removed), faces := fs' },
    ?_, rfl, rfl, rfl, rfl, ?_⟩
  · unfold reindexVertices
    simp only [hsc, List.nil_append, List.length_nil, e1, bind_ok, pure_eq_ok]
  · refine forall₂_imp_mem e2 ?_
    rintro f f' hf - ⟨r1, r2, r3⟩
    refine ⟨r1, r2, ?_⟩
    intro hr
    obtain ⟨l0, l1, l2⟩ := hlive f hf hr
    obtain ⟨g0, g1, g2⟩ := r3 hr
    obtain ⟨a0, b0⟩ := newIndex_spec l0
    obtain ⟨a1, b1⟩ := newIndex_spec l1
    obtain ⟨a2, b2⟩ := newIndex_spec l2
    rw [a0] at g0; rw [a1] at g1; rw [a2] at g2
    have k0 := (Except.ok.inj g0).symm
    have k1 := (Except.ok.inj g1).symm
    have k2 := (Except.ok.inj g2).symm
    refine ⟨k0, k1, k2, ?_, ?_, ?_⟩
    · rw [k0]; exact b0
    · rw [k1]; exact b1
    · rw [k2]; exact b2

/-- After the re-index no vertex is flagged removed and the corners of every
    non-removed face are pairwise distinct indices into the compacted array. -/
theorem reindexVertices_output {m m' : Mesh F} (hv : FacesValid m.vertices m.faces)
    (h : reindexVertices m = Except.ok m') :
    (∀ v ∈ m'.vertices, v.removed = false) ∧
    ∀ f ∈ m'.faces, f.removed = false →
      f.Distinct ∧ InRange m'.vertices.length f.v0 ∧ InRange m'.vertices.length f.v1 ∧
      InRange m'.vertices.length f.v2 := by
  obtain ⟨m1, e1, e2, -, -, -, e3⟩ := reindexVertices_spec (fun f hf hr => (hv f hf hr).2)
  rw [h] at e1
  cases e1
  refine ⟨?_, ?_⟩
  · intro v hv'
    rw [e2] at hv'
    simpa using (List.mem_filter.mp hv').2
  · intro f' hf' hr'
    obtain ⟨f, hf, r1, -, r3⟩ := forall₂_mem_right e3 f' hf'
    have hr : f.removed = false := by rw [← r1]; exact hr'
    obtain ⟨⟨d01, d12, d20⟩, l0, l1, l2⟩ := hv f hf hr
    obtain ⟨i0, i1, i2, g0, g1, g2⟩ := r3 hr
    obtain ⟨v0, hv0, -⟩ := aliveAt_iff.mp l0
    obtain ⟨v1, hv1, -⟩ := aliveAt_iff.mp l1
    obtain ⟨v2, hv2, -⟩ := aliveAt_iff.mp l2
    rw [hv0] at g0; rw [hv1] at g1; rw [hv2] at g2
    refine ⟨⟨?_, ?_, ?_⟩, getAt_inRange g0, getAt_inRange g1, getAt_inRange g2⟩
    · rw [i0, i1]; exact newIndex_ne l0 l1 d01
    · rw [i1, i2]; exact newIndex_ne l1 l2 d12
    · rw [i2, i0]; exact newIndex_ne l2 l0 d20

/-! ## `simplifyMesh` on a mesh prepared by `buildEdges` -/

/-- The collapse loop of `simplifyMesh` exits, without fault, from the state
    `simplifyMesh` enters it in. -/
theorem simplifyRun_terminates {pq : PQ F} (hpq : pq.Lawful) {m0 m : Mesh F} (t : Int)
    (hv : FacesValid m0.vertices m0.faces) (hb : buildEdges m0 = Except.ok m) :
    ∃ fuel s, simplifyRun pq fuel m t = Except.ok s ∧ MeshInv s.mesh ∧
      loopStep pq t s = Except.ok none ∧ (s.activeFaces ≤ t ∨ s.mesh.edgeHeap = []) := by
  obtain ⟨m1, b1, bv, bf, -, bshape, birr, -, brec⟩ := buildEdges_spec hv
  rw [hb] at b1
  cases b1
  have hv' : FacesValid m.vertices m.faces := by rw [bv, bf]; exact hv
  obtain ⟨s0, i1, i2, -⟩ := simplifyInit_spec hpq hv' bshape birr brec
  obtain ⟨fuel, s, q1, q2, q3, q4⟩ :=
    collapseLoop_terminates hpq t (aliveCount s0.mesh.vertices) s0.mesh.edgeHeap.length s0
      rfl rfl i2
  refine ⟨fuel, s, ?_, q2, q3, q4⟩
  unfold simplifyRun
  simp only [i1, bind_ok]
  exact q1

/-- Every successful run of the loop ends in a state that satisfies the loop
    invariant, with `activeFaces` the number of non-removed faces. -/
theorem simplifyRun_meshInv {pq : PQ F} (hpq : pq.Lawful) {m0 m : Mesh F} {t : Int}
    (hv : FacesValid m0.vertices m0.faces) (hb : buildEdges m0 = Except.ok m)
    {fuel : Nat} {s : LoopState F} (h : simplifyRun pq fuel m t = Except.ok s) :
    MeshInv s.mesh ∧ s.activeFaces = countActive s.mesh.faces ∧
    loopStep pq t s = Except.ok none := by
  obtain ⟨m1, b1, bv, bf, -, bshape, birr, -, brec⟩ := buildEdges_spec hv
  rw [hb] at b1
  cases b1
  have hv' : FacesValid m.vertices m.faces := by rw [bv, bf]; exact hv
  obtain ⟨s0, i1, i2, i3, -, i5, -⟩ := simplifyInit_spec hpq hv' bshape birr brec
  unfold simplifyRun at h
  simp only [i1, bind_ok] at h
  have := collapseLoop_induct
    (P := fun s => MeshInv s.mesh ∧ s.activeFaces = countActive s.mesh.faces)
    (fun s s' hP hs => loopStep_meshInv hpq hP hs) fuel s0 s ⟨i2, by rw [i3, i5]⟩ h
  exact ⟨this.1.1, this.1.2, this.2⟩

theorem loopStep_none_iff {pq : PQ F} {t : Int} {s : LoopState F}
    (h : loopStep pq t s = Except.ok none) :
    s.activeFaces ≤ t ∨ s.mesh.edgeHeap = [] := by
  unfold loopStep at h
  by_cases hc : s.activeFaces > t ∧ s.mesh.edgeHeap.isEmpty = false
  · rw [if_pos hc] at h
    cases hpop : pq.pop s.mesh.edgeHeap with
    | none => simp [hpop] at h
    | some p =>
      obtain ⟨e, hp⟩ := p
      simp only [hpop] at h
      cases hacc : accepts { s.mesh with edgeHeap := hp } e with
      | error er => simp [hacc, bind_error] at h
      | ok b =>
        simp only [hacc, bind_ok] at h
        cases b with
        | false => simp [pure_eq_ok] at h
        | true =>
          simp only [if_true] at h
          cases hce : collapseEdge pq { s.mesh with edgeHeap := hp } e with
          | error er => simp [hce, bind_error] at h
          | ok m2 => simp [hce, bind_ok, pure_eq_ok] at h
  · by_cases h1 : s.activeFaces ≤ t
    · exact Or.inl h1
    · right
      have : ¬ (s.mesh.edgeHeap.isEmpty = false) := fun h2 => hc ⟨by omega, h2⟩
      simpa using this

end

section
variable {F : Type}

theorem filter_alive_map_congr :
    ∀ (vs vs' : List (Vertex F)),
      vs'.map (fun v => v.position) = vs.map (fun v => v.position) →
      vs'.map (fun v => v.removed) = vs.map (fun v => v.removed) →
      (vs'.filter (fun v => !v.removed)).map (fun v => v.position) =
        (vs.filter (fun v => !v.removed)).map (fun v => v.position) := by
  intro vs
  induction vs with
  | nil =>
    intro vs' hp _
    have : vs' = [] := by simpa using hp
    subst this; rfl
  | cons v vs ih =>
    intro vs' hp hr
    cases vs' with
    | nil => simp at hp
    | cons w ws =>
      simp only [List.map_cons, List.cons.injEq] at hp hr
      have := ih ws hp.2 hr.2
      simp only [List.filter_cons, hr.1]
      split
      · simp [hp.1, this]
      · exact this

theorem aliveCount_congr :
    ∀ (vs vs' : List (Vertex F)),
      vs'.map (fun v => v.removed) = vs.map (fun v => v.removed) →
      ∀ n, aliveCount (vs'.take n) = aliveCount (vs.take n) := by
  intro vs
  induction vs with
  | nil =>
    intro vs' hr n
    have : vs' = [] := by simpa using hr
    subst this; rfl
  | cons v vs ih =>
    intro vs' hr n
    cases vs' with
    | nil => simp at hr
    | cons w ws =>
      simp only [List.map_cons, List.cons.injEq] at hr
      cases n with
      | zero => rfl
      | succ n =>
        have := ih ws hr.2 n
        simp only [aliveCount, List.take_succ_cons, List.countP_cons, hr.1] at this ⊢
        omega

theorem newIndex_congr {vs vs' : List (Vertex F)}
    (h : vs'.map (fun v => v.removed) = vs.map (fun v => v.removed)) (i : Int) :
    newIndex vs' i = newIndex vs i := by
  unfold newIndex
  rw [aliveCount_congr vs vs' h]

theorem filter_alive_eq_self {vs : List (Vertex F)} (h : ∀ v ∈ vs, v.removed = false) :
    vs.filter (fun v => !v.removed) = vs := by
  apply List.filter_eq_self.mpr
  intro v hv
  simp [h v hv]

/-- Without removed vertices the old-to-new map is the identity. -/
theorem newIndex_eq_self {vs : List (Vertex F)} (h : ∀ v ∈ vs, v.removed = false)
    {i : Int} (hi : InRange vs.length i) : newIndex vs i = i := by
  unfold newIndex aliveCount
  have hall : ∀ v ∈ vs.take i.toNat, (fun v : Vertex F => !v.removed) v = true := by
    intro v hv
    simp [h v (List.mem_of_mem_take hv)]
  rw [List.countP_eq_length.mpr hall, List.length_take]
  obtain ⟨h0, h1⟩ := hi
  omega

end

section
variable {F : Type} [Scalar F]

/-! ## The queue `listPQ` -/

theorem popMin_perm : ∀ (h : List (Edge F)) (e : Edge F) (h' : List (Edge F)),
    popMin h = some (e, h') → h.Perm (e :: h') := by
  intro h
  induction h with
  | nil => intro e h' hp; simp [popMin] at hp
  | cons x xs ih =>
    intro e h' hp
    rw [popMin] at hp
    cases hrec : popMin xs with
    | none =>
      have hxs : xs = [] := by
        cases xs with
        | nil => rfl
        | cons y ys =>
          rw [popMin] at hrec
          cases h2 : popMin ys with
          | none => simp [h2] at hrec
          | some p => simp only [h2] at hrec; split at hrec <;> cases hrec
      simp only [hrec, Option.some.injEq, Prod.mk.injEq] at hp
      obtain ⟨rfl, rfl⟩ := hp
      rw [hxs]
    | some p =>
      obtain ⟨mn, rest⟩ := p
      simp only [hrec] at hp
      have hperm := ih mn rest hrec
      split at hp
      · simp only [Option.some.injEq, Prod.mk.injEq] at hp
        obtain ⟨rfl, rfl⟩ := hp
        exact (List.Perm.cons x hperm).trans (List.Perm.swap _ _ _)
      · simp only [Option.some.injEq, Prod.mk.injEq] at hp
        obtain ⟨rfl, rfl⟩ := hp
        exact List.Perm.refl _

theorem popMin_eq_none : ∀ (h : List (Edge F)), popMin h = none ↔ h = [] := by
  intro h
  cases h with
  | nil => simp [popMin]
  | cons x xs =>
    rw [popMin]
    cases h2 : popMin xs with
    | none => simp
    | some p => simp only; split <;> simp

/-- The list queue is a lawful queue. -/
theorem listPQ_lawful : (listPQ F).Lawful := by
  refine ⟨?_, ?_, ?_⟩
  · intro h e
    exact List.perm_append_singleton e h
  · intro h
    exact popMin_eq_none h
  · intro h e h' hp
    exact popMin_perm h e h' hp

end

section
variable {F : Type} [Scalar F]

/-! ## Face counting under `collapseEdge` -/

theorem countActive_relabel {vA vB : Int} (hne : vA ≠ vB) :
    ∀ fs : List Face, (∀ f ∈ fs, f.removed = false → f.Distinct) →
      countActive (fs.map (relabelFace vA vB)) + sharedCount fs vA vB = countActive fs := by
  intro fs
  induction fs with
  | nil => intro _; simp [countActive, sharedCount]
  | cons f fs ih =>
    intro hd
    have ih' := ih (fun g hg => hd g (List.mem_cons_of_mem _ hg))
    unfold countActive sharedCount at ih' ⊢
    by_cases hr : f.removed = true
    · simp only [List.map_cons, List.filter_cons, relabelFace_removed hr, hr]
      simpa using ih'
    · have hrf : f.removed = false := by simpa using hr
      have hiff := @relabelFace_removed_iff vA vB f hrf
        (hd f (List.mem_cons_self _ _) hrf) hne
      by_cases hboth : f.hasCorner vA ∧ f.hasCorner vB
      · have h1 : (relabelFace vA vB f).removed = true := hiff.mpr hboth
        simp only [List.map_cons, List.filter_cons, h1, hrf, hboth.1, hboth.2]
        simp
        omega
      · have h1 : (relabelFace vA vB f).removed = false := by
          cases hx : (relabelFace vA vB f).removed with
          | false => rfl
          | true => exact absurd (hiff.mp hx) hboth
        have h2 : (decide (f.hasCorner vA) && decide (f.hasCorner vB)) = false := by
          by_cases ha : f.hasCorner vA
          · have hb : ¬ f.hasCorner vB := fun hb => hboth ⟨ha, hb⟩
            simp [ha, hb]
          · simp [ha]
        simp only [List.map_cons, List.filter_cons, h1, hrf, Bool.not_false, Bool.true_and, h2]
        simp
        omega

theorem sharedCount_nonneg (fs : List Face) (vA vB : Int) : 0 ≤ sharedCount fs vA vB := by
  unfold sharedCount; omega

theorem sharedCount_pos_iff (fs : List Face) (vA vB : Int) :
    0 < sharedCount fs vA vB ↔
      ∃ f ∈ fs, f.removed = false ∧ f.hasCorner vA ∧ f.hasCorner vB := by
  unfold sharedCount
  rw [Int.ofNat_pos, List.length_pos_iff_exists_mem]
  constructor
  · rintro ⟨f, hf⟩
    obtain ⟨h1, h2⟩ := List.mem_filter.mp hf
    simp only [Bool.and_eq_true, Bool.not_eq_true', decide_eq_true_eq] at h2
    exact ⟨f, h1, h2.1.1, h2.1.2, h2.2⟩
  · rintro ⟨f, h1, h2, h3, h4⟩
    exact ⟨f, List.mem_filter.mpr ⟨h1, by simp [h2, h3, h4]⟩⟩

end

section
variable {F : Type} [Scalar F]

/-! ## Freshness of pushed records -/

theorem reseed_fresh {pq : PQ F} (hpq : pq.Lawful) {m : Mesh F} {vA : Int} :
    ∀ (L : List Int) (h h' : List (Edge F)), reseed pq m vA L h = Except.ok h' →
      ∀ r ∈ h', r ∈ h ∨ ∃ res, computeEdgeCollapse m r.v0 r.v1 = Except.ok res ∧
        r.optimalPos = res.vBar ∧ r.cost = res.cost := by
  intro L
  induction L with
  | nil =>
    intro h h' hh r hr
    rw [reseed] at hh
    cases hh
    exact Or.inl hr
  | cons x rest ih =>
    intro h h' hh r hr
    rw [reseed] at hh
    simp only [bind_eq_ok] at hh
    obtain ⟨res, hres, hh⟩ := hh
    rcases ih _ h' hh r hr with h1 | h1
    · rcases List.mem_cons.mp ((hpq.1 h _).mem_iff.mp h1) with h2 | h2
      · subst h2
        exact Or.inr ⟨res, hres, rfl, rfl⟩
      · exact Or.inl h2
    · exact Or.inr h1

theorem seedHeap_fresh {pq : PQ F} (hpq : pq.Lawful) {m : Mesh F} :
    ∀ (es : List (Edge F)) (h h' : List (Edge F)), seedHeap pq m es h = Except.ok h' →
      ∀ r ∈ h', r ∈ h ∨ ∃ res, computeEdgeCollapse m r.v0 r.v1 = Except.ok res ∧
        r.optimalPos = res.vBar ∧ r.cost = res.cost := by
  intro es
  induction es with
  | nil =>
    intro h h' hh r hr
    rw [seedHeap] at hh
    cases hh
    exact Or.inl hr
  | cons e es ih =>
    intro h h' hh r hr
    rw [seedHeap] at hh
    simp only [bind_eq_ok] at hh
    obtain ⟨res, hres, hh⟩ := hh
    rcases ih _ h' hh r hr with h1 | h1
    · rcases List.mem_cons.mp ((hpq.1 h _).mem_iff.mp h1) with h2 | h2
      · subst h2
        exact Or.inr ⟨res, hres, rfl, rfl⟩
      · exact Or.inl h2
    · exact Or.inr h1

/-- An iteration that counts a collapse popped a record, accepted it and
    handed it to `collapseEdge`. -/
theorem loopStep_collapse {pq : PQ F} {t : Int} {s s' : LoopState F}
    (h : loopStep pq t s = Except.ok (some s'))
    (hc : s'.collapseCount = s.collapseCount + 1) :
    ∃ e hp, pq.pop s.mesh.edgeHeap = some (e, hp) ∧
      accepts { s.mesh with edgeHeap := hp } e = Except.ok true ∧
      collapseEdge pq { s.mesh with edgeHeap := hp } e = Except.ok s'.mesh := by
  unfold loopStep at h
  by_cases hcond : s.activeFaces > t ∧ s.mesh.edgeHeap.isEmpty = false
  · rw [if_pos hcond] at h
    cases hpop : pq.pop s.mesh.edgeHeap with
    | none => simp [hpop] at h
    | some p =>
      obtain ⟨e, hp⟩ := p
      simp only [hpop] at h
      cases hacc : accepts { s.mesh with edgeHeap := hp } e with
      | error er => simp [hacc, bind_error] at h
      | ok b =>
        simp only [hacc, bind_ok] at h
        cases b with
        | false =>
          simp only [Bool.false_eq_true, if_false, pure_eq_ok, Except.ok.injEq,
            Option.some.injEq] at h
          subst h
          simp at hc
        | true =>
          simp only [if_true] at h
          cases hce : collapseEdge pq { s.mesh with edgeHeap := hp } e with
          | error er => simp [hce, bind_error] at h
          | ok m2 =>
            simp only [hce, bind_ok, pure_eq_ok, Except.ok.injEq, Option.some.injEq] at h
            subst h
            exact ⟨e, hp, rfl, hacc, hce⟩
  · rw [if_neg hcond] at h
    simp [pure_eq_ok] at h

/-- The invariant that carries invariant 2 through the collapse loop. -/
theorem loopStep_linked {pq : PQ F} (hpq : pq.Lawful) {t : Int} {s s' : LoopState F}
    (hinv : MeshInv s.mesh ∧ FacesLinked s.mesh.vertexNeighbors s.mesh.faces)
    (h : loopStep pq t s = Except.ok (some s')) :
    MeshInv s'.mesh ∧ FacesLinked s'.mesh.vertexNeighbors s'.mesh.faces := by
  rcases loopStep_cases hpq t s hinv.1 with
    ⟨h1, -⟩ | ⟨e, hp, hpop, -, ⟨hacc, hstep⟩ | ⟨hacc, m2, hm2, hstep⟩⟩
  · rw [h1] at h; cases h
  · rw [hstep] at h
    cases h
    obtain ⟨hrec', -⟩ := recordsOK_of_pop hpq hinv.1.2.2.2 hpop
    exact ⟨⟨hinv.1.1, hinv.1.2.1, hinv.1.2.2.1, hrec'⟩, hinv.2⟩
  · rw [hstep] at h
    cases h
    obtain ⟨hrec', -, -, hne, -⟩ := recordsOK_of_pop hpq hinv.1.2.2.2 hpop
    obtain ⟨a0, a1, -⟩ := accepts_true hacc
    have hinv1 : MeshInv ({ s.mesh with edgeHeap := hp } : Mesh F) :=
      ⟨hinv.1.1, hinv.1.2.1, hinv.1.2.2.1, hrec'⟩
    obtain ⟨hadj, -, -⟩ := collapseEdge_adjAfter (m := { s.mesh with edgeHeap := hp })
      hinv.1.1 (hinv.1.2.1 e.v1) hne hm2
    exact ⟨(collapseEdge_meshInv hpq hinv1 hne a0 a1 hm2).1,
      collapseEdge_facesLinked (m := { s.mesh with edgeHeap := hp }) hinv.1.2.2.1 hinv.2 hne
        hadj hm2⟩

end

section
variable {F : Type} [Scalar F]

theorem seedHeap_ok {pq : PQ F} {m : Mesh F} :
    ∀ (es : List (Edge F)) (h : List (Edge F)),
      (∀ e ∈ es, InRange m.vertices.length e.v0 ∧ InRange m.vertices.length e.v1) →
      ∃ h', seedHeap pq m es h = Except.ok h' := by
  intro es
  induction es with
  | nil => intro h _; exact ⟨h, rfl⟩
  | cons e es ih =>
    intro h hes
    obtain ⟨r0, r1⟩ := hes e (List.mem_cons_self _ _)
    obtain ⟨res, hres⟩ := computeEdgeCollapse_ok (m := m) r0 r1
    obtain ⟨h', e1⟩ := ih (pq.push h ⟨e.v0, e.v1, res.cost, res.vBar⟩)
      (fun x hx => hes x (List.mem_cons_of_mem _ hx))
    exact ⟨h', by rw [seedHeap]; simp only [hres, bind_ok]; exact e1⟩

/-- `simplifyMesh` reaches its loop on every mesh that satisfies invariant 1
    and whose edge list joins existing vertices; faces, positions and removed
    flags are then as on entry. -/
theorem simplifyInit_frame {pq : PQ F} {m : Mesh F}
    (hv : FacesValid m.vertices m.faces)
    (hedges : ∀ e ∈ m.edges, InRange m.vertices.length e.v0 ∧ InRange m.vertices.length e.v1) :
    ∃ s0, simplifyInit pq m = Except.ok s0 ∧
      s0.activeFaces = countActive m.faces ∧ s0.collapseCount = 0 ∧
      s0.mesh.faces = m.faces ∧
      s0.mesh.vertices.map (fun v => v.position) = m.vertices.map (fun v => v.position) ∧
      s0.mesh.vertices.map (fun v => v.removed) = m.vertices.map (fun v => v.removed) := by
  obtain ⟨m1, e1, n1, p1, q1, f1, d1, -, b1⟩ := computeVertexQuadrics_spec hv
  obtain ⟨h, e2⟩ := @seedHeap_ok F _ pq m1 m1.edges []
    (by intro e he; rw [d1] at he; rw [n1]; exact hedges e he)
  refine ⟨⟨{ m1 with edgeHeap := h }, countActive m1.faces, 0⟩, ?_, by simp [f1], rfl, f1, p1, q1⟩
  unfold simplifyInit
  simp only [e1, e2, bind_ok, pure_eq_ok]

/-! ## The claims -/

/-- C1. For every mesh whose non-removed faces have pairwise distinct corners
    that are existing, non-removed vertices (invariant 1), with edge list and
    adjacency produced by `buildEdges`, and for every target and every lawful
    queue: `simplifyMesh` returns, and whenever it returns no vertex of the
    result is flagged removed and every non-removed face has three pairwise
    distinct corners inside `[0, vertices.size())` of the compacted array. -/
theorem simplifyMesh_output_valid (pq : PQ F) (hpq : pq.Lawful) (m0 m : Mesh F) (t : Int)
    (hv : FacesValid m0.vertices m0.faces) (hb : buildEdges m0 = Except.ok m) :
    (∃ fuel m', simplifyMesh pq fuel m t = Except.ok m') ∧
    ∀ fuel m', simplifyMesh pq fuel m t = Except.ok m' →
      (∀ v ∈ m'.vertices, v.removed = false) ∧
      ∀ f ∈ m'.faces, f.removed = false →
        f.Distinct ∧ InRange m'.vertices.length f.v0 ∧ InRange m'.vertices.length f.v1 ∧
        InRange m'.vertices.length f.v2 := by
  constructor
  · obtain ⟨fuel, s, h1, h2, -, -⟩ := simplifyRun_terminates hpq t hv hb
    obtain ⟨m', h3, -⟩ := reindexVertices_spec (m := s.mesh)
      (fun f hf hr => (h2.2.2.1 f hf hr).2)
    refine ⟨fuel, m', ?_⟩
    unfold simplifyMesh
    simp only [h1, bind_ok, h3]
  · intro fuel m' h
    unfold simplifyMesh at h
    simp only [bind_eq_ok] at h
    obtain ⟨s, h1, h2⟩ := h
    obtain ⟨hinv, -, -⟩ := simplifyRun_meshInv hpq hv hb h1
    exact reindexVertices_output hinv.2.2.1 h2

/-- C2. For every mesh that satisfies invariant 1 with edges and adjacency
    built by `buildEdges`, every target and every lawful queue, the collapse
    loop of `simplifyMesh` terminates: some amount of fuel suffices, more fuel
    gives the same final state, and on exit either the number of non-removed
    faces is at most the target or the queue is empty. -/
theorem simplifyMesh_loop_terminates (pq : PQ F) (hpq : pq.Lawful) (m0 m : Mesh F) (t : Int)
    (hv : FacesValid m0.vertices m0.faces) (hb : buildEdges m0 = Except.ok m) :
    ∃ fuel s, simplifyRun pq fuel m t = Except.ok s ∧
      (countActive s.mesh.faces ≤ t ∨ s.mesh.edgeHeap = []) ∧
      ∀ fuel', fuel ≤ fuel' → simplifyRun pq fuel' m t = Except.ok s := by
  obtain ⟨fuel, s, h1, -, -, h4⟩ := simplifyRun_terminates hpq t hv hb
  obtain ⟨-, hact, -⟩ := simplifyRun_meshInv hpq hv hb h1
  refine ⟨fuel, s, h1, by rw [← hact]; exact h4, ?_⟩
  intro fuel' hle
  unfold simplifyRun at h1 ⊢
  simp only [bind_eq_ok] at h1
  obtain ⟨s0, i1, i2⟩ := h1
  simp only [i1, bind_ok]
  exact collapseLoop_fuel_mono fuel s0 s i2 fuel' hle

/-- C3 (amended). When `collapseEdge` runs on a mesh that satisfies invariant 1
    and an edge with `vA ≠ vB`, the number of non-removed faces drops by
    exactly the number of non-removed faces that have both `vA` and `vB` as
    corners: it never grows, and it is strictly smaller if and only if some
    non-removed face has both endpoints as corners. -/
theorem collapseEdge_face_count (pq : PQ F) (m m' : Mesh F) (e : Edge F)
    (hv : FacesValid m.vertices m.faces) (hne : e.v0 ≠ e.v1)
    (h : collapseEdge pq m e = Except.ok m') :
    countActive m'.faces + sharedCount m.faces e.v0 e.v1 = countActive m.faces ∧
    countActive m'.faces ≤ countActive m.faces ∧
    (countActive m'.faces < countActive m.faces ↔
      ∃ f ∈ m.faces, f.removed = false ∧ f.hasCorner e.v0 ∧ f.hasCorner e.v1) := by
  obtain ⟨-, hfs, -, -, -⟩ := collapseEdge_eq_ok h
  have key := countActive_relabel hne m.faces (fun f hf hr => (hv f hf hr).1)
  rw [← hfs] at key
  have hnn := sharedCount_nonneg m.faces e.v0 e.v1
  refine ⟨key, by omega, ?_⟩
  rw [← sharedCount_pos_iff]
  constructor <;> intro hh <;> omega

/-- C5. For every mesh that satisfies invariant 1 and whose edge list joins
    existing vertices, and every target not below the number of non-removed
    faces, `simplifyMesh` returns after zero collapses; the removed flags of
    all faces and the positions of the non-removed vertices are as before,
    removed faces are untouched and the corners of the other faces are sent
    through the re-index map, which is the identity when no vertex is
    removed: then positions and faces are exactly those of the input. -/
theorem simplifyMesh_idempotent_at_target (pq : PQ F) (fuel : Nat) (m : Mesh F) (t : Int)
    (hv : FacesValid m.vertices m.faces)
    (hedges : ∀ e ∈ m.edges, InRange m.vertices.length e.v0 ∧ InRange m.vertices.length e.v1)
    (ht : countActive m.faces ≤ t) :
    ∃ s m', simplifyRun pq fuel m t = Except.ok s ∧ s.collapseCount = 0 ∧
      simplifyMesh pq fuel m t = Except.ok m' ∧
      m'.faces.map (fun f => f.removed) = m.faces.map (fun f => f.removed) ∧
      m'.vertices.map (fun v => v.position) =
        (m.vertices.filter (fun v => !v.removed)).map (fun v => v.position) ∧
      List.Forall₂ (fun f f' => (f.removed = true → f' = f) ∧
        (f.removed = false → f'.v0 = newIndex m.vertices f.v0 ∧
          f'.v1 = newIndex m.vertices f.v1 ∧ f'.v2 = newIndex m.vertices f.v2))
        m.faces m'.faces ∧
      ((∀ v ∈ m.vertices, v.removed = false) →
        m'.vertices.map (fun v => v.position) = m.vertices.map (fun v => v.position) ∧
        m'.faces = m.faces) := by
  obtain ⟨s0, i1, i2, i3, i4, i5, i6⟩ := @simplifyInit_frame F _ pq _ hv hedges
  have hstep : loopStep pq t s0 = Except.ok none := by
    unfold loopStep
    rw [if_neg (by rw [i2]; intro hc; omega)]
    rfl
  have hloop : collapseLoop pq t fuel s0 = Except.ok s0 := by
    cases fuel <;> (rw [collapseLoop]; simp only [hstep, bind_ok]; rfl)
  have hrun : simplifyRun pq fuel m t = Except.ok s0 := by
    unfold simplifyRun
    simp only [i1, bind_ok, hloop]
  have hv0 : FacesValid s0.mesh.vertices s0.mesh.faces := by
    rw [i4]; exact facesValid_congr i6 hv
  obtain ⟨m', r1, r2, -, -, -, r3⟩ := reindexVertices_spec (m := s0.mesh)
    (fun f hf hr => (hv0 f hf hr).2)
  have hfaces : List.Forall₂ (fun f f' => f'.removed = f.removed ∧ (f.removed = true → f' = f) ∧
        (f.removed = false → f'.v0 = newIndex m.vertices f.v0 ∧
          f'.v1 = newIndex m.vertices f.v1 ∧ f'.v2 = newIndex m.vertices f.v2))
        m.faces m'.faces := by
    rw [i4] at r3
    refine forall₂_imp_mem r3 ?_
    rintro f f' - - ⟨q1, q2, q3⟩
    refine ⟨q1, q2, fun hr => ?_⟩
    obtain ⟨k0, k1, k2, -⟩ := q3 hr
    rw [newIndex_congr i6] at k0 k1 k2
    exact ⟨k0, k1, k2⟩
  refine ⟨s0, m', hrun, i3, ?_, ?_, ?_, ?_, ?_⟩
  · unfold simplifyMesh
    simp only [hrun, bind_ok, r1]
  · exact forall₂_map_eq (fun f : Face => f.removed)
      (forall₂_imp_mem hfaces (fun f f' _ _ hh => hh.1))
  · rw [r2]; exact filter_alive_map_congr m.vertices s0.mesh.vertices i5 i6
  · exact forall₂_imp_mem hfaces (fun f f' _ _ hh => hh.2)
  · intro hall
    refine ⟨?_, ?_⟩
    · rw [r2, filter_alive_map_congr m.vertices s0.mesh.vertices i5 i6,
        filter_alive_eq_self hall]
    · refine forall₂_eq_of (forall₂_imp_mem hfaces ?_)
      rintro f f' hf - ⟨q1, q2, q3⟩
      cases hfr : f.removed with
      | true => exact q2 hfr
      | false =>
        obtain ⟨k0, k1, k2⟩ := q3 hfr
        obtain ⟨-, l0, l1, l2⟩ := hv f hf hfr
        rw [newIndex_eq_self hall (aliveAt_inRange l0)] at k0
        rw [newIndex_eq_self hall (aliveAt_inRange l1)] at k1
        rw [newIndex_eq_self hall (aliveAt_inRange l2)] at k2
        rw [hfr] at q1
        cases f
        cases f'
        simp_all

/-- C6. For every mesh in which each non-removed face references only
    existing, non-removed vertices, `reindexVertices` returns; the new vertex
    array is the subsequence of the non-removed vertices in their original
    order; removed faces are untouched; each corner `i` of a non-removed face
    becomes `newIndex i`, and the new array holds at `newIndex i` the vertex
    the old array held at `i`; `newIndex` is strictly increasing, hence
    injective, on the surviving vertices. -/
theorem reindexVertices_correct (m : Mesh F)
    (hlive : ∀ f ∈ m.faces, f.removed = false → f.Live m.vertices) :
    ∃ m', reindexVertices m = Except.ok m' ∧
      m'.vertices = m.vertices.filter (fun v => !v.removed) ∧
      List.Forall₂ (fun f f' => f'.removed = f.removed ∧ (f.removed = true → f' = f) ∧
        (f.removed = false →
          f'.v0 = newIndex m.vertices f.v0 ∧ f'.v1 = newIndex m.vertices f.v1 ∧
          f'.v2 = newIndex m.vertices f.v2 ∧
          getAt m'.vertices f'.v0 = getAt m.vertices f.v0 ∧
          getAt m'.vertices f'.v1 = getAt m.vertices f.v1 ∧
          getAt m'.vertices f'.v2 = getAt m.vertices f.v2)) m.faces m'.faces ∧
      (∀ i j : Int, aliveAt m.vertices i = true → aliveAt m.vertices j = true → i < j →
        newIndex m.vertices i < newIndex m.vertices j) ∧
      (∀ i j : Int, aliveAt m.vertices i = true → aliveAt m.vertices j = true → i ≠ j →
        newIndex m.vertices i ≠ newIndex m.vertices j) := by
  obtain ⟨m', r1, r2, -, -, -, r3⟩ := reindexVertices_spec hlive
  exact ⟨m', r1, r2, r3, fun i j hi hj hij => newIndex_lt hi (aliveAt_inRange hj).1 hij,
    fun i j hi hj hij => newIndex_ne hi hj hij⟩

/-- C8. If every non-removed face has three pairwise distinct, non-removed
    corners and the edge has `vA ≠ vB` with both endpoints non-removed, then
    after `collapseEdge` every non-removed face again has three pairwise
    distinct, non-removed corners and none has the removed vertex `vB` as a
    corner; `collapseEdge` does return when the adjacency structure has one
    set of vertex indices per vertex and `vB` is not its own neighbor. -/
theorem collapseEdge_preserves_face_validity (pq : PQ F) (hpq : pq.Lawful) (m : Mesh F)
    (e : Edge F) (hv : FacesValid m.vertices m.faces) (hne : e.v0 ≠ e.v1)
    (hA : aliveAt m.vertices e.v0 = true) (hB : aliveAt m.vertices e.v1 = true) :
    (∀ m', collapseEdge pq m e = Except.ok m' →
      FacesValid m'.vertices m'.faces ∧
      (∀ f ∈ m'.faces, f.removed = false → ¬ f.hasCorner e.v1) ∧
      removedAt m'.vertices e.v1 = true) ∧
    (AdjShape m.vertices.length m.vertexNeighbors →
      adjacent m.vertexNeighbors e.v1 e.v1 = false →
      ∃ m', collapseEdge pq m e = Except.ok m') := by
  constructor
  · intro m' h
    obtain ⟨h1, h2⟩ := collapseEdge_facesValid hv hne hA h
    refine ⟨h1, h2, ?_⟩
    obtain ⟨hvs, -⟩ := collapseEdge_eq_ok h
    rw [collapseVertices_removed hvs]
    simp
  · intro hshape hirr
    exact collapseEdge_ok hpq hshape hne (aliveAt_inRange hA) (aliveAt_inRange hB) hirr

/-- C9. If there is one neighbor set per vertex, adjacency is symmetric, no
    `N(a)` contains `a` and every removed vertex has an empty neighbor set,
    then `collapseEdge` on an edge with `vA ≠ vB`, both non-removed, returns a
    mesh whose adjacency is still symmetric and irreflexive, in which `N(vB)`
    is empty, `vB` occurs in no neighbor set and every removed vertex still has
    an empty neighbor set. -/
theorem collapseEdge_preserves_adjacency (pq : PQ F) (hpq : pq.Lawful) (m : Mesh F)
    (e : Edge F) (hlen : m.vertexNeighbors.length = m.vertices.length)
    (hsym : AdjSymm m.vertexNeighbors) (hirr : AdjIrrefl m.vertexNeighbors)
    (hiso : RemovedIsolated m.vertices m.vertexNeighbors) (hne : e.v0 ≠ e.v1)
    (hA : aliveAt m.vertices e.v0 = true) (hB : aliveAt m.vertices e.v1 = true) :
    ∃ m', collapseEdge pq m e = Except.ok m' ∧
      m'.vertexNeighbors.length = m'.vertices.length ∧
      AdjSymm m'.vertexNeighbors ∧ AdjIrrefl m'.vertexNeighbors ∧
      getAt m'.vertexNeighbors e.v1 = Except.ok [] ∧
      (∀ a : Int, adjacent m'.vertexNeighbors a e.v1 = false) ∧
      RemovedIsolated m'.vertices m'.vertexNeighbors := by
  have hshape : AdjShape m.vertices.length m.vertexNeighbors := adjShape_of_symm hlen hsym
  obtain ⟨m', h⟩ := collapseEdge_ok hpq hshape hne (aliveAt_inRange hA) (aliveAt_inRange hB)
    (hirr e.v1)
  obtain ⟨hadj, hnlen, hvlen⟩ := collapseEdge_adjAfter hshape (hirr e.v1) hne h
  refine ⟨m', h, by rw [hnlen, hvlen, hlen], adjAfter_symm hadj hne hsym hirr,
    adjAfter_irrefl hadj hirr, ?_, adjAfter_vB_absent hadj hne hsym,
    collapseEdge_removedIsolated hiso hsym hne hA hadj h⟩
  obtain ⟨s, hs⟩ := getAt_of_inRange (l := m'.vertexNeighbors) (i := e.v1)
    (by rw [hnlen, hlen]; exact aliveAt_inRange hB)
  have hempty : s = [] := by
    cases s with
    | nil => rfl
    | cons x xs =>
      have h1 : adjacent m'.vertexNeighbors e.v1 x = true :=
        adjacent_iff.mpr ⟨x :: xs, hs, List.mem_cons_self _ _⟩
      rw [adjAfter_vB_empty hadj hne x] at h1
      cases h1
  rw [hs, hempty]

/-- C10. If invariant 1 holds, every unordered corner pair `(a, b)` of every
    non-removed face satisfies `b ∈ N(a)`, there is one set of vertex indices
    per vertex and `vB` is not its own neighbor, then `collapseEdge` on a live
    edge with `vA ≠ vB` returns a mesh in which the same holds for every face
    that is still non-removed, the relabelled ones included. -/
theorem collapseEdge_preserves_links (pq : PQ F) (hpq : pq.Lawful) (m : Mesh F) (e : Edge F)
    (hv : FacesValid m.vertices m.faces)
    (hl : FacesLinked m.vertexNeighbors m.faces)
    (hshape : AdjShape m.vertices.length m.vertexNeighbors)
    (hirr : adjacent m.vertexNeighbors e.v1 e.v1 = false) (hne : e.v0 ≠ e.v1)
    (hA : aliveAt m.vertices e.v0 = true) (hB : aliveAt m.vertices e.v1 = true) :
    ∃ m', collapseEdge pq m e = Except.ok m' ∧
      FacesLinked m'.vertexNeighbors m'.faces := by
  obtain ⟨m', h⟩ := collapseEdge_ok hpq hshape hne (aliveAt_inRange hA) (aliveAt_inRange hB) hirr
  obtain ⟨hadj, -, -⟩ := collapseEdge_adjAfter hshape hirr hne h
  exact ⟨m', h, collapseEdge_facesLinked hv hl hne hadj h⟩

end

/-! ## Checking the adjacency invariants on a given structure -/

theorem adjacent_enum {nb : List (List Int)} {a b : Int} (h : adjacent nb a b = true) :
    ∃ p ∈ nb.enum, (p.1 : Int) = a ∧ b ∈ p.2 := by
  obtain ⟨s, hs, hb⟩ := adjacent_iff.mp h
  obtain ⟨h0, h1⟩ := getAt_eq_ok.mp hs
  exact ⟨(a.toNat, s), List.mk_mem_enum_iff_getElem?.mpr h1, by simp [h0], hb⟩

theorem adjSymm_of_forall {nb : List (List Int)}
    (h : ∀ p ∈ nb.enum, ∀ b ∈ p.2, adjacent nb b (p.1 : Int) = true) : AdjSymm nb := by
  intro a b hab
  obtain ⟨p, hp, hpa, hb⟩ := adjacent_enum hab
  rw [← hpa]
  exact h p hp b hb

theorem adjIrrefl_of_forall {nb : List (List Int)}
    (h : ∀ p ∈ nb.enum, (p.1 : Int) ∉ p.2) : AdjIrrefl nb := by
  intro a
  rw [Bool.eq_false_iff]
  intro hab
  obtain ⟨p, hp, hpa, hb⟩ := adjacent_enum hab
  rw [← hpa] at hb
  exact h p hp hb

theorem removedIsolated_of_forall {F : Type} {vs : List (Vertex F)} {nb : List (List Int)}
    (h : ∀ p ∈ vs.enum, p.2.removed = true → nb.getD p.1 [] = []) : RemovedIsolated vs nb := by
  intro i hi b
  obtain ⟨v, hv, hr⟩ := removedAt_iff.mp hi
  obtain ⟨h0, h1⟩ := getAt_eq_ok.mp hv
  have hz := h (i.toNat, v) (List.mk_mem_enum_iff_getElem?.mpr h1) hr
  rw [adjacent_eq_false_iff]
  intro s hs hb
  obtain ⟨-, h2⟩ := getAt_eq_ok.mp hs
  simp only [List.getD_eq_getElem?_getD, h2, Option.getD_some] at hz
  rw [hz] at hb
  cases hb

theorem adjShape_of_forall {n : Nat} {nb : List (List Int)}
    (h : nb.length = n ∧ ∀ s ∈ nb, ∀ x ∈ s, InRange n x) : AdjShape n nb := h

/-! ## Worked runs -/

theorem buildEdges_triangle : buildEdges triangle = Except.ok triangleBuilt := by decide!

theorem buildEdges_tetra : buildEdges tetra = Except.ok tetraBuilt := by decide!

theorem simplifyInit_triangle :
    simplifyInit (listPQ ℚ) triangleBuilt = Except.ok triangleSeeded := by decide!

theorem loopStep_triangle :
    loopStep (listPQ ℚ) 0 triangleSeeded = Except.ok (some triangleCollapsed) := by decide!

/-- C3, counterexample. `boundaryMesh` is the mesh after the first iteration of
    the loop of `simplifyMesh(0)` on two disjoint triangles.  It satisfies
    invariants 1 to 4, the record `(0, 2)` lies in its queue, joins two
    different non-removed vertices that are neighbors, and `isValidPair`
    accepts it; yet `collapseEdge` leaves the number of non-removed faces at 1. -/
theorem collapse_keeps_face_count_counterexample :
    (buildEdges twoTriangles >>= simplifyInit (listPQ ℚ) >>= loopIter (listPQ ℚ) 0 1).map
        (fun s => s.mesh) = Except.ok boundaryMesh ∧
    FacesValid boundaryMesh.vertices boundaryMesh.faces ∧
    FacesLinked boundaryMesh.vertexNeighbors boundaryMesh.faces ∧
    AdjSymm boundaryMesh.vertexNeighbors ∧ AdjIrrefl boundaryMesh.vertexNeighbors ∧
    RemovedIsolated boundaryMesh.vertices boundaryMesh.vertexNeighbors ∧
    boundaryRecord ∈ boundaryMesh.edgeHeap ∧
    boundaryRecord.v0 ≠ boundaryRecord.v1 ∧
    aliveAt boundaryMesh.vertices boundaryRecord.v0 = true ∧
    aliveAt boundaryMesh.vertices boundaryRecord.v1 = true ∧
    adjacent boundaryMesh.vertexNeighbors boundaryRecord.v0 boundaryRecord.v1 = true ∧
    isValidPair boundaryMesh boundaryRecord.v0 boundaryRecord.v1 boundaryRecord.optimalPos
      = Except.ok true ∧
    countActive boundaryMesh.faces = 1 ∧
    (collapseEdge (listPQ ℚ) boundaryMesh boundaryRecord).map (fun m => countActive m.faces)
      = Except.ok 1 := by
  refine ⟨by decide!, by decide!, by decide!, adjSymm_of_forall (by decide!),
    adjIrrefl_of_forall (by decide!), removedIsolated_of_forall (by decide!), by decide!,
    by decide!, by decide!, by decide!, by decide!, by decide!, by decide!, by decide!⟩

/-- C4, counterexample. On the tetrahedron `tetra` with target 1 the six seed
    records have pairwise different costs, `(0, 1)` is the cheapest and is
    collapsed first.  In the state after that iteration the cheapest record,
    again strictly, is the seed record `(0, 3)` with the stored position
    `(1/13, 3/13, 3/13)`; the loop hands it to `collapseEdge` (the collapse
    count goes to 2), although `computeEdgeCollapse(0, 3)` returns
    `(12/145, 27/145, 54/145)` in that state. -/
theorem stale_position_collapsed_counterexample :
    buildEdges tetra = Except.ok tetraBuilt ∧
    (simplifyInit (listPQ ℚ) tetraBuilt).map
        (fun s => s.mesh.edgeHeap.map (fun e => (e.v0, e.v1, e.cost)))
      = Except.ok [(0, 3, 6 / 13), (2, 3, 24 / 37), (0, 2, 72 / 151), (1, 2, 12 / 23),
          (0, 1, 24 / 61), (1, 3, 72 / 143)] ∧
    tetraAfterFirst.map
        (fun s => (s.collapseCount, s.mesh.edgeHeap.map (fun e => (e.v0, e.v1, e.cost))))
      = Except.ok (1, [(0, 3, 6 / 13), (2, 3, 24 / 37), (0, 2, 72 / 151), (1, 2, 12 / 23),
          (1, 3, 72 / 143), (0, 2, 72 / 95), (0, 3, 108 / 145)]) ∧
    tetraAfterFirst.map (fun s => ((listPQ ℚ).pop s.mesh.edgeHeap).map (fun p => p.1))
      = Except.ok (some ⟨0, 3, 6 / 13, ⟨1 / 13, 3 / 13, 3 / 13⟩⟩) ∧
    (tetraAfterFirst >>= loopStep (listPQ ℚ) 1).map (Option.map (fun s => s.collapseCount))
      = Except.ok (some 2) ∧
    (tetraAfterFirst >>= fun s => computeEdgeCollapse s.mesh 0 3).map (fun r => r.vBar)
      = Except.ok ⟨12 / 145, 27 / 145, 54 / 145⟩ := by
  refine ⟨by decide!, by decide!, by decide!, by decide!, by decide!, by decide!⟩

/-- C7, counterexample. `simplifyMesh(2)` on the tetrahedron `tetra` collapses
    the cheapest record `(0, 1)` and stops with two faces.  The result has
    three vertices and the non-removed faces `(0, 2, 1)` and `(1, 2, 0)`, but
    `vertexNeighbors` still has the four sets `{2,3}, {}, {0,3}, {0,2}` of the
    old numbering: `N(0)` does not contain the corner 1. -/
theorem adjacency_after_reindex_counterexample :
    buildEdges tetra = Except.ok tetraBuilt ∧
    (simplifyInit (listPQ ℚ) tetraBuilt).map
        (fun s => s.mesh.edgeHeap.map (fun e => (e.v0, e.v1, e.cost)))
      = Except.ok [(0, 3, 6 / 13), (2, 3, 24 / 37), (0, 2, 72 / 151), (1, 2, 12 / 23),
          (0, 1, 24 / 61), (1, 3, 72 / 143)] ∧
    (simplifyRun (listPQ ℚ) 2 tetraBuilt 2).map (fun s => s.collapseCount) = Except.ok 1 ∧
    (simplifyMesh (listPQ ℚ) 2 tetraBuilt 2).map
        (fun m => (m.vertices.length, m.faces, m.vertexNeighbors))
      = Except.ok (3, [⟨0, 2, 1, false⟩, ⟨0, 2, 0, true⟩, ⟨0, 0, 3, true⟩, ⟨1, 2, 0, false⟩],
          [[2, 3], [], [0, 3], [0, 2]]) ∧
    (simplifyMesh (listPQ ℚ) 2 tetraBuilt 2).map
        (fun m => decide (FacesLinked m.vertexNeighbors m.faces)) = Except.ok false ∧
    (simplifyMesh (listPQ ℚ) 2 tetraBuilt 2).map
        (fun m => adjacent m.vertexNeighbors 0 1) = Except.ok false := by
  refine ⟨by decide!, by decide!, by decide!, by decide!, by decide!, by decide!⟩

/-! ## Instances of the claims on concrete meshes -/

theorem collapseEdge_triangle :
    collapseEdge (listPQ ℚ) triangleBuilt triangleRecord = Except.ok triangleAfterCollapse := by
  decide!

/-- C1 at the tetrahedron with target 2. -/
theorem simplifyMesh_output_valid_witness :
    (listPQ ℚ).Lawful ∧ FacesValid tetra.vertices tetra.faces ∧
    buildEdges tetra = Except.ok tetraBuilt ∧
    ((∃ fuel m', simplifyMesh (listPQ ℚ) fuel tetraBuilt 2 = Except.ok m') ∧
      ∀ fuel m', simplifyMesh (listPQ ℚ) fuel tetraBuilt 2 = Except.ok m' →
        (∀ v ∈ m'.vertices, v.removed = false) ∧
        ∀ f ∈ m'.faces, f.removed = false →
          f.Distinct ∧ InRange m'.vertices.length f.v0 ∧ InRange m'.vertices.length f.v1 ∧
          InRange m'.vertices.length f.v2) :=
  ⟨listPQ_lawful, by decide, buildEdges_tetra,
    simplifyMesh_output_valid (listPQ ℚ) listPQ_lawful tetra tetraBuilt 2 (by decide)
      buildEdges_tetra⟩

/-- C2 at the tetrahedron with target 1. -/
theorem simplifyMesh_loop_terminates_witness :
    (listPQ ℚ).Lawful ∧ FacesValid tetra.vertices tetra.faces ∧
    buildEdges tetra = Except.ok tetraBuilt ∧
    ∃ fuel s, simplifyRun (listPQ ℚ) fuel tetraBuilt 1 = Except.ok s ∧
      (countActive s.mesh.faces ≤ 1 ∨ s.mesh.edgeHeap = []) ∧
      ∀ fuel', fuel ≤ fuel' → simplifyRun (listPQ ℚ) fuel' tetraBuilt 1 = Except.ok s :=
  ⟨listPQ_lawful, by decide, buildEdges_tetra,
    simplifyMesh_loop_terminates (listPQ ℚ) listPQ_lawful tetra tetraBuilt 1 (by decide)
      buildEdges_tetra⟩

/-- C3 (amended) at the collapse of the edge `(0, 1)` of the single triangle:
    the one face that has both endpoints is removed. -/
theorem collapseEdge_face_count_witness :
    FacesValid triangleBuilt.vertices triangleBuilt.faces ∧
    triangleRecord.v0 ≠ triangleRecord.v1 ∧
    collapseEdge (listPQ ℚ) triangleBuilt triangleRecord = Except.ok triangleAfterCollapse ∧
    (countActive triangleAfterCollapse.faces
        + sharedCount triangleBuilt.faces triangleRecord.v0 triangleRecord.v1
        = countActive triangleBuilt.faces ∧
      countActive triangleAfterCollapse.faces ≤ countActive triangleBuilt.faces ∧
      (countActive triangleAfterCollapse.faces < countActive triangleBuilt.faces ↔
        ∃ f ∈ triangleBuilt.faces, f.removed = false ∧ f.hasCorner triangleRecord.v0 ∧
          f.hasCorner triangleRecord.v1)) :=
  ⟨by decide, by decide, collapseEdge_triangle,
    collapseEdge_face_count (listPQ ℚ) triangleBuilt triangleAfterCollapse triangleRecord
      (by decide) (by decide) collapseEdge_triangle⟩

/-- C5 at the single triangle with target 1 (scenario S1): no collapse, and
    the output has the three positions and the one face of the input. -/
theorem simplifyMesh_idempotent_at_target_witness :
    FacesValid triangleBuilt.vertices triangleBuilt.faces ∧
    (∀ e ∈ triangleBuilt.edges, InRange triangleBuilt.vertices.length e.v0 ∧
      InRange triangleBuilt.vertices.length e.v1) ∧
    countActive triangleBuilt.faces ≤ 1 ∧
    (simplifyMesh (listPQ ℚ) 0 triangleBuilt 1).map
        (fun m => (m.vertices.map (fun v => v.position), m.faces))
      = Except.ok ([⟨0, 0, 0⟩, ⟨1, 0, 0⟩, ⟨0, 1, 0⟩], [⟨0, 1, 2, false⟩]) ∧
    ∃ s m', simplifyRun (listPQ ℚ) 0 triangleBuilt 1 = Except.ok s ∧ s.collapseCount = 0 ∧
      simplifyMesh (listPQ ℚ) 0 triangleBuilt 1 = Except.ok m' ∧
      m'.faces.map (fun f => f.removed) = triangleBuilt.faces.map (fun f => f.removed) ∧
      m'.vertices.map (fun v => v.position) =
        (triangleBuilt.vertices.filter (fun v => !v.removed)).map (fun v => v.position) ∧
      List.Forall₂ (fun f f' => (f.removed = true → f' = f) ∧
        (f.removed = false → f'.v0 = newIndex triangleBuilt.vertices f.v0 ∧
          f'.v1 = newIndex triangleBuilt.vertices f.v1 ∧
          f'.v2 = newIndex triangleBuilt.vertices f.v2))
        triangleBuilt.faces m'.faces ∧
      ((∀ v ∈ triangleBuilt.vertices, v.removed = false) →
        m'.vertices.map (fun v => v.position)
          = triangleBuilt.vertices.map (fun v => v.position) ∧
        m'.faces = triangleBuilt.faces) :=
  ⟨by decide, by decide, by decide, by decide!,
    simplifyMesh_idempotent_at_target (listPQ ℚ) 0 triangleBuilt 1 (by decide) (by decide)
      (by decide)⟩

/-- C6 at `boundaryMesh`, where vertex 1 is removed: the face `(3, 4, 5)`
    becomes `(2, 3, 4)`. -/
theorem reindexVertices_correct_witness :
    (∀ f ∈ boundaryMesh.faces, f.removed = false → f.Live boundaryMesh.vertices) ∧
    (reindexVertices boundaryMesh).map (fun m => (m.vertices.length, m.faces))
      = Except.ok (5, [⟨0, 0, 2, true⟩, ⟨2, 3, 4, false⟩]) ∧
    ∃ m', reindexVertices boundaryMesh = Except.ok m' ∧
      m'.vertices = boundaryMesh.vertices.filter (fun v => !v.removed) ∧
      List.Forall₂ (fun f f' => f'.removed = f.removed ∧ (f.removed = true → f' = f) ∧
        (f.removed = false →
          f'.v0 = newIndex boundaryMesh.vertices f.v0 ∧
          f'.v1 = newIndex boundaryMesh.vertices f.v1 ∧
          f'.v2 = newIndex boundaryMesh.vertices f.v2 ∧
          getAt m'.vertices f'.v0 = getAt boundaryMesh.vertices f.v0 ∧
          getAt m'.vertices f'.v1 = getAt boundaryMesh.vertices f.v1 ∧
          getAt m'.vertices f'.v2 = getAt boundaryMesh.vertices f.v2))
        boundaryMesh.faces m'.faces ∧
      (∀ i j : Int, aliveAt boundaryMesh.vertices i = true →
        aliveAt boundaryMesh.vertices j = true → i < j →
        newIndex boundaryMesh.vertices i < newIndex boundaryMesh.vertices j) ∧
      (∀ i j : Int, aliveAt boundaryMesh.vertices i = true →
        aliveAt boundaryMesh.vertices j = true → i ≠ j →
        newIndex boundaryMesh.vertices i ≠ newIndex boundaryMesh.vertices j) :=
  ⟨by decide, by decide!, reindexVertices_correct boundaryMesh (by decide)⟩

/-- C8 at the collapse of the edge `(0, 1)` of the tetrahedron: the faces
    `(0, 3, 2)` and `(2, 3, 1)` survive, the second relabelled to `(2, 3, 0)`;
    the faces `(0, 2, 1)` and `(0, 1, 3)` are flagged removed. -/
theorem collapseEdge_preserves_face_validity_witness :
    (listPQ ℚ).Lawful ∧ FacesValid tetraBuilt.vertices tetraBuilt.faces ∧
    tetraRecord.v0 ≠ tetraRecord.v1 ∧
    aliveAt tetraBuilt.vertices tetraRecord.v0 = true ∧
    aliveAt tetraBuilt.vertices tetraRecord.v1 = true ∧
    (collapseEdge (listPQ ℚ) tetraBuilt tetraRecord).map
        (fun m => (m.faces, m.vertices.map (fun v => v.removed)))
      = Except.ok ([⟨0, 3, 2, false⟩, ⟨0, 2, 0, true⟩, ⟨0, 0, 3, true⟩, ⟨2, 3, 0, false⟩],
          [false, true, false, false]) ∧
    ((∀ m', collapseEdge (listPQ ℚ) tetraBuilt tetraRecord = Except.ok m' →
        FacesValid m'.vertices m'.faces ∧
        (∀ f ∈ m'.faces, f.removed = false → ¬ f.hasCorner tetraRecord.v1) ∧
        removedAt m'.vertices tetraRecord.v1 = true) ∧
      (AdjShape tetraBuilt.vertices.length tetraBuilt.vertexNeighbors →
        adjacent tetraBuilt.vertexNeighbors tetraRecord.v1 tetraRecord.v1 = false →
        ∃ m', collapseEdge (listPQ ℚ) tetraBuilt tetraRecord = Except.ok m')) :=
  ⟨listPQ_lawful, by decide, by decide, by decide, by decide, by decide!,
    collapseEdge_preserves_face_validity (listPQ ℚ) listPQ_lawful tetraBuilt tetraRecord
      (by decide) (by decide) (by decide) (by decide)⟩

/-- C9 at the collapse of the edge `(0, 1)` of the tetrahedron. -/
theorem collapseEdge_preserves_adjacency_witness :
    (listPQ ℚ).Lawful ∧ tetraBuilt.vertexNeighbors.length = tetraBuilt.vertices.length ∧
    AdjSymm tetraBuilt.vertexNeighbors ∧ AdjIrrefl tetraBuilt.vertexNeighbors ∧
    RemovedIsolated tetraBuilt.vertices tetraBuilt.vertexNeighbors ∧
    tetraRecord.v0 ≠ tetraRecord.v1 ∧
    aliveAt tetraBuilt.vertices tetraRecord.v0 = true ∧
    aliveAt tetraBuilt.vertices tetraRecord.v1 = true ∧
    ∃ m', collapseEdge (listPQ ℚ) tetraBuilt tetraRecord = Except.ok m' ∧
      m'.vertexNeighbors.length = m'.vertices.length ∧
      AdjSymm m'.vertexNeighbors ∧ AdjIrrefl m'.vertexNeighbors ∧
      getAt m'.vertexNeighbors tetraRecord.v1 = Except.ok [] ∧
      (∀ a : Int, adjacent m'.vertexNeighbors a tetraRecord.v1 = false) ∧
      RemovedIsolated m'.vertices m'.vertexNeighbors :=
  ⟨listPQ_lawful, by decide, adjSymm_of_forall (by decide), adjIrrefl_of_forall (by decide),
    removedIsolated_of_forall (by decide), by decide, by decide, by decide,
    collapseEdge_preserves_adjacency (listPQ ℚ) listPQ_lawful tetraBuilt tetraRecord
      (by decide) (adjSymm_of_forall (by decide)) (adjIrrefl_of_forall (by decide))
      (removedIsolated_of_forall (by decide)) (by decide) (by decide) (by decide)⟩

/-- C10 at the collapse of the edge `(0, 1)` of the tetrahedron. -/
theorem collapseEdge_preserves_links_witness :
    (listPQ ℚ).Lawful ∧ FacesValid tetraBuilt.vertices tetraBuilt.faces ∧
    FacesLinked tetraBuilt.vertexNeighbors tetraBuilt.faces ∧
    AdjShape tetraBuilt.vertices.length tetraBuilt.vertexNeighbors ∧
    adjacent tetraBuilt.vertexNeighbors tetraRecord.v1 tetraRecord.v1 = false ∧
    tetraRecord.v0 ≠ tetraRecord.v1 ∧
    aliveAt tetraBuilt.vertices tetraRecord.v0 = true ∧
    aliveAt tetraBuilt.vertices tetraRecord.v1 = true ∧
    ∃ m', collapseEdge (listPQ ℚ) tetraBuilt tetraRecord = Except.ok m' ∧
      FacesLinked m'.vertexNeighbors m'.faces :=
  ⟨listPQ_lawful, by decide, by decide, adjShape_of_forall (by decide), by decide, by decide,
    by decide, by decide,
    collapseEdge_preserves_links (listPQ ℚ) listPQ_lawful tetraBuilt tetraRecord (by decide)
      (by decide) (adjShape_of_forall (by decide)) (by decide) (by decide) (by decide)
      (by decide)⟩

/-! ## Where the records of the queue come from -/

section
variable {F : Type} [Scalar F]

/-- `computeEdgeCollapse` reads nothing of the mesh but the vertex array. -/
theorem computeEdgeCollapse_congr {m m' : Mesh F} (h : m.vertices = m'.vertices)
    (v0 v1 : Int) : computeEdgeCollapse m v0 v1 = computeEdgeCollapse m' v0 v1 := by
  unfold computeEdgeCollapse
  rw [h]

/-- Every record of the queue at the entry of the loop of `simplifyMesh` is
    the result of `computeEdgeCollapse` on the mesh of that state, which
    carries the quadrics of `computeVertexQuadrics`. -/
theorem simplifyInit_fresh {pq : PQ F} (hpq : pq.Lawful) {m : Mesh F} {s0 : LoopState F}
    (h : simplifyInit pq m = Except.ok s0) :
    (∃ m1, computeVertexQuadrics m = Except.ok m1 ∧ s0.mesh.vertices = m1.vertices) ∧
    ∀ r ∈ s0.mesh.edgeHeap, ∃ res, computeEdgeCollapse s0.mesh r.v0 r.v1 = Except.ok res ∧
      r.optimalPos = res.vBar ∧ r.cost = res.cost := by
  simp only [simplifyInit, bind_eq_ok, pure_eq_ok, Except.ok.injEq] at h
  obtain ⟨m1, hm1, hq, hhq, rfl⟩ := h
  refine ⟨⟨m1, hm1, rfl⟩, fun r hr => ?_⟩
  rcases seedHeap_fresh hpq m1.edges [] hq hhq r hr with h1 | h1
  · cases h1
  · exact h1

/-- Every record of the queue after `collapseEdge` was in the queue before or
    is the result of `computeEdgeCollapse` on the mesh after the collapse. -/
theorem collapseEdge_fresh {pq : PQ F} (hpq : pq.Lawful) {m m' : Mesh F} {e : Edge F}
    (h : collapseEdge pq m e = Except.ok m') :
    ∀ r ∈ m'.edgeHeap, r ∈ m.edgeHeap ∨
      ∃ res, computeEdgeCollapse m' r.v0 r.v1 = Except.ok res ∧
        r.optimalPos = res.vBar ∧ r.cost = res.cost := by
  obtain ⟨-, -, -, -, nA, -, hre⟩ := collapseEdge_eq_ok h
  intro r hr
  rcases reseed_fresh hpq nA m.edgeHeap m'.edgeHeap hre r hr with h1 | ⟨res, h1, h2⟩
  · exact Or.inl h1
  · refine Or.inr ⟨res, ?_, h2⟩
    rw [← h1]
    exact computeEdgeCollapse_congr rfl _ _

/-- An iteration of the loop either discards the popped record or hands it to
    `collapseEdge` and counts a collapse. -/
theorem loopStep_some {pq : PQ F} {t : Int} {s s' : LoopState F}
    (h : loopStep pq t s = Except.ok (some s')) :
    ∃ e hp, pq.pop s.mesh.edgeHeap = some (e, hp) ∧
      (s' = { s with mesh := { s.mesh with edgeHeap := hp } } ∨
       (collapseEdge pq { s.mesh with edgeHeap := hp } e = Except.ok s'.mesh ∧
        s'.collapseCount = s.collapseCount + 1)) := by
  unfold loopStep at h
  by_cases hcond : s.activeFaces > t ∧ s.mesh.edgeHeap.isEmpty = false
  · rw [if_pos hcond] at h
    cases hpop : pq.pop s.mesh.edgeHeap with
    | none => simp [hpop] at h
    | some p =>
      obtain ⟨e, hp⟩ := p
      simp only [hpop] at h
      cases hacc : accepts { s.mesh with edgeHeap := hp } e with
      | error er => simp [hacc, bind_error] at h
      | ok b =>
        simp only [hacc, bind_ok] at h
        cases b with
        | false =>
          simp only [Bool.false_eq_true, if_false, pure_eq_ok, Except.ok.injEq,
            Option.some.injEq] at h
          exact ⟨e, hp, rfl, Or.inl h.symm⟩
        | true =>
          simp only [if_true] at h
          cases hce : collapseEdge pq { s.mesh with edgeHeap := hp } e with
          | error er => simp [hce, bind_error] at h
          | ok m2 =>
            simp only [hce, bind_ok, pure_eq_ok, Except.ok.injEq, Option.some.injEq] at h
            subst h
            exact ⟨e, hp, rfl, Or.inr ⟨hce, rfl⟩⟩
  · rw [if_neg hcond] at h
    simp [pure_eq_ok] at h

/-- The state after `k + 1` iterations, from the state after `k`: the loop
    had exited, or one more iteration was executed. -/
theorem loopIter_succ_ok {pq : PQ F} {t : Int} :
    ∀ (k : Nat) (s0 s : LoopState F), loopIter pq t (k + 1) s0 = Except.ok s →
      ∃ sk, loopIter pq t k s0 = Except.ok sk ∧
        ((loopStep pq t sk = Except.ok none ∧ s = sk) ∨
          loopStep pq t sk = Except.ok (some s)) := by
  intro k
  induction k with
  | zero =>
    intro s0 s h
    rw [loopIter, bind_eq_ok] at h
    obtain ⟨r, hr, h⟩ := h
    refine ⟨s0, rfl, ?_⟩
    cases r with
    | none =>
      have h' : s0 = s := Except.ok.inj h
      exact Or.inl ⟨hr, h'.symm⟩
    | some s1 =>
      have h' : s1 = s := Except.ok.inj h
      rw [← h']
      exact Or.inr hr
  | succ k ih =>
    intro s0 s h
    rw [loopIter, bind_eq_ok] at h
    obtain ⟨r, hr, h⟩ := h
    cases r with
    | none =>
      have h' : s0 = s := Except.ok.inj h
      refine ⟨s0, ?_, Or.inl ⟨hr, h'.symm⟩⟩
      rw [loopIter, hr]
      rfl
    | some s1 =>
      have h1 : loopIter pq t (k + 1) s1 = Except.ok s := h
      obtain ⟨sk, hsk, hcase⟩ := ih s1 s h1
      refine ⟨sk, ?_, hcase⟩
      rw [loopIter, hr]
      exact hsk

/-- Every record of the queue in a state of the loop of `simplifyMesh` lay in
    the queue of an earlier state of the same run, the state at the entry of
    the loop or the state right after a collapse, in which it is the result
    of `computeEdgeCollapse` for its endpoints. -/
theorem loopIter_provenance {pq : PQ F} (hpq : pq.Lawful) {t : Int} {m : Mesh F}
    {s0 : LoopState F} (hinit : simplifyInit pq m = Except.ok s0) :
    ∀ (k : Nat) (s : LoopState F), loopIter pq t k s0 = Except.ok s →
      ∀ r ∈ s.mesh.edgeHeap, ∃ j sj, j ≤ k ∧ loopIter pq t j s0 = Except.ok sj ∧
        (j = 0 ∨ ∃ i sp, j = i + 1 ∧ loopIter pq t i s0 = Except.ok sp ∧
          loopStep pq t sp = Except.ok (some sj) ∧
          sj.collapseCount = sp.collapseCount + 1) ∧
        r ∈ sj.mesh.edgeHeap ∧
        ∃ res, computeEdgeCollapse sj.mesh r.v0 r.v1 = Except.ok res ∧
          r.optimalPos = res.vBar ∧ r.cost = res.cost := by
  intro k
  induction k with
  | zero =>
    intro s hs r hr
    rw [loopIter] at hs
    cases hs
    exact ⟨0, s0, le_refl _, rfl, Or.inl rfl, hr, (simplifyInit_fresh hpq hinit).2 r hr⟩
  | succ k ih =>
    intro s hs r hr
    have old : ∀ sk, loopIter pq t k s0 = Except.ok sk → r ∈ sk.mesh.edgeHeap →
        ∃ j sj, j ≤ k + 1 ∧ loopIter pq t j s0 = Except.ok sj ∧
        (j = 0 ∨ ∃ i sp, j = i + 1 ∧ loopIter pq t i s0 = Except.ok sp ∧
          loopStep pq t sp = Except.ok (some sj) ∧
          sj.collapseCount = sp.collapseCount + 1) ∧
        r ∈ sj.mesh.edgeHeap ∧
        ∃ res, computeEdgeCollapse sj.mesh r.v0 r.v1 = Except.ok res ∧
          r.optimalPos = res.vBar ∧ r.cost = res.cost := by
      intro sk hsk hrk
      obtain ⟨j, sj, hj, rest⟩ := ih sk hsk r hrk
      exact ⟨j, sj, Nat.le_succ_of_le hj, rest⟩
    obtain ⟨sk, hsk, hcase | hstep⟩ := loopIter_succ_ok k s0 s hs
    · obtain ⟨-, rfl⟩ := hcase
      exact old _ hsk hr
    · obtain ⟨e, hp, hpop, hd | ⟨hce, hcc⟩⟩ := loopStep_some hstep
      · subst hd
        exact old sk hsk ((hpq.2.2 _ _ _ hpop).mem_iff.mpr (List.mem_cons_of_mem _ hr))
      · rcases collapseEdge_fresh hpq hce r hr with h1 | h1
        · exact old sk hsk ((hpq.2.2 _ _ _ hpop).mem_iff.mpr (List.mem_cons_of_mem _ h1))
        · exact ⟨k + 1, s, le_refl _, hs, Or.inr ⟨k, sk, rfl, hsk, hstep, hcc⟩, hr, h1⟩

/-- C4 (amended). In every run of `simplifyMesh`, a record that the loop
    hands to `collapseEdge` in the state `s` after `k` iterations has, at the
    moment it is popped, two non-removed endpoints and is accepted by
    `isValidPair` with the position stored in the record. That stored
    position (and cost) is the result of `computeEdgeCollapse` for its
    endpoints in the state of the same run in which the record was pushed:
    the state `sj` after `j ≤ k` iterations, which is the state at the entry
    of the loop (seeded from the mesh with the quadrics of
    `computeVertexQuadrics`) or the state right after a collapse (re-seeded
    from the mesh after that collapse), and whose queue holds the record. The
    seeds are fresh in the entry state and the records the collapse adds are
    fresh in the state after it. -/
theorem collapse_record_provenance (pq : PQ F) (hpq : pq.Lawful) (t : Int) (m : Mesh F)
    (s0 : LoopState F) (hinit : simplifyInit pq m = Except.ok s0) (k : Nat)
    (s s' : LoopState F) (hk : loopIter pq t k s0 = Except.ok s)
    (h : loopStep pq t s = Except.ok (some s'))
    (hc : s'.collapseCount = s.collapseCount + 1) :
    (∃ e hp, pq.pop s.mesh.edgeHeap = some (e, hp) ∧
      aliveAt s.mesh.vertices e.v0 = true ∧ aliveAt s.mesh.vertices e.v1 = true ∧
      isValidPair { s.mesh with edgeHeap := hp } e.v0 e.v1 e.optimalPos = Except.ok true ∧
      collapseEdge pq { s.mesh with edgeHeap := hp } e = Except.ok s'.mesh ∧
      ∃ j sj, j ≤ k ∧ loopIter pq t j s0 = Except.ok sj ∧
        (j = 0 ∨ ∃ i sp, j = i + 1 ∧ loopIter pq t i s0 = Except.ok sp ∧
          loopStep pq t sp = Except.ok (some sj) ∧
          sj.collapseCount = sp.collapseCount + 1) ∧
        e ∈ sj.mesh.edgeHeap ∧
        ∃ res, computeEdgeCollapse sj.mesh e.v0 e.v1 = Except.ok res ∧
          e.optimalPos = res.vBar ∧ e.cost = res.cost) ∧
    ((∃ m1, computeVertexQuadrics m = Except.ok m1 ∧ s0.mesh.vertices = m1.vertices) ∧
      ∀ r ∈ s0.mesh.edgeHeap, ∃ res, computeEdgeCollapse s0.mesh r.v0 r.v1 = Except.ok res ∧
        r.optimalPos = res.vBar ∧ r.cost = res.cost) ∧
    (∀ r ∈ s'.mesh.edgeHeap, r ∈ s.mesh.edgeHeap ∨
      ∃ res, computeEdgeCollapse s'.mesh r.v0 r.v1 = Except.ok res ∧
        r.optimalPos = res.vBar ∧ r.cost = res.cost) := by
  obtain ⟨e, hp, h1, h2, h3⟩ := loopStep_collapse h hc
  obtain ⟨a0, a1, a2⟩ := accepts_true h2
  have hmem : e ∈ s.mesh.edgeHeap :=
    (hpq.2.2 _ _ _ h1).mem_iff.mpr (List.mem_cons_self _ _)
  refine ⟨⟨e, hp, h1, a0, a1, a2, h3, loopIter_provenance hpq hinit k s hk e hmem⟩,
    simplifyInit_fresh hpq hinit, fun r hr => ?_⟩
  rcases collapseEdge_fresh hpq h3 r hr with h4 | h4
  · exact Or.inl ((hpq.2.2 _ _ _ h1).mem_iff.mpr (List.mem_cons_of_mem _ h4))
  · exact Or.inr h4

end

/-- C4 (amended) at the second iteration of the loop of `simplifyMesh(1)` on
    the tetrahedron: the record popped and collapsed is the seed `(0, 3)`
    with the stored position `(1/13, 3/13, 3/13)`, which is what
    `computeEdgeCollapse(0, 3)` returns in the state at the entry of the
    loop. -/
theorem collapse_record_provenance_witness :
    (listPQ ℚ).Lawful ∧
    simplifyInit (listPQ ℚ) tetraBuilt = Except.ok tetraSeeded ∧
    loopIter (listPQ ℚ) 1 1 tetraSeeded = Except.ok tetraFirst ∧
    loopStep (listPQ ℚ) 1 tetraFirst = Except.ok (some tetraSecond) ∧
    tetraSecond.collapseCount = tetraFirst.collapseCount + 1 ∧
    ((listPQ ℚ).pop tetraFirst.mesh.edgeHeap).map (fun p => p.1)
      = some ⟨0, 3, 6 / 13, ⟨1 / 13, 3 / 13, 3 / 13⟩⟩ ∧
    (computeEdgeCollapse tetraSeeded.mesh 0 3).map (fun r => (r.vBar, r.cost))
      = Except.ok (⟨1 / 13, 3 / 13, 3 / 13⟩, 6 / 13) ∧
    ((∃ e hp, (listPQ ℚ).pop tetraFirst.mesh.edgeHeap = some (e, hp) ∧
      aliveAt tetraFirst.mesh.vertices e.v0 = true ∧
      aliveAt tetraFirst.mesh.vertices e.v1 = true ∧
      isValidPair { tetraFirst.mesh with edgeHeap := hp } e.v0 e.v1 e.optimalPos
        = Except.ok true ∧
      collapseEdge (listPQ ℚ) { tetraFirst.mesh with edgeHeap := hp } e
        = Except.ok tetraSecond.mesh ∧
      ∃ j sj, j ≤ 1 ∧ loopIter (listPQ ℚ) 1 j tetraSeeded = Except.ok sj ∧
        (j = 0 ∨ ∃ i sp, j = i + 1 ∧ loopIter (listPQ ℚ) 1 i tetraSeeded = Except.ok sp ∧
          loopStep (listPQ ℚ) 1 sp = Except.ok (some sj) ∧
          sj.collapseCount = sp.collapseCount + 1) ∧
        e ∈ sj.mesh.edgeHeap ∧
        ∃ res, computeEdgeCollapse sj.mesh e.v0 e.v1 = Except.ok res ∧
          e.optimalPos = res.vBar ∧ e.cost = res.cost) ∧
    ((∃ m1, computeVertexQuadrics tetraBuilt = Except.ok m1 ∧
        tetraSeeded.mesh.vertices = m1.vertices) ∧
      ∀ r ∈ tetraSeeded.mesh.edgeHeap,
        ∃ res, computeEdgeCollapse tetraSeeded.mesh r.v0 r.v1 = Except.ok res ∧
          r.optimalPos = res.vBar ∧ r.cost = res.cost) ∧
    (∀ r ∈ tetraSecond.mesh.edgeHeap, r ∈ tetraFirst.mesh.edgeHeap ∨
      ∃ res, computeEdgeCollapse tetraSecond.mesh r.v0 r.v1 = Except.ok res ∧
        r.optimalPos = res.vBar ∧ r.cost = res.cost)) :=
  ⟨listPQ_lawful, by decide!, by decide!, by decide!, by decide!, by decide!, by decide!,
    collapse_record_provenance (listPQ ℚ) listPQ_lawful 1 tetraBuilt tetraSeeded (by decide!) 1
      tetraFirst tetraSecond (by decide!) (by decide!) (by decide!)⟩

/-! ## The adjacency sets after the final re-index -/

section
variable {F : Type} [Scalar F]

/-- C7 (amended). `simplifyMesh` returns (every successful run with the same
    result). At the exit of its loop the adjacency set of each corner of every
    non-removed face contains the other two corners. `reindexVertices` then
    renumbers the corners of the non-removed faces through `newIndex` but
    leaves `vertexNeighbors` as it is: every non-removed face `f'` of the
    output is the renumbering of a face `f` at the exit of the loop, and the
    returned adjacency sets link the corners of `f`, that is the old numbers
    of the corners of `f'`. When `newIndex` is the identity on every
    non-removed vertex, in particular when no vertex is flagged removed, the
    adjacency set of each corner of every non-removed face of the output
    contains the other two corners. -/
theorem simplifyMesh_adjacency_old_numbering (pq : PQ F) (hpq : pq.Lawful) (m0 m : Mesh F)
    (t : Int) (hv : FacesValid m0.vertices m0.faces) (hb : buildEdges m0 = Except.ok m) :
    ∃ fuel s m', simplifyRun pq fuel m t = Except.ok s ∧
      reindexVertices s.mesh = Except.ok m' ∧
      simplifyMesh pq fuel m t = Except.ok m' ∧
      (∀ fuel' m'', simplifyMesh pq fuel' m t = Except.ok m'' → m'' = m') ∧
      FacesLinked s.mesh.vertexNeighbors s.mesh.faces ∧
      m'.vertexNeighbors = s.mesh.vertexNeighbors ∧
      List.Forall₂ (fun f f' => f'.removed = f.removed ∧
        (f.removed = false → f'.v0 = newIndex s.mesh.vertices f.v0 ∧
          f'.v1 = newIndex s.mesh.vertices f.v1 ∧ f'.v2 = newIndex s.mesh.vertices f.v2 ∧
          f.Linked m'.vertexNeighbors))
        s.mesh.faces m'.faces ∧
      ((∀ i : Int, aliveAt s.mesh.vertices i = true → newIndex s.mesh.vertices i = i) →
        FacesLinked m'.vertexNeighbors m'.faces) ∧
      ((∀ v ∈ s.mesh.vertices, v.removed = false) →
        FacesLinked m'.vertexNeighbors m'.faces) := by
  obtain ⟨fuel, s, hrun, -, -, -⟩ := simplifyRun_terminates hpq t hv hb
  obtain ⟨m1, b1, bv, bf, -, bshape, birr, blink, brec⟩ := buildEdges_spec hv
  rw [hb] at b1
  cases b1
  have hv' : FacesValid m.vertices m.faces := by rw [bv, bf]; exact hv
  obtain ⟨s0, i1, i2, -, -, i5, i6, -⟩ := simplifyInit_spec hpq hv' bshape birr brec
  have hrun' := hrun
  unfold simplifyRun at hrun'
  simp only [i1, bind_ok] at hrun'
  have hfin := collapseLoop_induct
    (P := fun s => MeshInv s.mesh ∧ FacesLinked s.mesh.vertexNeighbors s.mesh.faces)
    (fun s s' hP hs => loopStep_linked hpq hP hs) fuel s0 s
    ⟨i2, by rw [i5, i6]; exact blink⟩ hrun'
  have hvalid : FacesValid s.mesh.vertices s.mesh.faces := hfin.1.1.2.2.1
  have hlinked : FacesLinked s.mesh.vertexNeighbors s.mesh.faces := hfin.1.2
  obtain ⟨m', r1, -, -, -, r5, r3⟩ := reindexVertices_spec (m := s.mesh)
    (fun f hf hr => (hvalid f hf hr).2)
  have hfaces : List.Forall₂ (fun f f' => f'.removed = f.removed ∧
        (f.removed = false → f'.v0 = newIndex s.mesh.vertices f.v0 ∧
          f'.v1 = newIndex s.mesh.vertices f.v1 ∧ f'.v2 = newIndex s.mesh.vertices f.v2 ∧
          f.Linked m'.vertexNeighbors))
        s.mesh.faces m'.faces := by
    refine forall₂_imp_mem r3 ?_
    rintro f f' hf - ⟨q1, -, q3⟩
    refine ⟨q1, fun hr => ⟨(q3 hr).1, (q3 hr).2.1, (q3 hr).2.2.1, ?_⟩⟩
    rw [r5]
    exact hlinked f hf hr
  have hid : (∀ i : Int, aliveAt s.mesh.vertices i = true → newIndex s.mesh.vertices i = i) →
      FacesLinked m'.vertexNeighbors m'.faces := by
    intro hnew f' hf' hr'
    obtain ⟨f, hf, q1, q2⟩ := forall₂_mem_right hfaces f' hf'
    have hr : f.removed = false := by rw [← q1]; exact hr'
    obtain ⟨e0, e1, e2, hl⟩ := q2 hr
    obtain ⟨-, l0, l1, l2⟩ := hvalid f hf hr
    rw [hnew _ l0] at e0
    rw [hnew _ l1] at e1
    rw [hnew _ l2] at e2
    unfold Face.Linked at hl ⊢
    rw [e0, e1, e2]
    exact hl
  refine ⟨fuel, s, m', hrun, r1, ?_, ?_, hlinked, r5, hfaces, hid, ?_⟩
  · unfold simplifyMesh
    simp only [hrun, bind_ok, r1]
  · intro fuel' m'' h
    unfold simplifyMesh at h
    simp only [bind_eq_ok] at h
    obtain ⟨s'', h1, h2⟩ := h
    unfold simplifyRun at h1
    simp only [i1, bind_ok] at h1
    have hs := collapseLoop_deterministic h1 hrun'
    rw [hs, r1] at h2
    exact (Except.ok.inj h2).symm
  · intro hall
    exact hid (fun i hi => newIndex_eq_self hall (aliveAt_inRange hi))

end

/-- C7 (amended) at the tetrahedron with target 2. -/
theorem simplifyMesh_adjacency_old_numbering_witness :
    (listPQ ℚ).Lawful ∧ FacesValid tetra.vertices tetra.faces ∧
    buildEdges tetra = Except.ok tetraBuilt ∧
    ∃ fuel s m', simplifyRun (listPQ ℚ) fuel tetraBuilt 2 = Except.ok s ∧
      reindexVertices s.mesh = Except.ok m' ∧
      simplifyMesh (listPQ ℚ) fuel tetraBuilt 2 = Except.ok m' ∧
      (∀ fuel' m'', simplifyMesh (listPQ ℚ) fuel' tetraBuilt 2 = Except.ok m'' → m'' = m') ∧
      FacesLinked s.mesh.vertexNeighbors s.mesh.faces ∧
      m'.vertexNeighbors = s.mesh.vertexNeighbors ∧
      List.Forall₂ (fun f f' => f'.removed = f.removed ∧
        (f.removed = false → f'.v0 = newIndex s.mesh.vertices f.v0 ∧
          f'.v1 = newIndex s.mesh.vertices f.v1 ∧ f'.v2 = newIndex s.mesh.vertices f.v2 ∧
          f.Linked m'.vertexNeighbors))
        s.mesh.faces m'.faces ∧
      ((∀ i : Int, aliveAt s.mesh.vertices i = true → newIndex s.mesh.vertices i = i) →
        FacesLinked m'.vertexNeighbors m'.faces) ∧
      ((∀ v ∈ s.mesh.vertices, v.removed = false) →
        FacesLinked m'.vertexNeighbors m'.faces) :=
  ⟨listPQ_lawful, by decide, buildEdges_tetra,
    simplifyMesh_adjacency_old_numbering (listPQ ℚ) listPQ_lawful tetra tetraBuilt 2 (by decide)
      buildEdges_tetra⟩

/-! ## `computeEdgeCollapse`: the two branches -/

theorem ratScalar_lt (a b : ℚ) : Scalar.lt a b = true ↔ a < b := by
  simp [Scalar.lt]

theorem lt_eq_false_iff {F : Type} [Scalar F] [LinearOrder F]
    (hlt : ∀ a b : F, Scalar.lt a b = true ↔ a < b) (a b : F) :
    Scalar.lt a b = false ↔ b ≤ a := by
  rw [← not_lt, ← hlt a b]
  cases Scalar.lt a b <;> simp

/-- A carrier whose `<` is a linear order satisfies the comparison law with
    an empty NaN test. -/
theorem nanOrder_of_linearOrder {F : Type} [Scalar F] [LinearOrder F]
    (hlt : ∀ a b : F, Scalar.lt a b = true ↔ a < b) :
    NaNOrder (fun a b : F => a ≤ b) (fun _ => False) := by
  intro a b
  rw [lt_eq_false_iff hlt]
  simp

theorem nanOrder_rat : NaNOrder (fun a b : ℚ => a ≤ b) (fun _ => False) :=
  nanOrder_of_linearOrder ratScalar_lt

theorem nanOrder_floatN : NaNOrder FloatN.le FloatN.isNaN := by
  intro a b
  cases a <;> cases b <;> simp [Scalar.lt, FloatN.less, FloatN.le, FloatN.isNaN]

/-- The result of `computeEdgeCollapse` in closed form. -/
theorem computeEdgeCollapse_value {F : Type} [Scalar F] {m : Mesh F} {v0 v1 : Int}
    {a b : Vertex F} (ha : getAt m.vertices v0 = Except.ok a)
    (hb : getAt m.vertices v1 = Except.ok b) :
    computeEdgeCollapse m v0 v1 = Except.ok
      ⟨if Scalar.lt (Scalar.lit (1 / 10000)) (Scalar.abs (Mat4.determinant
            (qDash (Mat4.add a.Q b.Q)))) = true
          then Vec4.xyz (Mat4.mulVec (Mat4.inverse (qDash (Mat4.add a.Q b.Q)))
            ⟨fzero, fzero, fzero, fone⟩)
          else Vec3.smul (Vec3.add a.position b.position) (Scalar.lit (1 / 2)),
        quadricError (Mat4.add a.Q b.Q)
          (if Scalar.lt (Scalar.lit (1 / 10000)) (Scalar.abs (Mat4.determinant
            (qDash (Mat4.add a.Q b.Q)))) = true
          then Vec4.xyz (Mat4.mulVec (Mat4.inverse (qDash (Mat4.add a.Q b.Q)))
            ⟨fzero, fzero, fzero, fone⟩)
          else Vec3.smul (Vec3.add a.position b.position) (Scalar.lit (1 / 2))),
        Scalar.lt (Scalar.lit (1 / 10000)) (Scalar.abs (Mat4.determinant
            (qDash (Mat4.add a.Q b.Q))))⟩ := by
  unfold computeEdgeCollapse
  simp only [ha, hb, bind_ok, pure_eq_ok]
  rfl

/-- C11 (amended). For all in-range `v0`, `v1`, on a carrier whose comparison
    obeys the law of `float` (`a < b` is false exactly when `b ≤ a` or an
    operand is NaN), `computeEdgeCollapse` returns a result with
    `valid = false` exactly when the test `1e-4 < |det(Q')|` is false, that is
    when `|det(Q')| ≤ 1e-4` or `|det(Q')|` is NaN, where `Q'` is
    `Q(v0) + Q(v1)` with its fourth row replaced by `(0, 0, 0, 1)`; in that
    case `vBar` is the midpoint `(p(v0) + p(v1)) * 0.5`, otherwise it is the
    first three components of `inverse(Q') * (0, 0, 0, 1)`; in both branches
    the cost is `(vBar, 1)ᵀ (Q(v0) + Q(v1)) (vBar, 1)`. -/
theorem computeEdgeCollapse_branches {F : Type} [Scalar F] (le : F → F → Prop)
    (isNaN : F → Prop) (hord : NaNOrder le isNaN)
    (hlit : ¬ isNaN (Scalar.lit (1 / 10000))) (m : Mesh F) (v0 v1 : Int)
    (h0 : InRange m.vertices.length v0) (h1 : InRange m.vertices.length v1) :
    ∃ a b res, getAt m.vertices v0 = Except.ok a ∧ getAt m.vertices v1 = Except.ok b ∧
      computeEdgeCollapse m v0 v1 = Except.ok res ∧
      (res.valid = false ↔
        Scalar.lt (Scalar.lit (1 / 10000))
          (Scalar.abs (Mat4.determinant (qDash (Mat4.add a.Q b.Q)))) = false) ∧
      (res.valid = false ↔
        (le (Scalar.abs (Mat4.determinant (qDash (Mat4.add a.Q b.Q)))) (Scalar.lit (1 / 10000)) ∨
          isNaN (Scalar.abs (Mat4.determinant (qDash (Mat4.add a.Q b.Q)))))) ∧
      (res.valid = false →
        res.vBar = Vec3.smul (Vec3.add a.position b.position) (Scalar.lit (1 / 2))) ∧
      (res.valid = true →
        res.vBar = Vec4.xyz (Mat4.mulVec (Mat4.inverse (qDash (Mat4.add a.Q b.Q)))
          ⟨fzero, fzero, fzero, fone⟩)) ∧
      res.cost = quadricError (Mat4.add a.Q b.Q) res.vBar := by
  obtain ⟨a, ha⟩ := getAt_of_inRange h0
  obtain ⟨b, hb⟩ := getAt_of_inRange h1
  have hres := computeEdgeCollapse_value ha hb
  refine ⟨a, b, _, ha, hb, hres, Iff.rfl, ?_, ?_, ?_, rfl⟩
  · show Scalar.lt _ _ = false ↔ _
    rw [hord]
    constructor
    · rintro (h | h | h)
      · exact Or.inl h
      · exact absurd h hlit
      · exact Or.inr h
    · rintro (h | h)
      · exact Or.inl h
      · exact Or.inr (Or.inr h)
  · intro hv
    dsimp only at hv ⊢
    rw [if_neg]
    rw [hv]
    simp
  · intro hv
    dsimp only at hv ⊢
    rw [if_pos hv]

/-- C11 (amended) on `nanMesh` and the pair `(0, 1)`, where the determinant is
    NaN and the midpoint is returned, and in exact arithmetic on
    `boundaryMesh` and the pair `(0, 2)`, where both quadrics are multiples
    of the plane `z = 0`, the determinant is 0 and the midpoint is returned. -/
theorem computeEdgeCollapse_branches_witness :
    (NaNOrder FloatN.le FloatN.isNaN ∧ ¬ FloatN.isNaN (Scalar.lit (1 / 10000)) ∧
      InRange nanMesh.vertices.length 0 ∧ InRange nanMesh.vertices.length 1 ∧
      ∃ a b res, getAt nanMesh.vertices 0 = Except.ok a ∧
        getAt nanMesh.vertices 1 = Except.ok b ∧
        computeEdgeCollapse nanMesh 0 1 = Except.ok res ∧
        (res.valid = false ↔
          Scalar.lt (Scalar.lit (1 / 10000))
            (Scalar.abs (Mat4.determinant (qDash (Mat4.add a.Q b.Q)))) = false) ∧
        (res.valid = false ↔
          (FloatN.le (Scalar.abs (Mat4.determinant (qDash (Mat4.add a.Q b.Q))))
              (Scalar.lit (1 / 10000)) ∨
            FloatN.isNaN (Scalar.abs (Mat4.determinant (qDash (Mat4.add a.Q b.Q)))))) ∧
        (res.valid = false →
          res.vBar = Vec3.smul (Vec3.add a.position b.position) (Scalar.lit (1 / 2))) ∧
        (res.valid = true →
          res.vBar = Vec4.xyz (Mat4.mulVec (Mat4.inverse (qDash (Mat4.add a.Q b.Q)))
            ⟨fzero, fzero, fzero, fone⟩)) ∧
        res.cost = quadricError (Mat4.add a.Q b.Q) res.vBar) ∧
    (InRange boundaryMesh.vertices.length 0 ∧ InRange boundaryMesh.vertices.length 2 ∧
      computeEdgeCollapse boundaryMesh 0 2 = Except.ok ⟨⟨1 / 4, 1 / 2, 0⟩, 0, false⟩ ∧
      ∃ a b res, getAt boundaryMesh.vertices 0 = Except.ok a ∧
        getAt boundaryMesh.vertices 2 = Except.ok b ∧
        computeEdgeCollapse boundaryMesh 0 2 = Except.ok res ∧
        (res.valid = false ↔
          Scalar.lt (Scalar.lit (1 / 10000))
            (Scalar.abs (Mat4.determinant (qDash (Mat4.add a.Q b.Q)))) = false) ∧
        (res.valid = false ↔
          (Scalar.abs (Mat4.determinant (qDash (Mat4.add a.Q b.Q))) ≤ Scalar.lit (1 / 10000) ∨
            False)) ∧
        (res.valid = false →
          res.vBar = Vec3.smul (Vec3.add a.position b.position) (Scalar.lit (1 / 2))) ∧
        (res.valid = true →
          res.vBar = Vec4.xyz (Mat4.mulVec (Mat4.inverse (qDash (Mat4.add a.Q b.Q)))
            ⟨fzero, fzero, fzero, fone⟩)) ∧
        res.cost = quadricError (Mat4.add a.Q b.Q) res.vBar) :=
  ⟨⟨nanOrder_floatN, by decide, by decide, by decide,
      computeEdgeCollapse_branches FloatN.le FloatN.isNaN nanOrder_floatN (by decide)
        nanMesh 0 1 (by decide) (by decide)⟩,
    ⟨by decide, by decide, by decide!,
      computeEdgeCollapse_branches (fun a b : ℚ => a ≤ b) (fun _ => False) nanOrder_rat
        (fun h => h) boundaryMesh 0 2 (by decide) (by decide)⟩⟩

/-- C11, counterexample. On `nanMesh` the quadric of vertex 0 has a NaN entry,
    so the determinant of `Q'` for the pair `(0, 1)` is NaN: the test
    `1e-4 < |det|` is false, `computeEdgeCollapse` returns the midpoint
    `(1/2, 0, 0)` with `valid = false`, yet `|det| ≤ 1e-4` does not hold. -/
theorem nan_determinant_fallback_counterexample :
    InRange nanMesh.vertices.length 0 ∧ InRange nanMesh.vertices.length 1 ∧
    getAt nanMesh.vertices 0 = Except.ok ⟨⟨fzero, fzero, fzero⟩, false, nanQuadric⟩ ∧
    getAt nanMesh.vertices 1 = Except.ok ⟨⟨fone, fzero, fzero⟩, false, Mat4.zero⟩ ∧
    computeEdgeCollapse nanMesh 0 1 =
      Except.ok ⟨⟨FloatN.num (1 / 2), FloatN.num 0, FloatN.num 0⟩, FloatN.nan, false⟩ ∧
    Scalar.abs (Mat4.determinant (qDash (Mat4.add nanQuadric Mat4.zero))) = FloatN.nan ∧
    ¬ FloatN.le (Scalar.abs (Mat4.determinant (qDash (Mat4.add nanQuadric Mat4.zero))))
      (Scalar.lit (1 / 10000)) := by
  refine ⟨by decide, by decide, by decide!, by decide!, by decide!, by decide!, by decide!⟩

/-! ## `isValidPair` -/

section
variable {F : Type} [Scalar F]

theorem toSizeT_ge_iff {n : Nat} {i : Int} (hi : IsInt i) (hn : (n : Int) ≤ 2 ^ 63) :
    toSizeT i ≥ (n : Int) ↔ ¬ InRange n i := by
  unfold toSizeT InRange
  unfold IsInt at hi
  norm_num at hi hn ⊢
  omega

theorem posAt_eq {vs : List (Vertex F)} {i : Int} {v : Vertex F}
    (h : getAt vs i = Except.ok v) : posAt vs i = v.position := by
  simp [posAt, h]

theorem flipScreen_spec {vs : List (Vertex F)} {vA vB : Int} {p : Vec3 F} :
    ∀ fs : List Face,
      (∀ f ∈ fs, f.removed = false →
        InRange vs.length f.v0 ∧ InRange vs.length f.v1 ∧ InRange vs.length f.v2) →
      ∃ r, flipScreen vs vA vB p fs = Except.ok r ∧
        (r = true ↔ ∀ f ∈ fs, f.removed = false → (f.hasCorner vA ∨ f.hasCorner vB) →
          flipPass vs vA vB p f = true) := by
  intro fs
  induction fs with
  | nil => intro _; exact ⟨true, rfl, by simp⟩
  | cons f fs ih =>
    intro hall
    obtain ⟨r, h1, h2⟩ := ih (fun g hg => hall g (List.mem_cons_of_mem _ hg))
    rw [flipScreen]
    by_cases hr : f.removed = true
    · rw [if_pos hr]
      refine ⟨r, h1, ?_⟩
      rw [h2, List.forall_mem_cons]
      simp [hr]
    · rw [if_neg hr]
      have hrf : f.removed = false := by simpa using hr
      by_cases ht : f.v0 ≠ vA ∧ f.v1 ≠ vA ∧ f.v2 ≠ vA ∧ f.v0 ≠ vB ∧ f.v1 ≠ vB ∧ f.v2 ≠ vB
      · rw [if_pos ht]
        refine ⟨r, h1, ?_⟩
        rw [h2, List.forall_mem_cons]
        have : ¬ (f.hasCorner vA ∨ f.hasCorner vB) := by
          unfold Face.hasCorner; tauto
        simp [this]
      · rw [if_neg ht]
        have htouch : f.hasCorner vA ∨ f.hasCorner vB := by
          unfold Face.hasCorner; tauto
        obtain ⟨r0, r1, r2⟩ := hall f (List.mem_cons_self _ _) hrf
        obtain ⟨a, ha⟩ := getAt_of_inRange r0
        obtain ⟨b, hb⟩ := getAt_of_inRange r1
        obtain ⟨c, hc⟩ := getAt_of_inRange r2
        simp only [ha, hb, hc, bind_ok]
        have hN : previewNormal vs vA vB p f =
            Vec3.cross
              (Vec3.sub (if f.v1 = vA ∨ f.v1 = vB then p else b.position)
                (if f.v0 = vA ∨ f.v0 = vB then p else a.position))
              (Vec3.sub (if f.v2 = vA ∨ f.v2 = vB then p else c.position)
                (if f.v0 = vA ∨ f.v0 = vB then p else a.position)) := by
          simp only [previewNormal, posAt_eq ha, posAt_eq hb, posAt_eq hc]
        have hO : faceNormal vs f =
            Vec3.cross (Vec3.sub b.position a.position) (Vec3.sub c.position a.position) := by
          simp only [faceNormal, posAt_eq ha, posAt_eq hb, posAt_eq hc]
        rw [← hN, ← hO]
        cases c1 : Scalar.lt (Vec3.length (previewNormal vs vA vB p f))
            (Scalar.lit (1 / 1000000000000) : F)
        · cases c2 : Scalar.lt (Vec3.dot (faceNormal vs f) (previewNormal vs vA vB p f))
              (-(Scalar.lit (1 / 1000)) : F)
          · have hp : flipPass vs vA vB p f = true := by
              unfold flipPass; rw [c1, c2]; rfl
            simp only [Bool.false_eq_true, if_false]
            refine ⟨r, h1, ?_⟩
            rw [h2, List.forall_mem_cons]
            exact ⟨fun h => ⟨fun _ _ => hp, h⟩, fun h => h.2⟩
          · have hp : flipPass vs vA vB p f = false := by
              unfold flipPass; rw [c1, c2]; rfl
            simp only [Bool.false_eq_true, if_false, if_true]
            refine ⟨false, rfl, ?_⟩
            rw [List.forall_mem_cons]
            constructor
            · intro h; cases h
            · intro h
              have := h.1 hrf htouch
              rw [hp] at this
              cases this
        · have hp : flipPass vs vA vB p f = true := by
            unfold flipPass; rw [c1]; rfl
          simp only [if_true]
          refine ⟨r, h1, ?_⟩
          rw [h2, List.forall_mem_cons]
          exact ⟨fun h => ⟨fun _ _ => hp, h⟩, fun h => h.2⟩

theorem isValidPair_outside {m : Mesh F} {vA vB : Int} {p : Vec3 F}
    (hiA : IsInt vA) (hiB : IsInt vB) (hsz : (m.vertices.length : Int) ≤ 2 ^ 63)
    (h : ¬ InRange m.vertices.length vA ∨ ¬ InRange m.vertices.length vB) :
    isValidPair m vA vB p = Except.ok false := by
  unfold isValidPair
  rw [if_pos]
  · rfl
  · rcases h with h | h
    · exact Or.inl ((toSizeT_ge_iff hiA hsz).mpr h)
    · exact Or.inr ((toSizeT_ge_iff hiB hsz).mpr h)

theorem isValidPair_inside {m : Mesh F} {vA vB : Int} {p : Vec3 F} {a b : Vertex F}
    (hiA : IsInt vA) (hiB : IsInt vB) (hsz : (m.vertices.length : Int) ≤ 2 ^ 63)
    (ha : getAt m.vertices vA = Except.ok a) (hb : getAt m.vertices vB = Except.ok b) :
    isValidPair m vA vB p =
      (if a.removed = true then Except.ok false
      else if b.removed = true then Except.ok false
      else (do
        let nA ← getAt m.vertexNeighbors vA
        let common ←
          match nA with
          | [] => (pure [] : Except Fault (List Int))
          | _ :: _ => do
            let nB ← getAt m.vertexNeighbors vB
            pure (nA.filter (fun n => decide (n ∈ nB)))
        if common.length > 2 then pure false
        else flipScreen m.vertices vA vB p m.faces)) := by
  unfold isValidPair
  rw [if_neg]
  · simp only [ha, hb, bind_ok, pure_eq_ok]
  · intro h
    rcases h with h | h
    · exact (toSizeT_ge_iff hiA hsz).mp h (getAt_inRange ha)
    · exact (toSizeT_ge_iff hiB hsz).mp h (getAt_inRange hb)

theorem isValidPair_alive {m : Mesh F} {vA vB : Int} {p : Vec3 F}
    (hiA : IsInt vA) (hiB : IsInt vB) (hsz : (m.vertices.length : Int) ≤ 2 ^ 63)
    (hA : aliveAt m.vertices vA = true) (hB : aliveAt m.vertices vB = true)
    (hlen : m.vertexNeighbors.length = m.vertices.length) :
    isValidPair m vA vB p =
      if (commonNeighbors m.vertexNeighbors vA vB).length > 2 then Except.ok false
      else flipScreen m.vertices vA vB p m.faces := by
  obtain ⟨a, ha, har⟩ := aliveAt_iff.mp hA
  obtain ⟨b, hb, hbr⟩ := aliveAt_iff.mp hB
  obtain ⟨nA, hnA⟩ := getAt_of_inRange (l := m.vertexNeighbors)
    (by rw [hlen]; exact getAt_inRange ha)
  obtain ⟨nB, hnB⟩ := getAt_of_inRange (l := m.vertexNeighbors)
    (by rw [hlen]; exact getAt_inRange hb)
  rw [isValidPair_inside hiA hiB hsz ha hb, har, hbr]
  simp only [Bool.false_eq_true, if_false, hnA, bind_ok]
  have hcn : commonNeighbors m.vertexNeighbors vA vB = nA.filter (fun n => decide (n ∈ nB)) := by
    simp only [commonNeighbors, hnA, hnB]
  rw [hcn]
  cases nA with
  | nil => rfl
  | cons x xs =>
    simp only [hnB, pure_eq_ok, bind_ok]

/-- C12 (amended). For `int` indices and a vertex array within the range of
    `size_t`, on a carrier whose comparison obeys the law of `float` (`a < b`
    is false exactly when `b ≤ a` or an operand is NaN): `isValidPair`
    returns false when an index is out of range (negative or not below the
    vertex count) or refers to a removed vertex, and, for two non-removed
    vertices with one neighbor set per vertex, when `N(vA) ∩ N(vB)` has more
    than 2 elements; otherwise, when the corners of the non-removed faces
    exist, it returns, and the result is true if and only if for every
    non-removed face with corner `vA` or `vB` the previewed normal is shorter
    than `1e-12` or the test `oldN · newN < -0.001` is false, that is
    `oldN · newN ≥ -0.001` or `oldN · newN` is NaN. -/
theorem isValidPair_decision (le : F → F → Prop) (isNaN : F → Prop)
    (hord : NaNOrder le isNaN) (hneg : ¬ isNaN (-(Scalar.lit (1 / 1000)) : F))
    (m : Mesh F) (vA vB : Int) (p : Vec3 F)
    (hiA : IsInt vA) (hiB : IsInt vB) (hsz : (m.vertices.length : Int) ≤ 2 ^ 63) :
    ((¬ InRange m.vertices.length vA ∨ ¬ InRange m.vertices.length vB) →
      isValidPair m vA vB p = Except.ok false) ∧
    ((removedAt m.vertices vA = true ∨ removedAt m.vertices vB = true) →
      isValidPair m vA vB p = Except.ok false) ∧
    (aliveAt m.vertices vA = true → aliveAt m.vertices vB = true →
      m.vertexNeighbors.length = m.vertices.length →
      ((commonNeighbors m.vertexNeighbors vA vB).length > 2 →
        isValidPair m vA vB p = Except.ok false) ∧
      ((commonNeighbors m.vertexNeighbors vA vB).length ≤ 2 →
        (∀ f ∈ m.faces, f.removed = false →
          InRange m.vertices.length f.v0 ∧ InRange m.vertices.length f.v1 ∧
          InRange m.vertices.length f.v2) →
        ∃ r, isValidPair m vA vB p = Except.ok r ∧
          (r = true ↔ ∀ f ∈ m.faces, f.removed = false → (f.hasCorner vA ∨ f.hasCorner vB) →
            Scalar.lt (Vec3.length (previewNormal m.vertices vA vB p f))
              (Scalar.lit (1 / 1000000000000)) = true ∨
            Scalar.lt (Vec3.dot (faceNormal m.vertices f) (previewNormal m.vertices vA vB p f))
              (-(Scalar.lit (1 / 1000))) = false) ∧
          (r = true ↔ ∀ f ∈ m.faces, f.removed = false → (f.hasCorner vA ∨ f.hasCorner vB) →
            Scalar.lt (Vec3.length (previewNormal m.vertices vA vB p f))
              (Scalar.lit (1 / 1000000000000)) = true ∨
            le (-(Scalar.lit (1 / 1000)))
              (Vec3.dot (faceNormal m.vertices f) (previewNormal m.vertices vA vB p f)) ∨
            isNaN (Vec3.dot (faceNormal m.vertices f)
              (previewNormal m.vertices vA vB p f))))) := by
  refine ⟨isValidPair_outside hiA hiB hsz, ?_, ?_⟩
  · intro hrem
    by_cases hin : InRange m.vertices.length vA ∧ InRange m.vertices.length vB
    · obtain ⟨a, ha⟩ := getAt_of_inRange hin.1
      obtain ⟨b, hb⟩ := getAt_of_inRange hin.2
      rw [isValidPair_inside hiA hiB hsz ha hb]
      rcases hrem with h | h
      · obtain ⟨a', ha', hr⟩ := removedAt_iff.mp h
        rw [ha] at ha'
        cases ha'
        rw [if_pos hr]
      · obtain ⟨b', hb', hr⟩ := removedAt_iff.mp h
        rw [hb] at hb'
        cases hb'
        by_cases h1 : a.removed = true
        · rw [if_pos h1]
        · rw [if_neg h1, if_pos hr]
    · exact isValidPair_outside hiA hiB hsz (by tauto)
  · intro hA hB hlen
    rw [isValidPair_alive hiA hiB hsz hA hB hlen]
    refine ⟨fun hc => by rw [if_pos hc], ?_⟩
    intro hc hin
    rw [if_neg (by omega)]
    obtain ⟨r, h1, h2⟩ := @flipScreen_spec F _ m.vertices vA vB p m.faces hin
    have key : (r = true ↔ ∀ f ∈ m.faces, f.removed = false →
        (f.hasCorner vA ∨ f.hasCorner vB) →
        Scalar.lt (Vec3.length (previewNormal m.vertices vA vB p f))
          (Scalar.lit (1 / 1000000000000)) = true ∨
        Scalar.lt (Vec3.dot (faceNormal m.vertices f) (previewNormal m.vertices vA vB p f))
          (-(Scalar.lit (1 / 1000))) = false) := by
      rw [h2]
      refine forall_congr' (fun f => forall_congr' (fun _ => forall_congr' (fun _ =>
        forall_congr' (fun _ => ?_))))
      unfold flipPass
      rw [Bool.or_eq_true, Bool.not_eq_true']
    refine ⟨r, h1, key, ?_⟩
    rw [key]
    refine forall_congr' (fun f => forall_congr' (fun _ => forall_congr' (fun _ =>
      forall_congr' (fun _ => or_congr Iff.rfl ?_))))
    rw [hord]
    constructor
    · rintro (h | h | h)
      · exact Or.inl h
      · exact Or.inr h
      · exact absurd h hneg
    · rintro (h | h)
      · exact Or.inl h
      · exact Or.inr (Or.inl h)

end

/-- C12 (amended) in exact arithmetic on the built tetrahedron, the pair
    `(0, 1)` and the stored position of the seed record: the pair is accepted;
    the pair `(0, 7)` and the pair `(-1, 1)` are rejected. On the triangle
    over `FloatN`, the pair `(0, 1)` and the position `(NaN, 0, 0)`: the pair
    is accepted. -/
theorem isValidPair_decision_witness :
    (NaNOrder (fun a b : ℚ => a ≤ b) (fun _ => False) ∧
    IsInt 0 ∧ IsInt 1 ∧ (tetraBuilt.vertices.length : Int) ≤ 2 ^ 63 ∧
    isValidPair tetraBuilt 0 1 tetraRecord.optimalPos = Except.ok true ∧
    isValidPair tetraBuilt 0 7 tetraRecord.optimalPos = Except.ok false ∧
    isValidPair tetraBuilt (-1) 1 tetraRecord.optimalPos = Except.ok false ∧
    (((¬ InRange tetraBuilt.vertices.length 0 ∨ ¬ InRange tetraBuilt.vertices.length 1) →
      isValidPair tetraBuilt 0 1 tetraRecord.optimalPos = Except.ok false) ∧
    ((removedAt tetraBuilt.vertices 0 = true ∨ removedAt tetraBuilt.vertices 1 = true) →
      isValidPair tetraBuilt 0 1 tetraRecord.optimalPos = Except.ok false) ∧
    (aliveAt tetraBuilt.vertices 0 = true → aliveAt tetraBuilt.vertices 1 = true →
      tetraBuilt.vertexNeighbors.length = tetraBuilt.vertices.length →
      ((commonNeighbors tetraBuilt.vertexNeighbors 0 1).length > 2 →
        isValidPair tetraBuilt 0 1 tetraRecord.optimalPos = Except.ok false) ∧
      ((commonNeighbors tetraBuilt.vertexNeighbors 0 1).length ≤ 2 →
        (∀ f ∈ tetraBuilt.faces, f.removed = false →
          InRange tetraBuilt.vertices.length f.v0 ∧ InRange tetraBuilt.vertices.length f.v1 ∧
          InRange tetraBuilt.vertices.length f.v2) →
        ∃ r, isValidPair tetraBuilt 0 1 tetraRecord.optimalPos = Except.ok r ∧
          (r = true ↔ ∀ f ∈ tetraBuilt.faces, f.removed = false →
            (f.hasCorner 0 ∨ f.hasCorner 1) →
            Scalar.lt
              (Vec3.length (previewNormal tetraBuilt.vertices 0 1 tetraRecord.optimalPos f))
              (Scalar.lit (1 / 1000000000000)) = true ∨
            Scalar.lt (Vec3.dot (faceNormal tetraBuilt.vertices f)
                (previewNormal tetraBuilt.vertices 0 1 tetraRecord.optimalPos f))
              (-(Scalar.lit (1 / 1000))) = false) ∧
          (r = true ↔ ∀ f ∈ tetraBuilt.faces, f.removed = false →
            (f.hasCorner 0 ∨ f.hasCorner 1) →
            Scalar.lt
              (Vec3.length (previewNormal tetraBuilt.vertices 0 1 tetraRecord.optimalPos f))
              (Scalar.lit (1 / 1000000000000)) = true ∨
            -(Scalar.lit (1 / 1000)) ≤
              Vec3.dot (faceNormal tetraBuilt.vertices f)
                (previewNormal tetraBuilt.vertices 0 1 tetraRecord.optimalPos f) ∨
            False))))) ∧
    (NaNOrder FloatN.le FloatN.isNaN ∧ ¬ FloatN.isNaN (-(Scalar.lit (1 / 1000))) ∧
    IsInt 0 ∧ IsInt 1 ∧ (nanTriangle.vertices.length : Int) ≤ 2 ^ 63 ∧
    isValidPair nanTriangle 0 1 nanPos = Except.ok true ∧
    (((¬ InRange nanTriangle.vertices.length 0 ∨ ¬ InRange nanTriangle.vertices.length 1) →
      isValidPair nanTriangle 0 1 nanPos = Except.ok false) ∧
    ((removedAt nanTriangle.vertices 0 = true ∨ removedAt nanTriangle.vertices 1 = true) →
      isValidPair nanTriangle 0 1 nanPos = Except.ok false) ∧
    (aliveAt nanTriangle.vertices 0 = true → aliveAt nanTriangle.vertices 1 = true →
      nanTriangle.vertexNeighbors.length = nanTriangle.vertices.length →
      ((commonNeighbors nanTriangle.vertexNeighbors 0 1).length > 2 →
        isValidPair nanTriangle 0 1 nanPos = Except.ok false) ∧
      ((commonNeighbors nanTriangle.vertexNeighbors 0 1).length ≤ 2 →
        (∀ f ∈ nanTriangle.faces, f.removed = false →
          InRange nanTriangle.vertices.length f.v0 ∧
          InRange nanTriangle.vertices.length f.v1 ∧
          InRange nanTriangle.vertices.length f.v2) →
        ∃ r, isValidPair nanTriangle 0 1 nanPos = Except.ok r ∧
          (r = true ↔ ∀ f ∈ nanTriangle.faces, f.removed = false →
            (f.hasCorner 0 ∨ f.hasCorner 1) →
            Scalar.lt (Vec3.length (previewNormal nanTriangle.vertices 0 1 nanPos f))
              (Scalar.lit (1 / 1000000000000)) = true ∨
            Scalar.lt (Vec3.dot (faceNormal nanTriangle.vertices f)
                (previewNormal nanTriangle.vertices 0 1 nanPos f))
              (-(Scalar.lit (1 / 1000))) = false) ∧
          (r = true ↔ ∀ f ∈ nanTriangle.faces, f.removed = false →
            (f.hasCorner 0 ∨ f.hasCorner 1) →
            Scalar.lt (Vec3.length (previewNormal nanTriangle.vertices 0 1 nanPos f))
              (Scalar.lit (1 / 1000000000000)) = true ∨
            FloatN.le (-(Scalar.lit (1 / 1000)))
              (Vec3.dot (faceNormal nanTriangle.vertices f)
                (previewNormal nanTriangle.vertices 0 1 nanPos f)) ∨
            FloatN.isNaN (Vec3.dot (faceNormal nanTriangle.vertices f)
              (previewNormal nanTriangle.vertices 0 1 nanPos f))))))) :=
  ⟨⟨nanOrder_rat, by decide, by decide, by decide, by decide!, by decide!, by decide!,
      isValidPair_decision (fun a b : ℚ => a ≤ b) (fun _ => False) nanOrder_rat (fun h => h)
        tetraBuilt 0 1 tetraRecord.optimalPos (by decide) (by decide) (by decide)⟩,
    ⟨nanOrder_floatN, by decide, by decide, by decide, by decide, by decide!,
      isValidPair_decision FloatN.le FloatN.isNaN nanOrder_floatN (by decide)
        nanTriangle 0 1 nanPos (by decide) (by decide) (by decide)⟩⟩

/-- C12, counterexample. On the single triangle over `FloatN`, for the pair
    `(0, 1)` of non-removed vertices with two common neighbors at most and the
    new position `(NaN, 0, 0)`, the previewed normal of the face `(0, 1, 2)`
    has NaN components: its length is not below `1e-12` and
    `oldN · newN ≥ -0.001` does not hold, yet `oldN · newN < -0.001` is false
    as well and `isValidPair` returns true. -/
theorem nan_normal_accepted_counterexample :
    IsInt 0 ∧ IsInt 1 ∧ (nanTriangle.vertices.length : Int) ≤ 2 ^ 63 ∧
    aliveAt nanTriangle.vertices 0 = true ∧ aliveAt nanTriangle.vertices 1 = true ∧
    (commonNeighbors nanTriangle.vertexNeighbors 0 1).length ≤ 2 ∧
    isValidPair nanTriangle 0 1 nanPos = Except.ok true ∧
    faceOf 0 1 2 ∈ nanTriangle.faces ∧ (faceOf 0 1 2).removed = false ∧
    (faceOf 0 1 2).hasCorner 0 ∧
    Vec3.length (previewNormal nanTriangle.vertices 0 1 nanPos (faceOf 0 1 2)) = FloatN.nan ∧
    Vec3.dot (faceNormal nanTriangle.vertices (faceOf 0 1 2))
      (previewNormal nanTriangle.vertices 0 1 nanPos (faceOf 0 1 2)) = FloatN.nan ∧
    Scalar.lt (Vec3.length (previewNormal nanTriangle.vertices 0 1 nanPos (faceOf 0 1 2)))
      (Scalar.lit (1 / 1000000000000)) = false ∧
    ¬ FloatN.le (-(Scalar.lit (1 / 1000)))
      (Vec3.dot (faceNormal nanTriangle.vertices (faceOf 0 1 2))
        (previewNormal nanTriangle.vertices 0 1 nanPos (faceOf 0 1 2))) := by
  refine ⟨by decide, by decide, by decide, by decide!, by decide!, by decide!, by decide!,
    by decide!, by decide!, by decide!, by decide!, by decide!, by decide!, by decide!⟩

/-! ## `computeVertexQuadrics`: the value of every quadric -/

section
variable {F : Type} [Scalar F]

theorem posAt_congr {vs ws : List (Vertex F)}
    (h : ws.map (fun v => v.position) = vs.map (fun v => v.position)) (i : Int) :
    posAt ws i = posAt vs i := by
  have h1 := getAt_map (fun v : Vertex F => v.position) ws i
  have h2 := getAt_map (fun v : Vertex F => v.position) vs i
  rw [h] at h1
  rw [h1] at h2
  unfold posAt
  cases ha : getAt ws i <;> cases hb : getAt vs i <;> simp [ha, hb, Except.map] at h2 ⊢
  exact h2

theorem faceNormal_congr {vs ws : List (Vertex F)}
    (h : ws.map (fun v => v.position) = vs.map (fun v => v.position)) (f : Face) :
    faceNormal ws f = faceNormal vs f := by
  simp only [faceNormal, posAt_congr h]

theorem addQ_at {vs : List (Vertex F)} {i : Int} (K : Mat4 F) (h : InRange vs.length i) :
    ∃ vs', addQ vs i K = Except.ok vs' ∧
      vs'.map (fun v => v.position) = vs.map (fun v => v.position) ∧
      ∀ j w, getAt vs j = Except.ok w →
        getAt vs' j = Except.ok { w with Q := if j = i then Mat4.add w.Q K else w.Q } := by
  obtain ⟨v, hv⟩ := getAt_of_inRange h
  refine ⟨setAt vs i { v with Q := Mat4.add v.Q K }, ?_, map_setAt_same _ _ hv rfl, ?_⟩
  · unfold addQ
    simp only [hv, bind_ok, pure_eq_ok]
  · intro j w hw
    by_cases hj : j = i
    · subst hj
      rw [hv] at hw
      cases hw
      rw [getAt_setAt_self _ h, if_pos rfl]
    · rw [getAt_setAt_of_ne _ h.1 hj, hw, if_neg hj]

theorem accum_skip {vs : List (Vertex F)} {f : Face} (i : Int) (Q : Mat4 F)
    (h : contributes vs f = false) : accum vs i Q f = Q := by
  unfold accum
  rw [if_neg]
  rw [h]
  simp

/-- The quadric pass, started from any accumulator state `ws` that has the
    positions of `vs`: every quadric grows by the fundamental quadrics of the
    contributing faces at that vertex, in face order. -/
theorem quadricLoop_sum {vs : List (Vertex F)} :
    ∀ (fs : List Face) (ws : List (Vertex F)),
      ws.map (fun v => v.position) = vs.map (fun v => v.position) →
      (∀ f ∈ fs, f.removed = false →
        InRange vs.length f.v0 ∧ InRange vs.length f.v1 ∧ InRange vs.length f.v2) →
      (∀ f ∈ fs, contributes vs f = true → f.Distinct) →
      ∃ ws', quadricLoop fs ws = Except.ok ws' ∧
        ws'.map (fun v => v.position) = vs.map (fun v => v.position) ∧
        ∀ j w, getAt ws j = Except.ok w →
          ∃ w', getAt ws' j = Except.ok w' ∧ w'.Q = fs.foldl (accum vs j) w.Q := by
  intro fs
  induction fs with
  | nil => intro ws hp _ _; exact ⟨ws, rfl, hp, fun j w hw => ⟨w, hw, rfl⟩⟩
  | cons f fs ih =>
    intro ws hp hin hd
    have hin' : ∀ g ∈ fs, g.removed = false →
        InRange vs.length g.v0 ∧ InRange vs.length g.v1 ∧ InRange vs.length g.v2 :=
      fun g hg => hin g (List.mem_cons_of_mem _ hg)
    have hd' : ∀ g ∈ fs, contributes vs g = true → g.Distinct :=
      fun g hg => hd g (List.mem_cons_of_mem _ hg)
    have hlen : ws.length = vs.length := by
      have := congrArg List.length hp
      simpa using this
    rw [quadricLoop]
    by_cases hr : f.removed = true
    · rw [if_pos hr]
      have hc : contributes vs f = false := by simp [contributes, hr]
      obtain ⟨ws', e1, e2, e3⟩ := ih ws hp hin' hd'
      refine ⟨ws', e1, e2, ?_⟩
      intro j w hw
      obtain ⟨w', a1, a2⟩ := e3 j w hw
      exact ⟨w', a1, by rw [List.foldl_cons, accum_skip j w.Q hc]; exact a2⟩
    · rw [if_neg hr]
      have hrf : f.removed = false := by simpa using hr
      obtain ⟨r0, r1, r2⟩ := hin f (List.mem_cons_self _ _) hrf
      obtain ⟨a, ha⟩ := getAt_of_inRange (l := ws) (by rw [hlen]; exact r0)
      obtain ⟨b, hb⟩ := getAt_of_inRange (l := ws) (by rw [hlen]; exact r1)
      obtain ⟨c, hc⟩ := getAt_of_inRange (l := ws) (by rw [hlen]; exact r2)
      simp only [ha, hb, hc, bind_ok]
      have hpa : posAt vs f.v0 = a.position := by rw [← posAt_congr hp, posAt_eq ha]
      have hpb : posAt vs f.v1 = b.position := by rw [← posAt_congr hp, posAt_eq hb]
      have hpc : posAt vs f.v2 = c.position := by rw [← posAt_congr hp, posAt_eq hc]
      have hN : faceNormal vs f =
          Vec3.cross (Vec3.sub b.position a.position) (Vec3.sub c.position a.position) := by
        simp only [faceNormal, hpa, hpb, hpc]
      rw [← hN, ← hpa]
      cases c1 : Scalar.lt (Vec3.length (faceNormal vs f)) (Scalar.lit (1 / 1000000000) : F)
      · have hcon : contributes vs f = true := by
          unfold contributes; rw [hrf, c1]; rfl
        have hdist := hd f (List.mem_cons_self _ _) hcon
        simp only [Bool.false_eq_true, if_false]
        obtain ⟨w1, q1, p1, g1⟩ := @addQ_at F _ ws f.v0 (planeQuadric vs f)
          (by rw [hlen]; exact r0)
        have l1 : w1.length = vs.length := by
          have := congrArg List.length (p1.trans hp); simpa using this
        obtain ⟨w2, q2, p2, g2⟩ := @addQ_at F _ w1 f.v1 (planeQuadric vs f)
          (by rw [l1]; exact r1)
        have l2 : w2.length = vs.length := by
          have := congrArg List.length ((p2.trans p1).trans hp); simpa using this
        obtain ⟨w3, q3, p3, g3⟩ := @addQ_at F _ w2 f.v2 (planeQuadric vs f)
          (by rw [l2]; exact r2)
        have hK : Mat4.outerProduct (F := F)
            ⟨(Vec3.normalize (faceNormal vs f)).x, (Vec3.normalize (faceNormal vs f)).y,
              (Vec3.normalize (faceNormal vs f)).z,
              -(Vec3.dot (Vec3.normalize (faceNormal vs f)) (posAt vs f.v0))⟩
            ⟨(Vec3.normalize (faceNormal vs f)).x, (Vec3.normalize (faceNormal vs f)).y,
              (Vec3.normalize (faceNormal vs f)).z,
              -(Vec3.dot (Vec3.normalize (faceNormal vs f)) (posAt vs f.v0))⟩
            = planeQuadric vs f := rfl
        rw [hK, q1]
        simp only [bind_ok, q2, q3]
        obtain ⟨ws', e1, e2, e3⟩ := ih w3 (((p3.trans p2).trans p1).trans hp) hin' hd'
        refine ⟨ws', e1, e2, ?_⟩
        intro j w hw
        obtain ⟨w', a1, a2⟩ := e3 j _ (g3 j _ (g2 j _ (g1 j w hw)))
        refine ⟨w', a1, ?_⟩
        rw [a2, List.foldl_cons]
        congr 1
        obtain ⟨d01, d12, d20⟩ := hdist
        have d10 : f.v1 ≠ f.v0 := fun h => d01 h.symm
        have d21 : f.v2 ≠ f.v1 := fun h => d12 h.symm
        have d02 : f.v0 ≠ f.v2 := fun h => d20 h.symm
        unfold accum Face.hasCorner
        by_cases j0 : j = f.v0
        · subst j0
          simp [hcon, d01, d02]
        · by_cases j1 : j = f.v1
          · subst j1
            simp [hcon, d10, d12]
          · by_cases j2 : j = f.v2
            · subst j2
              simp [hcon, d20, d21]
            · have e0 : f.v0 ≠ j := fun h => j0 h.symm
              have e1 : f.v1 ≠ j := fun h => j1 h.symm
              have e2 : f.v2 ≠ j := fun h => j2 h.symm
              simp [j0, j1, j2, e0, e1, e2]
      · have hcon : contributes vs f = false := by
          unfold contributes; rw [c1]; simp
        simp only [if_true]
        obtain ⟨ws', e1, e2, e3⟩ := ih ws hp hin' hd'
        refine ⟨ws', e1, e2, ?_⟩
        intro j w hw
        obtain ⟨w', a1, a2⟩ := e3 j w hw
        exact ⟨w', a1, by rw [List.foldl_cons, accum_skip j w.Q hcon]; exact a2⟩

theorem foldl_accum_eq {vs : List (Vertex F)} (i : Int) :
    ∀ (fs : List Face) (Q : Mat4 F),
      fs.foldl (accum vs i) Q =
        ((fs.filter (fun f => contributes vs f && decide (f.hasCorner i))).map
          (planeQuadric vs)).foldl Mat4.add Q := by
  intro fs
  induction fs with
  | nil => intro Q; rfl
  | cons f fs ih =>
    intro Q
    rw [List.foldl_cons, ih]
    unfold accum
    by_cases h : contributes vs f = true ∧ f.hasCorner i
    · rw [if_pos h, List.filter_cons_of_pos (by simp [h.1, h.2])]
      rfl
    · rw [if_neg h, List.filter_cons_of_neg (by simpa using h)]

theorem isPlaneSum_foldl {vs : List (Vertex F)} :
    ∀ (l : List Face) (Q : Mat4 F), IsPlaneSum Q →
      IsPlaneSum ((l.map (planeQuadric vs)).foldl Mat4.add Q) := by
  intro l
  induction l with
  | nil => intro Q h; exact h
  | cons f l ih =>
    intro Q h
    exact ih _ (IsPlaneSum.add h (IsPlaneSum.plane _))

theorem isPlaneSum_quadricSum (vs : List (Vertex F)) (fs : List Face) (i : Int) :
    IsPlaneSum (quadricSum vs fs i) :=
  isPlaneSum_foldl _ _ IsPlaneSum.zero

theorem isSymm_of_isPlaneSum (hc : ∀ a b : F, a * b = b * a) {Q : Mat4 F}
    (h : IsPlaneSum Q) : Q.IsSymm := by
  induction h with
  | zero => exact ⟨rfl, rfl, rfl, rfl, rfl, rfl⟩
  | plane p =>
    unfold Mat4.IsSymm Mat4.outerProduct Vec4.smul
    exact ⟨hc _ _, hc _ _, hc _ _, hc _ _, hc _ _, hc _ _⟩
  | add _ _ ihA ihB =>
    obtain ⟨a1, a2, a3, a4, a5, a6⟩ := ihA
    obtain ⟨b1, b2, b3, b4, b5, b6⟩ := ihB
    unfold Mat4.IsSymm Mat4.add Vec4.add
    dsimp only
    rw [a1, a2, a3, a4, a5, a6, b1, b2, b3, b4, b5, b6]
    exact ⟨rfl, rfl, rfl, rfl, rfl, rfl⟩

theorem getAt_map_ok {α β : Type} (g : α → β) {l : List α} {i : Int} {a : α}
    (h : getAt l i = Except.ok a) : getAt (l.map g) i = Except.ok (g a) := by
  rw [getAt_map, h]; rfl

theorem getAt_of_map_eq {α β : Type} (g : α → β) {l l' : List α} {i : Int} {a a' : α}
    (hm : l'.map g = l.map g) (h : getAt l i = Except.ok a) (h' : getAt l' i = Except.ok a') :
    g a' = g a := by
  have h1 := getAt_map_ok g h
  have h2 := getAt_map_ok g h'
  rw [hm, h1] at h2
  exact (Except.ok.inj h2).symm

/-- The state of every vertex after `computeVertexQuadrics`. -/
theorem computeVertexQuadrics_sum {m : Mesh F}
    (hin : ∀ f ∈ m.faces, f.removed = false →
      InRange m.vertices.length f.v0 ∧ InRange m.vertices.length f.v1 ∧
      InRange m.vertices.length f.v2)
    (hd : ∀ f ∈ m.faces, contributes m.vertices f = true → f.Distinct) :
    ∃ m', computeVertexQuadrics m = Except.ok m' ∧
      ∀ i v, getAt m.vertices i = Except.ok v →
        getAt m'.vertices i = Except.ok { v with Q := quadricSum m.vertices m.faces i } := by
  have hp0 : (m.vertices.map (fun v => { v with Q := (Mat4.zero : Mat4 F) })).map
      (fun v => v.position) = m.vertices.map (fun v => v.position) := by
    rw [List.map_map]; rfl
  have hr0 : (m.vertices.map (fun v => { v with Q := (Mat4.zero : Mat4 F) })).map
      (fun v => v.removed) = m.vertices.map (fun v => v.removed) := by
    rw [List.map_map]; rfl
  obtain ⟨ws', e1, e2, e3⟩ := @quadricLoop_sum F _ m.vertices m.faces _ hp0 hin hd
  obtain ⟨ws'', f1, -, -, f4⟩ := quadricLoop_spec m.faces
    (m.vertices.map (fun v => { v with Q := (Mat4.zero : Mat4 F) }))
    (by simpa only [List.length_map] using hin)
  rw [e1] at f1
  cases f1
  refine ⟨{ m with vertices := ws' }, ?_, ?_⟩
  · unfold computeVertexQuadrics
    simp only [e1, bind_ok, pure_eq_ok]
  · intro i v hv
    obtain ⟨w', a1, a2⟩ := e3 i _ (getAt_map_ok _ hv)
    have hpos := getAt_of_map_eq (fun v : Vertex F => v.position) (e2.trans hp0.symm)
      (getAt_map_ok (fun v => { v with Q := (Mat4.zero : Mat4 F) }) hv) a1
    have hrem := getAt_of_map_eq (fun v : Vertex F => v.removed) f4
      (getAt_map_ok (fun v => { v with Q := (Mat4.zero : Mat4 F) }) hv) a1
    show getAt ws' i = _
    rw [a1]
    congr 1
    rw [foldl_accum_eq] at a2
    cases w'
    cases v
    simp only at hpos hrem a2 ⊢
    subst hpos hrem a2
    rfl

/-- After `computeVertexQuadrics` every vertex has its old position and
    removed flag. -/
theorem computeVertexQuadrics_frame {m m' : Mesh F} {i : Int} {v v' : Vertex F}
    (hin : ∀ f ∈ m.faces, f.removed = false →
      InRange m.vertices.length f.v0 ∧ InRange m.vertices.length f.v1 ∧
      InRange m.vertices.length f.v2)
    (hd : ∀ f ∈ m.faces, contributes m.vertices f = true → f.Distinct)
    (h : computeVertexQuadrics m = Except.ok m') (hv : getAt m.vertices i = Except.ok v)
    (hv' : getAt m'.vertices i = Except.ok v') :
    v'.position = v.position ∧ v'.removed = v.removed ∧
      v'.Q = quadricSum m.vertices m.faces i := by
  obtain ⟨m2, e1, e2⟩ := computeVertexQuadrics_sum hin hd
  rw [h] at e1
  cases e1
  have := e2 i v hv
  rw [hv'] at this
  cases this
  exact ⟨rfl, rfl, rfl⟩

end

/-! ### Exact arithmetic: a face with a repeated corner has normal zero -/

theorem faceNormal_repeated (vs : List (Vertex ℚ)) (f : Face) (h : ¬ f.Distinct) :
    faceNormal vs f = ⟨0, 0, 0⟩ := by
  unfold Face.Distinct at h
  simp only [not_and_or, not_not] at h
  rcases h with h | h | h
  · simp only [faceNormal, h, Vec3.cross, Vec3.sub]
    congr 1 <;> ring
  · simp only [faceNormal, h, Vec3.cross, Vec3.sub]
    congr 1 <;> ring
  · simp only [faceNormal, h, Vec3.cross, Vec3.sub]
    congr 1 <;> ring

theorem contributes_distinct_rat (vs : List (Vertex ℚ)) (f : Face)
    (h : contributes vs f = true) : f.Distinct := by
  by_contra hn
  have hz := faceNormal_repeated vs f hn
  have : contributes vs f = false := by
    unfold contributes
    rw [hz]
    have : Scalar.lt (Vec3.length (⟨0, 0, 0⟩ : Vec3 ℚ)) (Scalar.lit (1 / 1000000000)) = true := by
      decide!
    rw [this]
    simp
  rw [this] at h
  cases h

theorem contributes_distinct_of_valid {F : Type} [Scalar F] {vs : List (Vertex F)}
    {fs : List Face} (hv : FacesValid vs fs) :
    ∀ f ∈ fs, contributes vs f = true → f.Distinct := by
  intro f hf hc
  have hr : f.removed = false := by
    unfold contributes at hc
    cases h : f.removed
    · rfl
    · rw [h] at hc; simp at hc
  exact (hv f hf hr).1

section
variable {F : Type} [Scalar F]

theorem quadricSum_eq_zero {vs : List (Vertex F)} {fs : List Face} {i : Int}
    (h : ∀ f ∈ fs, f.removed = false → ¬ f.hasCorner i) :
    quadricSum vs fs i = Mat4.zero := by
  unfold quadricSum
  have : fs.filter (fun f => contributes vs f && decide (f.hasCorner i)) = [] := by
    rw [List.filter_eq_nil_iff]
    intro f hf hc
    rw [Bool.and_eq_true, decide_eq_true_eq] at hc
    have hr : f.removed = false := by
      have := hc.1
      unfold contributes at this
      cases h' : f.removed
      · rfl
      · rw [h'] at this; simp at this
    exact h f hf hr hc.2
  rw [this]
  rfl

/-- C13 (amended). `computeVertexQuadrics` overwrites the quadric of every
    vertex, removed ones included, and leaves positions and removed flags
    untouched: on a mesh that satisfies invariant 1 it returns, and every
    removed vertex ends with the quadric `mat4(0)`, whatever its quadric was
    before. -/
theorem computeVertexQuadrics_resets_removed (m : Mesh F)
    (hv : FacesValid m.vertices m.faces) :
    ∃ m', computeVertexQuadrics m = Except.ok m' ∧
      ∀ i v, getAt m.vertices i = Except.ok v → v.removed = true →
        getAt m'.vertices i = Except.ok { v with Q := Mat4.zero } := by
  obtain ⟨m', e1, e2⟩ := computeVertexQuadrics_sum
    (fun f hf hr => (facesValid_inRange hv f hf hr).2) (contributes_distinct_of_valid hv)
  refine ⟨m', e1, ?_⟩
  intro i v hi hr
  rw [e2 i v hi, quadricSum_eq_zero]
  intro f hf hfr hc
  obtain ⟨-, l0, l1, l2⟩ := hv f hf hfr
  have hal : aliveAt m.vertices i = true := by
    rcases hc with h | h | h
    · rw [← h]; exact l0
    · rw [← h]; exact l1
    · rw [← h]; exact l2
  obtain ⟨v2, h2, h3⟩ := aliveAt_iff.mp hal
  rw [hi] at h2
  cases h2
  rw [hr] at h3
  cases h3

end

/-- C13, counterexample. In `boundaryMesh` vertex 1 is removed and its quadric
    has the entry 1 in row 3 of column 3; after `computeVertexQuadrics` the
    quadric of vertex 1 is `mat4(0)`. -/
theorem removed_quadric_reset_counterexample :
    (getAt boundaryMesh.vertices 1).map (fun v => (v.removed, v.Q.c2.z))
      = Except.ok (true, 1) ∧
    (computeVertexQuadrics boundaryMesh >>= fun m => getAt m.vertices 1).map
        (fun v => (v.removed, v.Q)) = Except.ok (true, Mat4.zero) ∧
    (computeVertexQuadrics boundaryMesh >>= fun m => getAt m.vertices 1)
      ≠ getAt boundaryMesh.vertices 1 := by
  refine ⟨by decide!, by decide!, by decide!⟩

/-- C13 (amended) on `boundaryMesh`. -/
theorem computeVertexQuadrics_resets_removed_witness :
    FacesValid boundaryMesh.vertices boundaryMesh.faces ∧
    ∃ m', computeVertexQuadrics boundaryMesh = Except.ok m' ∧
      ∀ i v, getAt boundaryMesh.vertices i = Except.ok v → v.removed = true →
        getAt m'.vertices i = Except.ok { v with Q := Mat4.zero } :=
  ⟨by decide, computeVertexQuadrics_resets_removed boundaryMesh (by decide)⟩

section
variable {F : Type} [Scalar F]

theorem face_pairs_adj (f : Face) (hd : f.Distinct) (x y : Int) :
    ((x = f.v0 ∧ y = f.v1) ∨ (x = f.v1 ∧ y = f.v0) ∨ (x = f.v1 ∧ y = f.v2) ∨
      (x = f.v2 ∧ y = f.v1) ∨ (x = f.v2 ∧ y = f.v0) ∨ (x = f.v0 ∧ y = f.v2)) ↔
    (f.hasCorner x ∧ f.hasCorner y ∧ x ≠ y) := by
  unfold Face.Distinct at hd
  unfold Face.hasCorner
  omega

theorem face_pairs_edge (f : Face) (hd : f.Distinct) (x y : Int) :
    ((x = min f.v0 f.v1 ∧ y = max f.v0 f.v1) ∨ (x = min f.v1 f.v2 ∧ y = max f.v1 f.v2) ∨
      (x = min f.v2 f.v0 ∧ y = max f.v2 f.v0)) ↔
    (f.hasCorner x ∧ f.hasCorner y ∧ x < y) := by
  unfold Face.Distinct at hd
  unfold Face.hasCorner
  omega

theorem addEdge_lists {st st' : List (List Int) × List (Int × Int) × List (Edge F)} {a b : Int}
    (h : addEdge st a b = Except.ok st') (hok : SeedListOK st) :
    SeedListOK st' ∧
    ∀ x y, (x, y) ∈ st'.2.1 ↔ (x, y) ∈ st.2.1 ∨ (x = min a b ∧ y = max a b) := by
  unfold addEdge at h
  simp only [bind_eq_ok] at h
  obtain ⟨na, -, sb, -, h⟩ := h
  obtain ⟨h1, h2, h3⟩ := hok
  by_cases hmem : (min a b, max a b) ∈ st.2.1
  · rw [if_pos hmem] at h
    cases h
    refine ⟨⟨h1, h2, h3⟩, ?_⟩
    intro x y
    constructor
    · intro hxy; exact Or.inl hxy
    · rintro (hxy | ⟨rfl, rfl⟩)
      · exact hxy
      · exact hmem
  · rw [if_neg hmem] at h
    cases h
    refine ⟨⟨?_, ?_, ?_⟩, ?_⟩
    · simp only [List.map_append, List.map_cons, List.map_nil, List.reverse_cons, h1]
    · exact List.nodup_cons.mpr ⟨hmem, h2⟩
    · intro r hr
      rcases List.mem_append.mp hr with hr | hr
      · exact h3 r hr
      · rw [List.mem_singleton] at hr
        rw [hr]
        exact ⟨rfl, rfl⟩
    · intro x y
      simp only [List.mem_cons, Prod.mk.injEq]
      tauto

theorem buildEdgesLoop_exact {n : Nat} :
    ∀ (fs : List Face) (st : List (List Int) × List (Int × Int) × List (Edge F)),
      st.1.length = n → SeedListOK st →
      (∀ f ∈ fs, f.removed = false →
        f.Distinct ∧ InRange n f.v0 ∧ InRange n f.v1 ∧ InRange n f.v2) →
      ∃ st', buildEdgesLoop fs st = Except.ok st' ∧ st'.1.length = n ∧ SeedListOK st' ∧
        (∀ x y, adjacent st'.1 x y = true ↔ adjacent st.1 x y = true ∨
          ∃ f ∈ fs, f.removed = false ∧ f.hasCorner x ∧ f.hasCorner y ∧ x ≠ y) ∧
        (∀ x y, (x, y) ∈ st'.2.1 ↔ (x, y) ∈ st.2.1 ∨
          ∃ f ∈ fs, f.removed = false ∧ f.hasCorner x ∧ f.hasCorner y ∧ x < y) := by
  intro fs
  induction fs with
  | nil =>
    intro st h1 h2 _
    exact ⟨st, rfl, h1, h2, by simp, by simp⟩
  | cons f fs ih =>
    intro st h1 h2 hf
    have hfs : ∀ g ∈ fs, g.removed = false →
        g.Distinct ∧ InRange n g.v0 ∧ InRange n g.v1 ∧ InRange n g.v2 :=
      fun g hg => hf g (List.mem_cons_of_mem _ hg)
    by_cases hr : f.removed = true
    · obtain ⟨st', q1, q2, q3, q4, q5⟩ := ih st h1 h2 hfs
      refine ⟨st', ?_, q2, q3, ?_, ?_⟩
      · rw [buildEdgesLoop, if_pos hr]; exact q1
      · intro x y
        rw [q4, List.exists_mem_cons_iff]
        simp [hr]
      · intro x y
        rw [q5, List.exists_mem_cons_iff]
        simp [hr]
    · have hrf : f.removed = false := by simpa using hr
      obtain ⟨hd, r0, r1, r2⟩ := hf f (List.mem_cons_self _ _) hrf
      obtain ⟨s1, a1, b1, c1, -⟩ := @addEdge_spec F _ st f.v0 f.v1
        (by rw [h1]; exact r0) (by rw [h1]; exact r1)
      obtain ⟨s2, a2, b2, c2, -⟩ := @addEdge_spec F _ s1 f.v1 f.v2
        (by rw [b1, h1]; exact r1) (by rw [b1, h1]; exact r2)
      obtain ⟨s3, a3, b3, c3, -⟩ := @addEdge_spec F _ s2 f.v2 f.v0
        (by rw [b2, b1, h1]; exact r2) (by rw [b2, b1, h1]; exact r0)
      obtain ⟨k1, m1⟩ := addEdge_lists a1 h2
      obtain ⟨k2, m2⟩ := addEdge_lists a2 k1
      obtain ⟨k3, m3⟩ := addEdge_lists a3 k2
      obtain ⟨st', q1, q2, q3, q4, q5⟩ := ih s3 (by rw [b3, b2, b1, h1]) k3 hfs
      refine ⟨st', ?_, q2, q3, ?_, ?_⟩
      · rw [buildEdgesLoop, if_neg hr]
        simp only [a1, a2, a3, bind_ok]
        exact q1
      · intro x y
        rw [q4 x y, c3 x y, c2 x y, c1 x y, List.exists_mem_cons_iff]
        have hp := face_pairs_adj f hd x y
        simp only [hrf, true_and]
        rw [← hp]
        simp only [or_assoc]
      · intro x y
        rw [q5 x y, m3 x y, m2 x y, m1 x y, List.exists_mem_cons_iff]
        have hp := face_pairs_edge f hd x y
        simp only [hrf, true_and]
        rw [← hp]
        simp only [or_assoc]

end

section
variable {F : Type} [Scalar F]

/-- What `buildEdges` leaves in `vertexNeighbors` and `edges`. -/
theorem buildEdges_lists {m0 m : Mesh F}
    (hin : ∀ f ∈ m0.faces, f.removed = false →
      f.Distinct ∧ InRange m0.vertices.length f.v0 ∧ InRange m0.vertices.length f.v1 ∧
      InRange m0.vertices.length f.v2)
    (h : buildEdges m0 = Except.ok m) :
    m.vertices = m0.vertices ∧ m.faces = m0.faces ∧
    m.vertexNeighbors.length = m0.vertices.length ∧
    (∀ a b, adjacent m.vertexNeighbors a b = true ↔
      ∃ f ∈ m0.faces, f.removed = false ∧ f.hasCorner a ∧ f.hasCorner b ∧ a ≠ b) ∧
    (m.edges.map (fun e => (e.v0, e.v1))).Nodup ∧
    (∀ x y, (x, y) ∈ m.edges.map (fun e => (e.v0, e.v1)) ↔
      ∃ f ∈ m0.faces, f.removed = false ∧ f.hasCorner x ∧ f.hasCorner y ∧ x < y) ∧
    (∀ e ∈ m.edges, e.cost = fzero ∧ e.optimalPos = ⟨fzero, fzero, fzero⟩) := by
  obtain ⟨st', q1, q2, ⟨k1, k2, k3⟩, q4, q5⟩ := buildEdgesLoop_exact (F := F)
    (n := m0.vertices.length) m0.faces (List.replicate m0.vertices.length [], [], [])
    (by simp) ⟨rfl, List.nodup_nil, by intro r hr; cases hr⟩ hin
  unfold buildEdges at h
  simp only [q1, bind_ok, pure_eq_ok] at h
  cases h
  refine ⟨rfl, rfl, q2, ?_, ?_, ?_, k3⟩
  · intro a b
    rw [q4 a b, adjacent_replicate_nil]
    simp
  · show (st'.2.2.map (fun e => (e.v0, e.v1))).Nodup
    rw [k1]
    exact List.nodup_reverse.mpr k2
  · intro x y
    show (x, y) ∈ st'.2.2.map (fun e => (e.v0, e.v1)) ↔ _
    rw [k1, List.mem_reverse, q5 x y]
    simp

theorem buildEdges_total {m0 : Mesh F}
    (hin : ∀ f ∈ m0.faces, f.removed = false →
      f.Distinct ∧ InRange m0.vertices.length f.v0 ∧ InRange m0.vertices.length f.v1 ∧
      InRange m0.vertices.length f.v2) :
    ∃ m, buildEdges m0 = Except.ok m := by
  obtain ⟨st', q1, -⟩ := buildEdgesLoop_exact (F := F)
    (n := m0.vertices.length) m0.faces (List.replicate m0.vertices.length [], [], [])
    (by simp) ⟨rfl, List.nodup_nil, by intro r hr; cases hr⟩ hin
  refine ⟨{ m0 with vertexNeighbors := st'.1, edges := st'.2.2 }, ?_⟩
  unfold buildEdges
  simp only [q1, bind_ok, pure_eq_ok]

theorem seedHeap_mem {pq : PQ F} (hpq : pq.Lawful) {m : Mesh F} :
    ∀ (es : List (Edge F)) (h h' : List (Edge F)), seedHeap pq m es h = Except.ok h' →
      ∀ r ∈ h', r ∈ h ∨ ∃ e ∈ es, r.v0 = e.v0 ∧ r.v1 = e.v1 := by
  intro es
  induction es with
  | nil =>
    intro h h' hh r hr
    rw [seedHeap] at hh
    cases hh
    exact Or.inl hr
  | cons e es ih =>
    intro h h' hh r hr
    rw [seedHeap] at hh
    simp only [bind_eq_ok] at hh
    obtain ⟨res, -, hh⟩ := hh
    rcases ih _ h' hh r hr with h1 | ⟨e', he', h2⟩
    · rcases List.mem_cons.mp ((hpq.1 _ _).mem_iff.mp h1) with h2 | h2
      · exact Or.inr ⟨e, List.mem_cons_self _ _, by rw [h2], by rw [h2]⟩
      · exact Or.inl h2
    · exact Or.inr ⟨e', List.mem_cons_of_mem _ he', h2⟩

theorem reseed_mem {pq : PQ F} (hpq : pq.Lawful) {m : Mesh F} {vA : Int} :
    ∀ (L : List Int) (h h' : List (Edge F)), reseed pq m vA L h = Except.ok h' →
      ∀ r ∈ h', r ∈ h ∨ (r.v0 = vA ∧ r.v1 ∈ L) := by
  intro L
  induction L with
  | nil =>
    intro h h' hh r hr
    rw [reseed] at hh
    cases hh
    exact Or.inl hr
  | cons x rest ih =>
    intro h h' hh r hr
    rw [reseed] at hh
    simp only [bind_eq_ok] at hh
    obtain ⟨res, -, hh⟩ := hh
    rcases ih _ h' hh r hr with h1 | ⟨h1, h2⟩
    · rcases List.mem_cons.mp ((hpq.1 _ _).mem_iff.mp h1) with h2 | h2
      · exact Or.inr ⟨by rw [h2], by rw [h2]; exact List.mem_cons_self _ _⟩
      · exact Or.inl h2
    · exact Or.inr ⟨h1, List.mem_cons_of_mem _ h2⟩

/-- C20. For every mesh whose non-removed faces have in-range, pairwise
    distinct corners, `buildEdges` returns, leaves vertices and faces as they
    are, and (a) `b ∈ N(a)` holds exactly when `a ≠ b` and some non-removed
    face has both `a` and `b` as corners, so that adjacency is symmetric and
    irreflexive; (b) the seed edge list holds, each exactly once, the pairs
    `(x, y)` with `x < y` such that some non-removed face has both `x` and `y`
    as corners, and nothing else; cost and position of every seed record are
    zero. -/
theorem buildEdges_establishes_adjacency (m0 : Mesh F)
    (hin : ∀ f ∈ m0.faces, f.removed = false →
      f.Distinct ∧ InRange m0.vertices.length f.v0 ∧ InRange m0.vertices.length f.v1 ∧
      InRange m0.vertices.length f.v2) :
    ∃ m, buildEdges m0 = Except.ok m ∧ m.vertices = m0.vertices ∧ m.faces = m0.faces ∧
      m.vertexNeighbors.length = m0.vertices.length ∧
      (∀ a b, adjacent m.vertexNeighbors a b = true ↔
        a ≠ b ∧ ∃ f ∈ m0.faces, f.removed = false ∧ f.hasCorner a ∧ f.hasCorner b) ∧
      AdjSymm m.vertexNeighbors ∧ AdjIrrefl m.vertexNeighbors ∧
      (m.edges.map (fun e => (e.v0, e.v1))).Nodup ∧
      (∀ x y, (x, y) ∈ m.edges.map (fun e => (e.v0, e.v1)) ↔
        x < y ∧ ∃ f ∈ m0.faces, f.removed = false ∧ f.hasCorner x ∧ f.hasCorner y) ∧
      (∀ e ∈ m.edges, e.cost = fzero ∧ e.optimalPos = ⟨fzero, fzero, fzero⟩) := by
  obtain ⟨m, hm⟩ := buildEdges_total hin
  obtain ⟨e1, e2, e3, e4, e5, e6, e7⟩ := buildEdges_lists hin hm
  have hadj : ∀ a b, adjacent m.vertexNeighbors a b = true ↔
      a ≠ b ∧ ∃ f ∈ m0.faces, f.removed = false ∧ f.hasCorner a ∧ f.hasCorner b := by
    intro a b
    rw [e4 a b]
    constructor
    · rintro ⟨f, hf, h1, h2, h3, h4⟩
      exact ⟨h4, f, hf, h1, h2, h3⟩
    · rintro ⟨h4, f, hf, h1, h2, h3⟩
      exact ⟨f, hf, h1, h2, h3, h4⟩
  refine ⟨m, hm, e1, e2, e3, hadj, ?_, ?_, e5, ?_, e7⟩
  · intro a b hab
    obtain ⟨h4, f, hf, h1, h2, h3⟩ := (hadj a b).mp hab
    exact (hadj b a).mpr ⟨fun h => h4 h.symm, f, hf, h1, h3, h2⟩
  · intro a
    rw [Bool.eq_false_iff]
    intro hab
    exact ((hadj a a).mp hab).1 rfl
  · intro x y
    rw [e6 x y]
    constructor
    · rintro ⟨f, hf, h1, h2, h3, h4⟩
      exact ⟨h4, f, hf, h1, h2, h3⟩
    · rintro ⟨h4, f, hf, h1, h2, h3⟩
      exact ⟨f, hf, h1, h2, h3, h4⟩

/-- C15 (amended). Every record of the seed edge list that `buildEdges`
    builds from faces with in-range, pairwise distinct corners has
    `v0 < v1`, and so has every record that the seeding loop of
    `simplifyMesh` pushes.  A record pushed by the re-seed step of
    `collapseEdge (vA, vB)` is `(vA, n)` for a neighbor `n ≠ vA` of the
    surviving vertex `vA` after the collapse: its first index is the survivor,
    whichever of the two indices is smaller. -/
theorem edge_records_orientation (pq : PQ F) (hpq : pq.Lawful) :
    (∀ m0 m : Mesh F,
      (∀ f ∈ m0.faces, f.removed = false →
        f.Distinct ∧ InRange m0.vertices.length f.v0 ∧ InRange m0.vertices.length f.v1 ∧
        InRange m0.vertices.length f.v2) →
      buildEdges m0 = Except.ok m → ∀ e ∈ m.edges, e.v0 < e.v1) ∧
    (∀ (m : Mesh F) (h : List (Edge F)), (∀ e ∈ m.edges, e.v0 < e.v1) →
      seedHeap pq m m.edges [] = Except.ok h → ∀ r ∈ h, r.v0 < r.v1) ∧
    (∀ (m m' : Mesh F) (e : Edge F), AdjShape m.vertices.length m.vertexNeighbors →
      AdjIrrefl m.vertexNeighbors → e.v0 ≠ e.v1 → collapseEdge pq m e = Except.ok m' →
      ∀ r ∈ m'.edgeHeap, r ∈ m.edgeHeap ∨
        (r.v0 = e.v0 ∧ adjacent m'.vertexNeighbors e.v0 r.v1 = true ∧ r.v1 ≠ r.v0)) := by
  refine ⟨?_, ?_, ?_⟩
  · intro m0 m hin hm e he
    obtain ⟨-, -, -, -, -, e6, -⟩ := buildEdges_lists hin hm
    have : (e.v0, e.v1) ∈ m.edges.map (fun e => (e.v0, e.v1)) :=
      List.mem_map.mpr ⟨e, he, rfl⟩
    obtain ⟨f, -, -, -, -, hlt⟩ := (e6 _ _).mp this
    exact hlt
  · intro m h hes hh r hr
    rcases seedHeap_mem hpq m.edges [] h hh r hr with h1 | ⟨e, he, h1, h2⟩
    · cases h1
    · rw [h1, h2]; exact hes e he
  · intro m m' e hshape hirr hne hc r hr
    obtain ⟨-, -, -, -, nA, hnA, hrs⟩ := collapseEdge_eq_ok hc
    obtain ⟨hafter, -, -⟩ := collapseEdge_adjAfter hshape (hirr e.v1) hne hc
    have hirr' := adjAfter_irrefl hafter hirr
    rcases reseed_mem hpq nA m.edgeHeap m'.edgeHeap hrs r hr with h1 | ⟨h1, h2⟩
    · exact Or.inl h1
    · have hadj : adjacent m'.vertexNeighbors e.v0 r.v1 = true :=
        adjacent_iff.mpr ⟨nA, hnA, h2⟩
      refine Or.inr ⟨h1, hadj, ?_⟩
      intro heq
      rw [h1] at heq
      rw [heq, hirr' e.v0] at hadj
      cases hadj

end

theorem buildEdges_tetraP_seeds :
    (buildEdges tetraP).map
        (fun m => (m.edges.map (fun e => (e.v0, e.v1)), m.vertexNeighbors))
      = Except.ok ([(1, 2), (0, 1), (0, 2), (0, 3), (2, 3), (1, 3)],
          [[1, 2, 3], [0, 2, 3], [0, 1, 3], [0, 1, 2]]) := by
  decide!

/-- C15, counterexample. On the tetrahedron `tetraP` with target 2 the six
    seed records have pairwise different costs; the cheapest, `(2, 3)`, is
    collapsed, and the re-seed step of `collapseEdge` pushes the records
    `(2, 0)` and `(2, 1)`, whose first index is the larger one. -/
theorem reseed_record_not_canonical_counterexample :
    (buildEdges tetraP >>= simplifyInit (listPQ ℚ)).map
        (fun s => s.mesh.edgeHeap.map (fun e => (e.v0, e.v1, e.cost)))
      = Except.ok [(1, 2, 6 / 13), (0, 1, 24 / 37), (0, 2, 72 / 151), (0, 3, 12 / 23),
          (2, 3, 24 / 61), (1, 3, 72 / 143)] ∧
    (buildEdges tetraP >>= fun m => simplifyRun (listPQ ℚ) 2 m 2).map
        (fun s => (s.collapseCount, s.mesh.edgeHeap.map (fun e => (e.v0, e.v1, e.cost))))
      = Except.ok (1, [(1, 2, 6 / 13), (0, 1, 24 / 37), (0, 2, 72 / 151), (0, 3, 12 / 23),
          (1, 3, 72 / 143), (2, 0, 72 / 95), (2, 1, 108 / 145)]) ∧
    (buildEdges tetraP >>= fun m => simplifyRun (listPQ ℚ) 2 m 2).map
        (fun s => decide (∀ r ∈ s.mesh.edgeHeap, r.v0 < r.v1)) = Except.ok false := by
  refine ⟨by decide!, by decide!, by decide!⟩

/-- C15 (amended) for the queue `listPQ`. -/
theorem edge_records_orientation_witness :
    (listPQ ℚ).Lawful ∧
    ((∀ m0 m : Mesh ℚ,
      (∀ f ∈ m0.faces, f.removed = false →
        f.Distinct ∧ InRange m0.vertices.length f.v0 ∧ InRange m0.vertices.length f.v1 ∧
        InRange m0.vertices.length f.v2) →
      buildEdges m0 = Except.ok m → ∀ e ∈ m.edges, e.v0 < e.v1) ∧
    (∀ (m : Mesh ℚ) (h : List (Edge ℚ)), (∀ e ∈ m.edges, e.v0 < e.v1) →
      seedHeap (listPQ ℚ) m m.edges [] = Except.ok h → ∀ r ∈ h, r.v0 < r.v1) ∧
    (∀ (m m' : Mesh ℚ) (e : Edge ℚ), AdjShape m.vertices.length m.vertexNeighbors →
      AdjIrrefl m.vertexNeighbors → e.v0 ≠ e.v1 →
      collapseEdge (listPQ ℚ) m e = Except.ok m' →
      ∀ r ∈ m'.edgeHeap, r ∈ m.edgeHeap ∨
        (r.v0 = e.v0 ∧ adjacent m'.vertexNeighbors e.v0 r.v1 = true ∧ r.v1 ≠ r.v0))) :=
  ⟨listPQ_lawful, edge_records_orientation (listPQ ℚ) listPQ_lawful⟩

/-- C20 on the tetrahedron `tetra`. -/
theorem buildEdges_establishes_adjacency_witness :
    (∀ f ∈ tetra.faces, f.removed = false →
      f.Distinct ∧ InRange tetra.vertices.length f.v0 ∧ InRange tetra.vertices.length f.v1 ∧
      InRange tetra.vertices.length f.v2) ∧
    buildEdges tetra = Except.ok tetraBuilt ∧
    ∃ m, buildEdges tetra = Except.ok m ∧ m.vertices = tetra.vertices ∧
      m.faces = tetra.faces ∧
      m.vertexNeighbors.length = tetra.vertices.length ∧
      (∀ a b, adjacent m.vertexNeighbors a b = true ↔
        a ≠ b ∧ ∃ f ∈ tetra.faces, f.removed = false ∧ f.hasCorner a ∧ f.hasCorner b) ∧
      AdjSymm m.vertexNeighbors ∧ AdjIrrefl m.vertexNeighbors ∧
      (m.edges.map (fun e => (e.v0, e.v1))).Nodup ∧
      (∀ x y, (x, y) ∈ m.edges.map (fun e => (e.v0, e.v1)) ↔
        x < y ∧ ∃ f ∈ tetra.faces, f.removed = false ∧ f.hasCorner x ∧ f.hasCorner y) ∧
      (∀ e ∈ m.edges, e.cost = fzero ∧ e.optimalPos = ⟨fzero, fzero, fzero⟩) :=
  ⟨by decide, buildEdges_tetra, buildEdges_establishes_adjacency tetra (by decide)⟩

/-! ## Exact arithmetic: quadrics are positive semi-definite -/

theorem quadForm_plane (p v : Vec4 ℚ) :
    Vec4.dot v (Mat4.mulVec (Mat4.outerProduct p p) v) = (Vec4.dot p v) ^ 2 := by
  simp only [Vec4.dot, Mat4.mulVec, Mat4.outerProduct, Vec4.add, Vec4.smul]
  ring

theorem quadForm_add (A B : Mat4 ℚ) (v : Vec4 ℚ) :
    Vec4.dot v (Mat4.mulVec (Mat4.add A B) v) =
      Vec4.dot v (Mat4.mulVec A v) + Vec4.dot v (Mat4.mulVec B v) := by
  simp only [Vec4.dot, Mat4.mulVec, Mat4.add, Vec4.add, Vec4.smul]
  ring

theorem quadForm_zero (v : Vec4 ℚ) : Vec4.dot v (Mat4.mulVec Mat4.zero v) = 0 := by
  simp only [Vec4.dot, Mat4.mulVec, Mat4.zero, Vec4.add, Vec4.smul, fzero, Scalar.lit]
  ring

theorem quadForm_nonneg {Q : Mat4 ℚ} (h : IsPlaneSum Q) (v : Vec4 ℚ) :
    0 ≤ Vec4.dot v (Mat4.mulVec Q v) := by
  induction h with
  | zero => rw [quadForm_zero]
  | plane p => rw [quadForm_plane]; exact sq_nonneg _
  | add _ _ ihA ihB => rw [quadForm_add]; exact add_nonneg ihA ihB

theorem isSymm_rat {Q : Mat4 ℚ} (h : IsPlaneSum Q) : Q.IsSymm :=
  isSymm_of_isPlaneSum (fun a b => mul_comm a b) h

/-- `collapseEdge` keeps the quadrics sums of plane quadrics. -/
theorem collapseVertices_isPlaneSum {F : Type} [Scalar F] {vs vs' : List (Vertex F)}
    {e : Edge F} (h : collapseVertices vs e = Except.ok vs')
    (hq : ∀ v ∈ vs, IsPlaneSum v.Q) : ∀ v ∈ vs', IsPlaneSum v.Q := by
  unfold collapseVertices at h
  simp only [bind_eq_ok, pure_eq_ok, Except.ok.injEq] at h
  obtain ⟨a, ha, a1, ha1, b1, hb1, b2, hb2, rfl⟩ := h
  have q1 : ∀ v ∈ setAt vs e.v0 { a with position := e.optimalPos }, IsPlaneSum v.Q := by
    intro v hv
    rcases mem_setAt hv with rfl | hv
    · exact hq a (getAt_mem ha)
    · exact hq v hv
  have q2 : ∀ v ∈ setAt (setAt vs e.v0 { a with position := e.optimalPos }) e.v0
      { a1 with Q := Mat4.add a1.Q b1.Q }, IsPlaneSum v.Q := by
    intro v hv
    rcases mem_setAt hv with rfl | hv
    · exact IsPlaneSum.add (q1 a1 (getAt_mem ha1)) (q1 b1 (getAt_mem hb1))
    · exact q1 v hv
  intro v hv
  rcases mem_setAt hv with rfl | hv
  · exact q2 b2 (getAt_mem hb2)
  · exact q2 v hv

/-- After `computeVertexQuadrics` every quadric is a sum of plane quadrics. -/
theorem computeVertexQuadrics_isPlaneSum {F : Type} [Scalar F] {m m' : Mesh F}
    (hin : ∀ f ∈ m.faces, f.removed = false →
      InRange m.vertices.length f.v0 ∧ InRange m.vertices.length f.v1 ∧
      InRange m.vertices.length f.v2)
    (hd : ∀ f ∈ m.faces, contributes m.vertices f = true → f.Distinct)
    (h : computeVertexQuadrics m = Except.ok m') : ∀ i v, getAt m'.vertices i = Except.ok v →
      IsPlaneSum v.Q := by
  obtain ⟨m2, e1, e2⟩ := computeVertexQuadrics_sum hin hd
  rw [h] at e1
  cases e1
  obtain ⟨m3, f1, n1, -⟩ := quadricLoop_spec m.faces
    (m.vertices.map (fun v => { v with Q := (Mat4.zero : Mat4 F) }))
    (by simpa only [List.length_map] using hin)
  intro i v hv
  have hlen : m'.vertices.length = m.vertices.length := by
    unfold computeVertexQuadrics at h
    simp only [f1, bind_ok, pure_eq_ok] at h
    cases h
    simpa using n1
  obtain ⟨w, hw⟩ := getAt_of_inRange (l := m.vertices) (by rw [← hlen]; exact getAt_inRange hv)
  have := e2 i w hw
  rw [hv] at this
  cases this
  exact isPlaneSum_quadricSum _ _ _

/-- C17. In exact arithmetic, for all vertices `v0`, `v1` whose quadrics are
    sums of plane outer products `p pᵀ`, `computeEdgeCollapse` returns a cost
    that is not negative, in the solved branch and in the midpoint branch. -/
theorem computeEdgeCollapse_cost_nonneg (m : Mesh ℚ) (v0 v1 : Int) (a b : Vertex ℚ)
    (ha : getAt m.vertices v0 = Except.ok a) (hb : getAt m.vertices v1 = Except.ok b)
    (hQa : IsPlaneSum a.Q) (hQb : IsPlaneSum b.Q) :
    ∃ res, computeEdgeCollapse m v0 v1 = Except.ok res ∧
      res.cost = quadricError (Mat4.add a.Q b.Q) res.vBar ∧ 0 ≤ res.cost ∧
      ∀ p : Vec3 ℚ, 0 ≤ quadricError (Mat4.add a.Q b.Q) p := by
  refine ⟨_, computeEdgeCollapse_value ha hb, rfl, ?_, ?_⟩
  · exact quadForm_nonneg (IsPlaneSum.add hQa hQb) _
  · intro p
    exact quadForm_nonneg (IsPlaneSum.add hQa hQb) _

theorem computeVertexQuadrics_tetra :
    computeVertexQuadrics tetraBuilt = Except.ok tetraQuadrics := by decide!

theorem isPlaneSum_tetraQuadrics (i : Int) (v : Vertex ℚ)
    (h : getAt tetraQuadrics.vertices i = Except.ok v) : IsPlaneSum v.Q :=
  computeVertexQuadrics_isPlaneSum (m := tetraBuilt) (by decide)
    (fun f _ => contributes_distinct_rat _ f) computeVertexQuadrics_tetra i v h

/-- C17 on the tetrahedron after `computeVertexQuadrics`, pair `(0, 1)`: the
    solved branch, cost `24/61`. -/
theorem computeEdgeCollapse_cost_nonneg_witness :
    getAt tetraQuadrics.vertices 0 = Except.ok tetraV0 ∧
    getAt tetraQuadrics.vertices 1 = Except.ok tetraV1 ∧
    IsPlaneSum tetraV0.Q ∧ IsPlaneSum tetraV1.Q ∧
    computeEdgeCollapse tetraQuadrics 0 1
      = Except.ok ⟨⟨4 / 61, 6 / 61, 24 / 61⟩, 24 / 61, true⟩ ∧
    ∃ res, computeEdgeCollapse tetraQuadrics 0 1 = Except.ok res ∧
      res.cost = quadricError (Mat4.add tetraV0.Q tetraV1.Q) res.vBar ∧ 0 ≤ res.cost ∧
      ∀ p : Vec3 ℚ, 0 ≤ quadricError (Mat4.add tetraV0.Q tetraV1.Q) p :=
  ⟨rfl, rfl, isPlaneSum_tetraQuadrics 0 _ rfl, isPlaneSum_tetraQuadrics 1 _ rfl, by decide!,
    computeEdgeCollapse_cost_nonneg tetraQuadrics 0 1 tetraV0 tetraV1 rfl rfl
      (isPlaneSum_tetraQuadrics 0 _ rfl) (isPlaneSum_tetraQuadrics 1 _ rfl)⟩

/-! ## Exact arithmetic: the solved branch of `computeEdgeCollapse` -/

theorem determinant_qDash (Q : Mat4 ℚ) :
    Mat4.determinant (qDash Q) =
      Q.c0.x * (Q.c1.y * Q.c2.z - Q.c2.y * Q.c1.z)
        - Q.c1.x * (Q.c0.y * Q.c2.z - Q.c2.y * Q.c0.z)
        + Q.c2.x * (Q.c0.y * Q.c1.z - Q.c1.y * Q.c0.z) := by
  simp only [Mat4.determinant, qDash, fzero, fone, Scalar.lit]
  ring

/-- `glm::inverse` solves the system `Q' v = (0, 0, 0, 1)` when `det Q' ≠ 0`,
    and the solution has fourth component 1. -/
theorem inverse_solves (Q : Mat4 ℚ) (hd : Mat4.determinant (qDash Q) ≠ 0) :
    Mat4.mulVec (qDash Q) (Mat4.mulVec (Mat4.inverse (qDash Q)) ⟨0, 0, 0, 1⟩) = ⟨0, 0, 0, 1⟩ ∧
    (Mat4.mulVec (Mat4.inverse (qDash Q)) ⟨0, 0, 0, 1⟩).w = 1 := by
  rw [determinant_qDash] at hd
  obtain ⟨⟨a0, a1, a2, a3⟩, ⟨b0, b1, b2, b3⟩, ⟨c0, c1, c2, c3⟩, ⟨d0, d1, d2, d3⟩⟩ := Q
  simp only [Mat4.mulVec, Mat4.inverse, qDash, Mat4.smul, Vec4.add, Vec4.smul, fzero, fone,
    Scalar.lit] at hd ⊢
  have hw : ∀ E : ℚ, E = (a0 * (b1 * c2 - c1 * b2) - b0 * (a1 * c2 - c1 * a2)
      + c0 * (a1 * b2 - b1 * a2)) * (a0 * (b1 * c2 - c1 * b2) - b0 * (a1 * c2 - c1 * a2)
      + c0 * (a1 * b2 - b1 * a2))⁻¹ → E = 1 := by
    intro E hE
    rw [hE]
    exact mul_inv_cancel₀ hd
  refine ⟨?_, ?_⟩
  · congr 1
    · ring
    · ring
    · ring
    · apply hw
      ring
  · apply hw
    ring

/-- The first three rows of `Q'` are those of `Q`. -/
theorem mulVec_qDash (Q : Mat4 ℚ) (v : Vec4 ℚ) :
    (Mat4.mulVec (qDash Q) v).x = (Mat4.mulVec Q v).x ∧
    (Mat4.mulVec (qDash Q) v).y = (Mat4.mulVec Q v).y ∧
    (Mat4.mulVec (qDash Q) v).z = (Mat4.mulVec Q v).z := by
  exact ⟨rfl, rfl, rfl⟩

theorem homog_xyz (V : Vec4 ℚ) (h : V.w = 1) : homog (Vec4.xyz V) = V := by
  obtain ⟨x, y, z, w⟩ := V
  simp only at h
  subst h
  rfl

/-- A point at which the first three rows of a symmetric positive
    semi-definite `Q` vanish minimises the quadric error. -/
theorem quadricError_min (Q : Mat4 ℚ) (hs : Q.IsSymm)
    (hpsd : ∀ w : Vec4 ℚ, 0 ≤ Vec4.dot w (Mat4.mulVec Q w)) (p : Vec3 ℚ)
    (h1 : (Mat4.mulVec Q (homog p)).x = 0) (h2 : (Mat4.mulVec Q (homog p)).y = 0)
    (h3 : (Mat4.mulVec Q (homog p)).z = 0) (x : Vec3 ℚ) :
    quadricError Q p ≤ quadricError Q x := by
  have key : quadricError Q x = quadricError Q p
      + 2 * ((x.x - p.x) * (Mat4.mulVec Q (homog p)).x
        + (x.y - p.y) * (Mat4.mulVec Q (homog p)).y
        + (x.z - p.z) * (Mat4.mulVec Q (homog p)).z)
      + Vec4.dot ⟨x.x - p.x, x.y - p.y, x.z - p.z, 0⟩
          (Mat4.mulVec Q ⟨x.x - p.x, x.y - p.y, x.z - p.z, 0⟩) := by
    obtain ⟨s1, s2, s3, s4, s5, s6⟩ := hs
    obtain ⟨⟨a0, a1, a2, a3⟩, ⟨b0, b1, b2, b3⟩, ⟨c0, c1, c2, c3⟩, ⟨d0, d1, d2, d3⟩⟩ := Q
    simp only at s1 s2 s3 s4 s5 s6
    subst s1 s2 s3 s4 s5 s6
    simp only [quadricError, homog, Vec4.dot, Mat4.mulVec, Vec4.add, Vec4.smul, fone,
      Scalar.lit]
    ring
  rw [key, h1, h2, h3]
  have := hpsd ⟨x.x - p.x, x.y - p.y, x.z - p.z, 0⟩
  linarith

theorem abs_lt_ne_zero {d : ℚ} (h : Scalar.lt (Scalar.lit (1 / 10000) : ℚ) (Scalar.abs d) = true) :
    d ≠ 0 := by
  intro hd
  subst hd
  revert h
  decide!

/-- C18. In exact arithmetic, whenever `computeEdgeCollapse(v0, v1)` returns
    `valid = true` and `Q(v0)`, `Q(v1)` are sums of plane outer products, the
    point `(vBar, 1)` satisfies `Q' (vBar, 1) = (0, 0, 0, 1)`, `Q'` being
    `Q(v0) + Q(v1)` with its fourth row overwritten by `(0, 0, 0, 1)`, and
    `vBar` minimises the quadric error: the returned cost is
    `(vBar, 1)ᵀ Q_edge (vBar, 1)` and is at most `(x, 1)ᵀ Q_edge (x, 1)` for
    every position `x`. -/
theorem computeEdgeCollapse_optimal (m : Mesh ℚ) (v0 v1 : Int) (a b : Vertex ℚ)
    (res : EdgeCollapseResult ℚ)
    (ha : getAt m.vertices v0 = Except.ok a) (hb : getAt m.vertices v1 = Except.ok b)
    (hQa : IsPlaneSum a.Q) (hQb : IsPlaneSum b.Q)
    (hres : computeEdgeCollapse m v0 v1 = Except.ok res) (hvalid : res.valid = true) :
    Mat4.mulVec (qDash (Mat4.add a.Q b.Q)) (homog res.vBar) = ⟨0, 0, 0, 1⟩ ∧
    res.cost = quadricError (Mat4.add a.Q b.Q) res.vBar ∧
    ∀ x : Vec3 ℚ, quadricError (Mat4.add a.Q b.Q) res.vBar ≤ quadricError (Mat4.add a.Q b.Q) x := by
  rw [computeEdgeCollapse_value ha hb] at hres
  have hres' := Except.ok.inj hres
  subst hres'
  dsimp only at hvalid ⊢
  rw [if_pos hvalid]
  have hdet := abs_lt_ne_zero hvalid
  obtain ⟨e1, e2⟩ := inverse_solves (Mat4.add a.Q b.Q) hdet
  have hh : homog (Vec4.xyz (Mat4.mulVec (Mat4.inverse (qDash (Mat4.add a.Q b.Q)))
      ⟨fzero, fzero, fzero, fone⟩)) =
      Mat4.mulVec (Mat4.inverse (qDash (Mat4.add a.Q b.Q))) ⟨0, 0, 0, 1⟩ :=
    homog_xyz _ e2
  have hsolve : Mat4.mulVec (qDash (Mat4.add a.Q b.Q))
      (homog (Vec4.xyz (Mat4.mulVec (Mat4.inverse (qDash (Mat4.add a.Q b.Q)))
        ⟨fzero, fzero, fzero, fone⟩))) = ⟨0, 0, 0, 1⟩ := by
    rw [hh]; exact e1
  refine ⟨hsolve, rfl, ?_⟩
  obtain ⟨r1, r2, r3⟩ := mulVec_qDash (Mat4.add a.Q b.Q)
    (homog (Vec4.xyz (Mat4.mulVec (Mat4.inverse (qDash (Mat4.add a.Q b.Q)))
      ⟨fzero, fzero, fzero, fone⟩)))
  rw [hsolve] at r1 r2 r3
  exact quadricError_min _ (isSymm_rat (IsPlaneSum.add hQa hQb))
    (quadForm_nonneg (IsPlaneSum.add hQa hQb)) _ r1.symm r2.symm r3.symm

/-- C18 on the tetrahedron after `computeVertexQuadrics`, pair `(0, 1)`. -/
theorem computeEdgeCollapse_optimal_witness :
    getAt tetraQuadrics.vertices 0 = Except.ok tetraV0 ∧
    getAt tetraQuadrics.vertices 1 = Except.ok tetraV1 ∧
    IsPlaneSum tetraV0.Q ∧ IsPlaneSum tetraV1.Q ∧
    computeEdgeCollapse tetraQuadrics 0 1
      = Except.ok ⟨⟨4 / 61, 6 / 61, 24 / 61⟩, 24 / 61, true⟩ ∧
    (Mat4.mulVec (qDash (Mat4.add tetraV0.Q tetraV1.Q))
        (homog (⟨4 / 61, 6 / 61, 24 / 61⟩ : Vec3 ℚ)) = ⟨0, 0, 0, 1⟩ ∧
      (24 / 61 : ℚ) = quadricError (Mat4.add tetraV0.Q tetraV1.Q) ⟨4 / 61, 6 / 61, 24 / 61⟩ ∧
      ∀ x : Vec3 ℚ, quadricError (Mat4.add tetraV0.Q tetraV1.Q) ⟨4 / 61, 6 / 61, 24 / 61⟩
        ≤ quadricError (Mat4.add tetraV0.Q tetraV1.Q) x) :=
  ⟨rfl, rfl, isPlaneSum_tetraQuadrics 0 _ rfl, isPlaneSum_tetraQuadrics 1 _ rfl, by decide!,
    computeEdgeCollapse_optimal tetraQuadrics 0 1 tetraV0 tetraV1
      ⟨⟨4 / 61, 6 / 61, 24 / 61⟩, 24 / 61, true⟩ rfl rfl
      (isPlaneSum_tetraQuadrics 0 _ rfl) (isPlaneSum_tetraQuadrics 1 _ rfl) (by decide!) rfl⟩

/-! ## The unit square with target 1 -/

theorem buildEdges_quad : buildEdges quad = Except.ok quadBuilt := by decide!

theorem computeVertexQuadrics_quad : computeVertexQuadrics quadBuilt = Except.ok quadQ := by
  decide!

theorem seedHeap_length {F : Type} [Scalar F] {pq : PQ F} (hpq : pq.Lawful) {m : Mesh F} :
    ∀ (es : List (Edge F)) (h h' : List (Edge F)), seedHeap pq m es h = Except.ok h' →
      h'.length = h.length + es.length := by
  intro es
  induction es with
  | nil =>
    intro h h' hh
    rw [seedHeap] at hh
    cases hh
    rfl
  | cons e es ih =>
    intro h h' hh
    rw [seedHeap] at hh
    simp only [bind_eq_ok] at hh
    obtain ⟨res, -, hh⟩ := hh
    rw [ih _ h' hh, (hpq.1 _ _).length_eq]
    simp only [List.length_cons]
    omega

/-- Facts about the five seed records of `quad`, by evaluation. -/
theorem quadSeeds_facts :
    (∀ e ∈ quadQ.edges, (computeEdgeCollapse quadQ e.v0 e.v1).map
      (fun res => decide ((⟨e.v0, e.v1, res.cost, res.vBar⟩ : Edge ℚ) ∈ quadSeeds))
        = Except.ok true) ∧
    (∀ e ∈ quadSeeds, accepts quadQ e = Except.ok true ∧ e.v0 ≠ e.v1 ∧
      InRange quadQ.vertices.length e.v0 ∧ InRange quadQ.vertices.length e.v1 ∧
      countActive (quadQ.faces.map (relabelFace e.v0 e.v1))
        = if e.v0 = 0 ∧ e.v1 = 2 then 0 else 1) := by
  refine ⟨by decide!, by decide!⟩

theorem seedHeap_quad (pq : PQ ℚ) (hpq : pq.Lawful) :
    ∃ h0, seedHeap pq quadQ quadQ.edges [] = Except.ok h0 ∧ h0.length = 5 ∧
      ∀ r ∈ h0, r ∈ quadSeeds := by
  obtain ⟨h0, hh⟩ := @seedHeap_ok ℚ _ pq quadQ quadQ.edges [] (by decide)
  refine ⟨h0, hh, ?_, ?_⟩
  · rw [seedHeap_length hpq _ _ _ hh]; rfl
  · intro r hr
    rcases seedHeap_mem hpq _ _ _ hh r hr with h1 | ⟨e, he, h1, h2⟩
    · cases h1
    · rcases seedHeap_fresh hpq _ _ _ hh r hr with h3 | ⟨res, hres, h3, h4⟩
      · cases h3
      · have hf := quadSeeds_facts.1 e he
        rw [← h1, ← h2, hres] at hf
        have hf' := Except.ok.inj hf
        rw [decide_eq_true_eq, ← h3, ← h4] at hf'
        exact hf'

theorem simplifyInit_quad (pq : PQ ℚ) (hpq : pq.Lawful) :
    ∃ h0, simplifyInit pq quadBuilt = Except.ok ⟨{ quadQ with edgeHeap := h0 }, 2, 0⟩ ∧
      h0.length = 5 ∧ ∀ r ∈ h0, r ∈ quadSeeds := by
  obtain ⟨h0, hh, hlen, hmem⟩ := seedHeap_quad pq hpq
  refine ⟨h0, ?_, hlen, hmem⟩
  unfold simplifyInit
  simp only [computeVertexQuadrics_quad, bind_ok, hh, pure_eq_ok]
  rfl

theorem loopStep_quad (pq : PQ ℚ) (hpq : pq.Lawful) (h0 : List (Edge ℚ))
    (hlen : h0.length = 5) (hmem : ∀ r ∈ h0, r ∈ quadSeeds) :
    ∃ e hp m2, pq.pop h0 = some (e, hp) ∧ e ∈ quadSeeds ∧
      m2.faces = quadQ.faces.map (relabelFace e.v0 e.v1) ∧
      loopStep pq 1 ⟨{ quadQ with edgeHeap := h0 }, 2, 0⟩
        = Except.ok (some ⟨m2, countActive m2.faces, 1⟩) := by
  cases hpop : pq.pop h0 with
  | none =>
    have := (hpq.2.1 h0).mp hpop
    rw [this] at hlen
    cases hlen
  | some p =>
    obtain ⟨e, hp⟩ := p
    have he0 : e ∈ h0 := (hpq.2.2 h0 e hp hpop).mem_iff.mpr (List.mem_cons_self _ _)
    have he := hmem e he0
    obtain ⟨hacc, hne, r0, r1, -⟩ := quadSeeds_facts.2 e he
    have hacc' : accepts { quadQ with edgeHeap := hp } e = Except.ok true := hacc
    have hshape : AdjShape quadQ.vertices.length quadQ.vertexNeighbors :=
      adjShape_of_forall (by decide)
    have hirr : AdjIrrefl quadQ.vertexNeighbors := adjIrrefl_of_forall (by decide)
    obtain ⟨m2, hm2⟩ := collapseEdge_ok hpq (m := { quadQ with edgeHeap := hp }) (e := e)
      hshape hne r0 r1 (hirr e.v1)
    obtain ⟨-, hfs, -⟩ := collapseEdge_eq_ok hm2
    refine ⟨e, hp, m2, rfl, he, hfs, ?_⟩
    unfold loopStep
    have hne0 : h0.isEmpty = false := by
      cases h0 with
      | nil => cases hlen
      | cons _ _ => rfl
    have hcond : (2 : Int) > 1 ∧ h0.isEmpty = false := ⟨by decide, hne0⟩
    rw [if_pos hcond]
    simp only [hpop, hacc', bind_ok, hm2, if_true, pure_eq_ok]
    rfl

/-- C19 (amended). On the unit square with target 1 and any lawful queue,
    `simplifyMesh` performs exactly one collapse.  The five seed records all
    have cost 0, so the queue may yield any of them first: when it is the
    diagonal `(0, 2)` both faces become removed and no face is left, when it
    is one of the four boundary edges one face is left. -/
theorem quad_one_collapse (pq : PQ ℚ) (hpq : pq.Lawful) :
    buildEdges quad = Except.ok quadBuilt ∧
    ∃ s0 e hp s, simplifyInit pq quadBuilt = Except.ok s0 ∧
      (∀ r ∈ s0.mesh.edgeHeap, r ∈ quadSeeds) ∧ s0.mesh.edgeHeap.length = 5 ∧
      pq.pop s0.mesh.edgeHeap = some (e, hp) ∧
      simplifyRun pq 1 quadBuilt 1 = Except.ok s ∧ s.collapseCount = 1 ∧
      s.mesh.faces = quadBuilt.faces.map (relabelFace e.v0 e.v1) ∧
      ((e.v0 = 0 ∧ e.v1 = 2) → countActive s.mesh.faces = 0) ∧
      (¬ (e.v0 = 0 ∧ e.v1 = 2) → countActive s.mesh.faces = 1) := by
  obtain ⟨h0, hinit, hlen, hmem⟩ := simplifyInit_quad pq hpq
  obtain ⟨e, hp, m2, hpop, he, hfs, hstep⟩ := loopStep_quad pq hpq h0 hlen hmem
  have hcount := (quadSeeds_facts.2 e he).2.2.2.2
  have hfs' : m2.faces = quadBuilt.faces.map (relabelFace e.v0 e.v1) := hfs
  have hc : countActive m2.faces = if e.v0 = 0 ∧ e.v1 = 2 then 0 else 1 := by
    rw [hfs]; exact hcount
  have hle : countActive m2.faces ≤ 1 := by
    rw [hc]; split <;> decide
  have hstep2 : loopStep pq 1 ⟨m2, countActive m2.faces, 1⟩ = Except.ok none := by
    unfold loopStep
    rw [if_neg (by intro hh; exact absurd hh.1 (by simpa using hle))]
    rfl
  have hloop : collapseLoop pq 1 1 ⟨{ quadQ with edgeHeap := h0 }, 2, 0⟩
      = Except.ok ⟨m2, countActive m2.faces, 1⟩ := by
    rw [collapseLoop]
    simp only [hstep, bind_ok]
    rw [collapseLoop]
    simp only [hstep2, bind_ok]
    rfl
  refine ⟨buildEdges_quad, _, e, hp, ⟨m2, countActive m2.faces, 1⟩, hinit, hmem, hlen, hpop,
    ?_, rfl, hfs', ?_, ?_⟩
  · unfold simplifyRun
    simp only [hinit, bind_ok, hloop]
  · intro hd
    show countActive m2.faces = 0
    rw [hc, if_pos hd]
  · intro hd
    show countActive m2.faces = 1
    rw [hc, if_neg hd]

/-- C19, counterexample. On the unit square with target 1 and a queue that
    serves equal costs in push order, the five seed records have cost 0, the
    first one, the boundary edge `(0, 1)`, is popped and collapsed, the loop
    ends after this one collapse, and the face `(0, 2, 3)` is still not
    removed: one face is left, not zero. -/
theorem quad_keeps_one_face_counterexample :
    buildEdges quad = Except.ok quadBuilt ∧
    (simplifyInit (listPQ ℚ) quadBuilt).map (fun s => s.mesh.edgeHeap) = Except.ok quadSeeds ∧
    (simplifyInit (listPQ ℚ) quadBuilt).map
        (fun s => ((listPQ ℚ).pop s.mesh.edgeHeap).map (fun p => (p.1.v0, p.1.v1)))
      = Except.ok (some (0, 1)) ∧
    (simplifyRun (listPQ ℚ) 1 quadBuilt 1).map
        (fun s => (s.collapseCount, countActive s.mesh.faces, s.mesh.faces))
      = Except.ok (1, 1, [⟨0, 0, 2, true⟩, ⟨0, 2, 3, false⟩]) ∧
    (simplifyMesh (listPQ ℚ) 1 quadBuilt 1).map (fun m => (countActive m.faces, m.faces))
      = Except.ok (1, [⟨0, 0, 2, true⟩, ⟨0, 1, 2, false⟩]) := by
  refine ⟨by decide!, by decide!, by decide!, by decide!, by decide!⟩

/-- C19 (amended) for the queue `listPQ`. -/
theorem quad_one_collapse_witness :
    (listPQ ℚ).Lawful ∧
    buildEdges quad = Except.ok quadBuilt ∧
    ∃ s0 e hp s, simplifyInit (listPQ ℚ) quadBuilt = Except.ok s0 ∧
      (∀ r ∈ s0.mesh.edgeHeap, r ∈ quadSeeds) ∧ s0.mesh.edgeHeap.length = 5 ∧
      (listPQ ℚ).pop s0.mesh.edgeHeap = some (e, hp) ∧
      simplifyRun (listPQ ℚ) 1 quadBuilt 1 = Except.ok s ∧ s.collapseCount = 1 ∧
      s.mesh.faces = quadBuilt.faces.map (relabelFace e.v0 e.v1) ∧
      ((e.v0 = 0 ∧ e.v1 = 2) → countActive s.mesh.faces = 0) ∧
      (¬ (e.v0 = 0 ∧ e.v1 = 2) → countActive s.mesh.faces = 1) :=
  ⟨listPQ_lawful, quad_one_collapse (listPQ ℚ) listPQ_lawful⟩

/-! ## `loadOBJ`: which lines add a record -/

section
variable {F : Type} [Scalar F]

theorem buildEdges_frame {m0 m : Mesh F} (h : buildEdges m0 = Except.ok m) :
    m.vertices = m0.vertices ∧ m.faces = m0.faces := by
  unfold buildEdges at h
  simp only [bind_eq_ok, pure_eq_ok, Except.ok.injEq] at h
  obtain ⟨st, -, rfl⟩ := h
  exact ⟨rfl, rfl⟩

theorem loadLine_vertex (rd : List Char → Vec3 F) (m : Mesh F) (l : List Char)
    (h : lineType l = ['v']) :
    loadLine rd m l = Except.ok
      { m with vertices := m.vertices ++ [⟨rd (lineRest l), false, Mat4.zero⟩] } := by
  unfold loadLine
  rw [if_pos h]
  rfl

theorem loadLine_face (rd : List Char → Vec3 F) (m : Mesh F) (l : List Char)
    (h : lineType l = ['f']) :
    loadLine rd m l =
      (readFace (lineRest l)).map (fun f => { m with faces := m.faces ++ [f] }) := by
  unfold loadLine
  rw [if_neg (by rw [h]; decide), if_pos h]
  cases readFace (lineRest l) <;> rfl

theorem loadLine_other (rd : List Char → Vec3 F) (m : Mesh F) (l : List Char)
    (hv : lineType l ≠ ['v']) (hf : lineType l ≠ ['f']) : loadLine rd m l = Except.ok m := by
  unfold loadLine
  rw [if_neg hv, if_neg hf]
  rfl

/-- Lines whose first word is neither `v` nor `f` can be deleted. -/
theorem loadLines_filter (rd : List Char → Vec3 F) :
    ∀ (ls : List (List Char)) (m : Mesh F),
      loadLines rd (ls.filter (fun l => decide (lineType l = ['v'] ∨ lineType l = ['f']))) m
        = loadLines rd ls m := by
  intro ls
  induction ls with
  | nil => intro m; rfl
  | cons l ls ih =>
    intro m
    by_cases h : lineType l = ['v'] ∨ lineType l = ['f']
    · rw [List.filter_cons_of_pos (by simpa using h)]
      rw [loadLines, loadLines]
      cases loadLine rd m l with
      | error e => rfl
      | ok m1 => simp only [bind_ok]; exact ih m1
    · rw [List.filter_cons_of_neg (by simpa using h), ih m]
      rw [not_or] at h
      rw [loadLines, loadLine_other rd m l h.1 h.2]
      rfl

/-- What the reading loop appends when it runs to its end. -/
theorem loadLines_ok (rd : List Char → Vec3 F) :
    ∀ (ls : List (List Char)) (m m' : Mesh F), loadLines rd ls m = Except.ok m' →
      m'.vertices = m.vertices ++
        (ls.filter (fun l => decide (lineType l = ['v']))).map
          (fun l => ⟨rd (lineRest l), false, Mat4.zero⟩) ∧
      ∃ fs, m'.faces = m.faces ++ fs ∧
        List.Forall₂ (fun l f => readFace (lineRest l) = Except.ok f)
          (ls.filter (fun l => decide (lineType l = ['f']))) fs := by
  intro ls
  induction ls with
  | nil =>
    intro m m' h
    rw [loadLines] at h
    cases h
    exact ⟨by simp, [], by simp, List.Forall₂.nil⟩
  | cons l ls ih =>
    intro m m' h
    rw [loadLines, bind_eq_ok] at h
    obtain ⟨m1, h1, h2⟩ := h
    obtain ⟨e1, fs, e2, e3⟩ := ih m1 m' h2
    by_cases hv : lineType l = ['v']
    · have hf : lineType l ≠ ['f'] := by rw [hv]; decide
      rw [loadLine_vertex rd m l hv] at h1
      cases h1
      rw [List.filter_cons_of_pos (by simpa using hv), List.filter_cons_of_neg (by simpa using hf)]
      refine ⟨?_, fs, e2, e3⟩
      rw [e1]
      simp
    · by_cases hf : lineType l = ['f']
      · rw [loadLine_face rd m l hf] at h1
        cases hr : readFace (lineRest l) with
        | error e => rw [hr] at h1; cases h1
        | ok f =>
          rw [hr] at h1
          cases h1
          rw [List.filter_cons_of_neg (by simpa using hv),
            List.filter_cons_of_pos (by simpa using hf)]
          refine ⟨e1, f :: fs, ?_, List.Forall₂.cons hr e3⟩
          rw [e2]
          simp
      · rw [loadLine_other rd m l hv hf] at h1
        cases h1
        rw [List.filter_cons_of_neg (by simpa using hv),
          List.filter_cons_of_neg (by simpa using hf)]
        exact ⟨e1, fs, e2, e3⟩

/-- The reading loop fails only at a face line that `readFace` rejects. -/
theorem loadLines_error (rd : List Char → Vec3 F) :
    ∀ (ls : List (List Char)) (m : Mesh F) (e : LoadFault),
      loadLines rd ls m = Except.error e →
      ∃ l ∈ ls, lineType l = ['f'] ∧ readFace (lineRest l) = Except.error e := by
  intro ls
  induction ls with
  | nil => intro m e h; rw [loadLines] at h; cases h
  | cons l ls ih =>
    intro m e h
    rw [loadLines] at h
    cases h1 : loadLine rd m l with
    | ok m1 =>
      rw [h1, bind_ok] at h
      obtain ⟨l', hl', q⟩ := ih m1 e h
      exact ⟨l', List.mem_cons_of_mem _ hl', q⟩
    | error e' =>
      rw [h1, bind_error] at h
      cases h
      by_cases hv : lineType l = ['v']
      · rw [loadLine_vertex rd m l hv] at h1; cases h1
      · by_cases hf : lineType l = ['f']
        · rw [loadLine_face rd m l hf] at h1
          refine ⟨l, List.mem_cons_self _ _, hf, ?_⟩
          cases hr : readFace (lineRest l) with
          | error e2 => rw [hr] at h1; cases h1; rfl
          | ok f => rw [hr] at h1; cases h1
        · rw [loadLine_other rd m l hv hf] at h1; cases h1

/-- C16 (amended). `loadOBJ` skips exactly the lines whose first word is
    neither `v` nor `f`: deleting them changes nothing.  When it returns, the
    vertex array has grown by one vertex for every line with first word `v`,
    whether or not three floats could be read, and the face array by one
    face for every line with first word `f`, read by `readFace`; the reading
    loop fails only with the exception that `std::stoi` throws at a face
    line. -/
theorem loadOBJ_reads_every_record (rd : List Char → Vec3 F) (m : Mesh F) (text : List Char) :
    loadLines rd ((getLines text).filter
        (fun l => decide (lineType l = ['v'] ∨ lineType l = ['f']))) m
      = loadLines rd (getLines text) m ∧
    (∀ m', loadOBJ rd m text = Except.ok m' →
      m'.vertices = m.vertices ++
        ((getLines text).filter (fun l => decide (lineType l = ['v']))).map
          (fun l => ⟨rd (lineRest l), false, Mat4.zero⟩) ∧
      ∃ fs, m'.faces = m.faces ++ fs ∧
        List.Forall₂ (fun l f => readFace (lineRest l) = Except.ok f)
          ((getLines text).filter (fun l => decide (lineType l = ['f']))) fs) ∧
    (∀ e, loadLines rd (getLines text) m = Except.error e →
      loadOBJ rd m text = Except.error e ∧
      ∃ l ∈ getLines text, lineType l = ['f'] ∧ readFace (lineRest l) = Except.error e) := by
  refine ⟨loadLines_filter rd _ m, ?_, ?_⟩
  · intro m' h
    unfold loadOBJ at h
    cases h1 : loadLines rd (getLines text) m with
    | error e => rw [h1, bind_error] at h; cases h
    | ok m1 =>
      rw [h1, bind_ok] at h
      cases h2 : buildEdges m1 with
      | error e => rw [h2] at h; cases h
      | ok m2 =>
        rw [h2] at h
        cases h
        obtain ⟨f1, f2⟩ := buildEdges_frame h2
        obtain ⟨e1, fs, e2, e3⟩ := loadLines_ok rd _ m m1 h1
        exact ⟨by rw [f1, e1], fs, by rw [f2, e2], e3⟩
  · intro e h
    refine ⟨?_, loadLines_error rd _ m e h⟩
    unfold loadOBJ
    rw [h]
    rfl

end

/-- The text of scenario S1 loads to the single triangle. -/
theorem loadOBJ_triangle :
    loadOBJ natReader emptyMesh "v 0 0 0\nv 1 0 0\nv 0 1 0\nf 1 2 3\n".toList
      = Except.ok triangleBuilt := by decide!

/-- C16, counterexample.  The line `v 0 0` holds two floats only, yet one
    vertex is loaded, while the text without that line loads none; the line
    `f 1 2` holds two corner tokens only, yet the face `(0, 1, 1)` is loaded;
    and the line `f a b c` ends the load with the exception
    `invalid_argument` of `std::stoi`. -/
theorem malformed_line_loaded_counterexample :
    (loadOBJ natReader emptyMesh "v 0 0\n".toList).map (fun m => m.vertices.length)
      = Except.ok 1 ∧
    (loadOBJ natReader emptyMesh "".toList).map (fun m => m.vertices.length) = Except.ok 0 ∧
    (loadOBJ natReader emptyMesh "v 0 0 0\nv 1 0 0\nf 1 2\n".toList).map (fun m => m.faces)
      = Except.ok [⟨0, 1, 1, false⟩] ∧
    (loadOBJ natReader emptyMesh "v 0 0 0\nv 1 0 0\n".toList).map (fun m => m.faces)
      = Except.ok [] ∧
    loadOBJ natReader emptyMesh "f a b c\n".toList = Except.error LoadFault.invalidArgument ∧
    (∀ rd : List Char → Vec3 ℚ,
      (loadLines rd (getLines "v 0 0\n".toList) emptyMesh).map (fun m => m.vertices.length)
        = Except.ok 1) := by
  refine ⟨by decide!, by decide!, by decide!, by decide!, by decide!, fun _ => rfl⟩

/-- C16 (amended) on the text of scenario S1 preceded by a comment line. -/
theorem loadOBJ_reads_every_record_witness :
    loadOBJ natReader emptyMesh "# tri\nv 0 0 0\nv 1 0 0\nv 0 1 0\nf 1 2 3\n".toList
      = Except.ok triangleBuilt ∧
    (loadLines natReader ((getLines "# tri\nv 0 0 0\nv 1 0 0\nv 0 1 0\nf 1 2 3\n".toList).filter
        (fun l => decide (lineType l = ['v'] ∨ lineType l = ['f']))) emptyMesh
      = loadLines natReader (getLines "# tri\nv 0 0 0\nv 1 0 0\nv 0 1 0\nf 1 2 3\n".toList)
          emptyMesh ∧
    (∀ m', loadOBJ natReader emptyMesh "# tri\nv 0 0 0\nv 1 0 0\nv 0 1 0\nf 1 2 3\n".toList
        = Except.ok m' →
      m'.vertices = emptyMesh.vertices ++
        ((getLines "# tri\nv 0 0 0\nv 1 0 0\nv 0 1 0\nf 1 2 3\n".toList).filter
          (fun l => decide (lineType l = ['v']))).map
          (fun l => ⟨natReader (lineRest l), false, Mat4.zero⟩) ∧
      ∃ fs, m'.faces = emptyMesh.faces ++ fs ∧
        List.Forall₂ (fun l f => readFace (lineRest l) = Except.ok f)
          ((getLines "# tri\nv 0 0 0\nv 1 0 0\nv 0 1 0\nf 1 2 3\n".toList).filter
            (fun l => decide (lineType l = ['f']))) fs) ∧
    (∀ e, loadLines natReader (getLines "# tri\nv 0 0 0\nv 1 0 0\nv 0 1 0\nf 1 2 3\n".toList)
        emptyMesh = Except.error e →
      loadOBJ natReader emptyMesh "# tri\nv 0 0 0\nv 1 0 0\nv 0 1 0\nf 1 2 3\n".toList
        = Except.error e ∧
      ∃ l ∈ getLines "# tri\nv 0 0 0\nv 1 0 0\nv 0 1 0\nf 1 2 3\n".toList,
        lineType l = ['f'] ∧ readFace (lineRest l) = Except.error e)) :=
  ⟨by decide!,
    loadOBJ_reads_every_record natReader emptyMesh
      "# tri\nv 0 0 0\nv 1 0 0\nv 0 1 0\nf 1 2 3\n".toList⟩

end QEM
